import Mathlib

/-!
# Apple Music ALAC downloader: demuxer, sample tables and oracle exchange

A shallow embedding of the parts of `src/main.go` that turn a fragmented,
encrypted container into samples (`extractSong`), stream the samples through
the decryption oracle (`decryptSong`) and synthesise the sample tables and
header boxes of the output container (`writeM4a`), together with the
resolution of the manifest (`extractMedia`), the partition of a ranged
download (`HttpDownloader.Split`) and the track loop of an album (`rip`).

Conventions of the embedding:

* Go byte slices and Go strings are lists of bytes (`List Nat`, every element
  below 256); `len` is `List.length`.
* Go unsigned integers are natural numbers; wherever the source does
  arithmetic or a conversion that can wrap, the model reduces modulo the
  width (`% 2 ^ 32`, `% 2 ^ 64`, `% 256`).
* The results of the calls into the box library (`mp4.ExtractBox`,
  `mp4.ExtractBoxWithPayload`) are inputs of the model: a list of boxes
  together with the error value of the call.
* A Go function that returns `(value, error)` yields `Outcome.returned`, and a
  run-time panic (slice bounds, index out of range) yields `Outcome.panicked`.
* The box writer (`mp4.Writer`) is represented by the file offsets and the
  errors it yields. Its call `EndBox` is modelled by `endBox`: a box opened
  with the 8-byte header is closed only if its size fits 32 bits.
-/

namespace AlacDownloader

/-! ## Data model -/

/-- Go byte slice. -/
abbrev Bytes := List Nat

/-- Go string, as its sequence of bytes. -/
abbrev GoString := List Nat

/-- Result of a Go function returning `(*T, error)`: either it returns a pair
(each component may be nil), or the run ends in a run-time panic. -/
inductive Outcome (α : Type) where
  | returned (val : Option α) (err : Option String)
  | panicked
  deriving DecidableEq, Repr

/-- Result of one call into the box library: the boxes found on the requested
path, in file order, and the error value returned next to them. -/
structure Extracted (α : Type) where
  boxes : List α
  err : Option String
  deriving DecidableEq, Repr

/-- Fields of `mp4.Trex` read by `extractSong`. -/
structure Trex where
  defaultSampleDuration : Nat
  defaultSampleSize : Nat
  deriving DecidableEq, Repr

/-- Fields of `mp4.Tfhd` read by `extractSong`. -/
structure Tfhd where
  flags : Nat
  sampleDescriptionIndex : Nat
  defaultSampleDuration : Nat
  defaultSampleSize : Nat
  deriving DecidableEq, Repr

/-- Entry of a run record (`mp4.TrunEntry`). -/
structure TrunEntry where
  sampleDuration : Nat
  sampleSize : Nat
  deriving DecidableEq, Repr

/-- Run record (`mp4.Trun`): its flags and its entries. -/
structure Trun where
  flags : Nat
  entries : List TrunEntry
  deriving DecidableEq, Repr

/-- The codec parameter box (`type Alac struct`, main.go 727-741). -/
structure Alac where
  frameLength : Nat
  compatibleVersion : Nat
  bitDepth : Nat
  pb : Nat
  mb : Nat
  kb : Nat
  numChannels : Nat
  maxRun : Nat
  maxFrameBytes : Nat
  avgBitRate : Nat
  sampleRate : Nat
  deriving DecidableEq, Repr

/-- One `enca` box: what extracting `alac` below it returns. -/
structure Enca where
  alac : Extracted Alac
  deriving DecidableEq, Repr

/-- One `stbl` box: what extracting `stsd/enca` below it returns. -/
structure Stbl where
  enca : Extracted Enca
  deriving DecidableEq, Repr

/-- One `moof` box: what extracting `traf/tfhd` and `traf/trun` below it
returns. -/
structure Moof where
  tfhd : Extracted Tfhd
  truns : Extracted Trun
  deriving DecidableEq, Repr

/-- The downloaded container as `extractSong` sees it through the box library:
the outcome of the download and the result of each top-level extraction.
`downloadPanics` stands for a failed HEAD or GET request: `check` records the
error, and the nil response is dereferenced right after (main.go 67, 87, 131),
a run-time panic. `downloadErr` is the error of `ioutil.ReadAll` on a response
body, which `check` records in `d.err` (main.go 133-135). -/
structure Container where
  downloadPanics : Bool := false
  downloadErr : Option String
  trex : Extracted Trex
  stbl : Extracted Stbl
  moofs : Extracted Moof
  mdats : Extracted Bytes
  deriving DecidableEq, Repr

/-- The sample record (`type SampleInfo struct`, main.go 710-714). -/
structure SampleInfo where
  data : Bytes
  duration : Nat
  descIndex : Nat
  deriving DecidableEq, Repr

/-- The demuxer output (`type SongInfo struct`, main.go 716-720); the reader
field `r` is the container itself and is not repeated here. -/
structure SongInfo where
  alacParam : Alac
  samples : List SampleInfo
  deriving DecidableEq, Repr

/-! ## extractSong (main.go 141-263) -/

/-- The method `CheckFlag` of the box library: `flags & flag != 0`. -/
def checkFlag (flags flag : Nat) : Bool :=
  flags &&& flag != 0

/-- The statement pair `info.data = mdat[:n]; mdat = mdat[n:]`. The first slice
expression is bounded by the capacity and the second by the length of `mdat`;
as the length never exceeds the capacity, the pair panics exactly when
`n > len(mdat)` (`none`), and otherwise yields the first `n` bytes and the
rest. -/
def sliceFront (n : Nat) (mdat : Bytes) : Option (Bytes × Bytes) :=
  if n ≤ mdat.length then some (mdat.take n, mdat.drop n) else none

/-- Body of the innermost loop (main.go 230-253) for one run entry `en` of run
record `t`: the sample built and the payload left, or `none` on a panic. -/
def sampleStep (trexPay : Trex) (tfhdPay : Tfhd) (index : Nat) (t : Trun)
    (en : TrunEntry) (mdat : Bytes) : Option (SampleInfo × Bytes) :=
  let sliced :=
    if checkFlag t.flags 0x200 then sliceFront en.sampleSize mdat
    else if checkFlag tfhdPay.flags 0x10 then sliceFront tfhdPay.defaultSampleSize mdat
    else sliceFront trexPay.defaultSampleSize mdat
  match sliced with
  | none => none
  | some (data, rest) =>
    let duration :=
      if checkFlag t.flags 0x100 then en.sampleDuration
      else if checkFlag tfhdPay.flags 0x8 then tfhdPay.defaultSampleDuration
      else trexPay.defaultSampleDuration
    some ({ data := data, duration := duration, descIndex := index }, rest)

/-- The loop `for _, en := range t.Payload.(*mp4.Trun).Entries` (main.go
229-254), threading the unconsumed payload and the sample list. -/
def entriesLoop (trexPay : Trex) (tfhdPay : Tfhd) (index : Nat) (t : Trun) :
    List TrunEntry → Bytes → List SampleInfo → Option (Bytes × List SampleInfo)
  | [], mdat, samples => some (mdat, samples)
  | en :: ens, mdat, samples =>
    match sampleStep trexPay tfhdPay index t en mdat with
    | none => none
    | some (info, rest) =>
      entriesLoop trexPay tfhdPay index t ens rest (samples ++ [info])

/-- The loop `for _, t := range truns` (main.go 228-255). -/
def trunsLoop (trexPay : Trex) (tfhdPay : Tfhd) (index : Nat) :
    List Trun → Bytes → List SampleInfo → Option (Bytes × List SampleInfo)
  | [], mdat, samples => some (mdat, samples)
  | t :: ts, mdat, samples =>
    match entriesLoop trexPay tfhdPay index t t.entries mdat samples with
    | none => none
    | some (rest, samples1) => trunsLoop trexPay tfhdPay index ts rest samples1

/-- The descriptor index of a fragment (main.go 214-217):
`index := tfhdPay.SampleDescriptionIndex; if index != 0 { index-- }`. -/
def fragmentIndex (tfhdPay : Tfhd) : Nat :=
  if tfhdPay.sampleDescriptionIndex != 0 then tfhdPay.sampleDescriptionIndex - 1
  else tfhdPay.sampleDescriptionIndex

/-- The loop `for i, moof := range moofs` (main.go 205-259), from fragment
number `i` on; `samples` is `extracted.samples` so far. The loop either runs
to its end with the final sample list, or leaves `extractSong` early with a
returned pair or a panic. -/
def fragmentsLoop (trexPay : Trex) (mdats : List Bytes) :
    Nat → List Moof → List SampleInfo → Outcome (List SampleInfo)
  | _, [], samples => .returned (some samples) none
  | i, moof :: rest, samples =>
    if moof.tfhd.err.isSome || moof.tfhd.boxes.length != 1 then
      .returned none moof.tfhd.err
    else
      match moof.tfhd.boxes.head? with
      | none => .panicked
      | some tfhdPay =>
        let index := fragmentIndex tfhdPay
        if moof.truns.err.isSome || moof.truns.boxes.length ≤ 0 then
          .returned none moof.truns.err
        else
          match mdats.get? i with
          | none => .panicked
          | some mdat =>
            match trunsLoop trexPay tfhdPay index moof.truns.boxes mdat samples with
            | none => .panicked
            | some (left, samples1) =>
              if left.length != 0 then .returned none (some "offset mismatch")
              else fragmentsLoop trexPay mdats (i + 1) rest samples1

/-- The function `extractSong` (main.go 141-263): the download, which panics
when a request fails and leaves `d.err` set when a body cannot be read, then
the sequence of extractions with their guards, then the fragment loop.
Indexing `trex[0]`, `stbl[0]`, `enca[0]`, `aalac[0]` panics on an empty list. -/
def extractSong (c : Container) : Outcome SongInfo :=
  if c.downloadPanics then .panicked
  else if c.downloadErr.isSome then .returned none c.downloadErr
  else if c.trex.err.isSome || c.trex.boxes.length != 1 then .returned none c.trex.err
  else
    match c.trex.boxes.head? with
    | none => .panicked
    | some trexPay =>
      if c.stbl.err.isSome || c.stbl.boxes.length != 1 then .returned none c.stbl.err
      else
        match c.stbl.boxes.head? with
        | none => .panicked
        | some stbl0 =>
          if stbl0.enca.err.isSome then .returned none stbl0.enca.err
          else
            match stbl0.enca.boxes.head? with
            | none => .panicked
            | some enca0 =>
              if enca0.alac.err.isSome || enca0.alac.boxes.length != 1 then
                .returned none enca0.alac.err
              else
                match enca0.alac.boxes.head? with
                | none => .panicked
                | some alac0 =>
                  if c.moofs.err.isSome || c.moofs.boxes.length ≤ 0 then
                    .returned none c.moofs.err
                  else if c.mdats.err.isSome || c.mdats.boxes.length != c.moofs.boxes.length then
                    .returned none c.mdats.err
                  else
                    match fragmentsLoop trexPay c.mdats.boxes 0 c.moofs.boxes [] with
                    | .panicked => .panicked
                    | .returned none err => .returned none err
                    | .returned (some samples) err =>
                      .returned (some { alacParam := alac0, samples := samples }) err

/-! ### The resolution rules, as the specification words them -/

/-- Resolved size of a run entry: the entry's own size when the run record has
the sample-size-present bit (0x200), else the fragment header's default when
the header has its bit (0x10), else the movie-level default. -/
def resolvedSize (trexPay : Trex) (tfhdPay : Tfhd) (t : Trun) (en : TrunEntry) : Nat :=
  if t.flags &&& 0x200 ≠ 0 then en.sampleSize
  else if tfhdPay.flags &&& 0x10 ≠ 0 then tfhdPay.defaultSampleSize
  else trexPay.defaultSampleSize

/-- Resolved duration of a run entry: the entry's own duration when the run
record has the sample-duration-present bit (0x100), else the fragment header's
default when the header has its bit (0x8), else the movie-level default. -/
def resolvedDuration (trexPay : Trex) (tfhdPay : Tfhd) (t : Trun) (en : TrunEntry) : Nat :=
  if t.flags &&& 0x100 ≠ 0 then en.sampleDuration
  else if tfhdPay.flags &&& 0x8 ≠ 0 then tfhdPay.defaultSampleDuration
  else trexPay.defaultSampleDuration

/-- The run entries of a fragment in declared order, each with its run
record. -/
def runEntries (truns : List Trun) : List (Trun × TrunEntry) :=
  truns.flatMap (fun t => t.entries.map (fun en => (t, en)))

/-- What the samples `part` produced from one fragment satisfy: the fragment
has a single header record, the samples follow the run entries one to one with
the resolved sizes and durations, their data laid end to end is the payload,
and all carry the fragment's descriptor index. -/
def FragmentSpec (trexPay : Trex) (moof : Moof) (mdat : Bytes) (part : List SampleInfo) : Prop :=
  ∃ tfhdPay : Tfhd, moof.tfhd.boxes = [tfhdPay] ∧
    part.map (fun s => s.data.length)
      = (runEntries moof.truns.boxes).map (fun p => resolvedSize trexPay tfhdPay p.1 p.2) ∧
    (part.map (fun s => s.data)).flatten = mdat ∧
    part.map (fun s => s.duration)
      = (runEntries moof.truns.boxes).map (fun p => resolvedDuration trexPay tfhdPay p.1 p.2) ∧
    ∀ s ∈ part, s.descIndex = fragmentIndex tfhdPay

/-! ### Concrete containers -/

/-- Codec parameters used by the concrete containers below. -/
def sampleAlac : Alac :=
  { frameLength := 4096, compatibleVersion := 0, bitDepth := 16, pb := 40, mb := 10, kb := 14,
    numChannels := 2, maxRun := 255, maxFrameBytes := 0, avgBitRate := 0, sampleRate := 44100 }

/-- A container with one fragment whose single run record (flags 0x300: size
and duration per entry) declares the samples `entries`, over the payload
`mdat`. -/
def oneFragment (entries : List TrunEntry) (mdat : Bytes) : Container :=
  { downloadErr := none
    trex := { boxes := [{ defaultSampleDuration := 4096, defaultSampleSize := 0 }], err := none }
    stbl := { boxes := [{ enca := { boxes := [{ alac := { boxes := [sampleAlac], err := none } }],
                                    err := none } }], err := none }
    moofs := { boxes := [{ tfhd := { boxes := [{ flags := 0, sampleDescriptionIndex := 1,
                                                 defaultSampleDuration := 0,
                                                 defaultSampleSize := 0 }], err := none }
                           truns := { boxes := [{ flags := 0x300, entries := entries }],
                                      err := none } }], err := none }
    mdats := { boxes := [mdat], err := none } }

/-- Two declared samples of 2 and 1 bytes over a payload of exactly 3 bytes. -/
def exactContainer : Container :=
  oneFragment [{ sampleDuration := 1024, sampleSize := 2 },
               { sampleDuration := 2048, sampleSize := 1 }] [7, 8, 9]

/-- The same declared samples over a payload one byte longer (4 bytes). -/
def longContainer : Container :=
  oneFragment [{ sampleDuration := 1024, sampleSize := 2 },
               { sampleDuration := 2048, sampleSize := 1 }] [7, 8, 9, 10]

/-- The same declared samples over a payload one byte shorter (2 bytes). -/
def shortContainer : Container :=
  oneFragment [{ sampleDuration := 1024, sampleSize := 2 },
               { sampleDuration := 2048, sampleSize := 1 }] [7, 8]

/-- What `extractSong` returns on `exactContainer`. -/
def exactSong : SongInfo :=
  { alacParam := sampleAlac
    samples := [{ data := [7, 8], duration := 1024, descIndex := 0 },
                { data := [9], duration := 2048, descIndex := 0 }] }

/-! ## writeM4a: the sample tables (main.go 790-792, 1037-1148, 1492-1501) -/

/-- The constant `const chunkSize uint32 = 5` (main.go 790). -/
def chunkSize : Nat := 5

/-- The local `numSamples := uint32(len(info.samples))` (main.go 792). -/
def numSamples (samples : List SampleInfo) : Nat :=
  samples.length % 2 ^ 32

/-- The method `SongInfo.Duration` (main.go 743-748): the sum of the sample
durations in a 64-bit accumulator. -/
def SongInfo.Duration (s : SongInfo) : Nat :=
  s.samples.foldl (fun ret sample => (ret + sample.duration) % 2 ^ 64) 0

/-- Entry of the duration table (`mp4.SttsEntry`), two 32-bit fields. -/
structure SttsEntry where
  sampleCount : Nat
  sampleDelta : Nat
  deriving DecidableEq, Repr

/-- The duration table box (`mp4.Stts`). -/
structure Stts where
  entryCount : Nat
  entries : List SttsEntry
  deriving DecidableEq, Repr

/-- Body of the loop at main.go 1044-1056 for one sample: when the table is
not empty and its last entry has the sample's duration, `last.SampleCount++`
(32-bit) in place; otherwise a new entry with count 1 is appended. -/
def sttsStep (entries : List SttsEntry) (sample : SampleInfo) : List SttsEntry :=
  match entries.getLast? with
  | some last =>
    if last.sampleDelta == sample.duration then
      entries.dropLast ++ [{ last with sampleCount := (last.sampleCount + 1) % 2 ^ 32 }]
    else
      entries ++ [{ sampleCount := 1, sampleDelta := sample.duration }]
  | none => entries ++ [{ sampleCount := 1, sampleDelta := sample.duration }]

/-- The duration table built at main.go 1043-1057, with
`stts.EntryCount = uint32(len(stts.Entries))`. -/
def sttsTable (samples : List SampleInfo) : Stts :=
  let entries := samples.foldl sttsStep []
  { entryCount := entries.length % 2 ^ 32, entries := entries }

/-- Expansion of a duration table: each entry repeated `sampleCount` times. -/
def sttsExpand (entries : List SttsEntry) : List Nat :=
  entries.flatMap (fun e => List.replicate e.sampleCount e.sampleDelta)

/-- Entry of the chunk map (`mp4.StscEntry`). -/
structure StscEntry where
  firstChunk : Nat
  samplesPerChunk : Nat
  sampleDescriptionIndex : Nat
  deriving DecidableEq, Repr

/-- The chunk map box (`mp4.Stsc`). -/
structure Stsc where
  entryCount : Nat
  entries : List StscEntry
  deriving DecidableEq, Repr

/-- The chunk map written at main.go 1076-1102 for the 32-bit sample count
`n`. -/
def stscTable (n : Nat) : Stsc :=
  if n % chunkSize == 0 then
    { entryCount := 1
      entries := [{ firstChunk := 1, samplesPerChunk := chunkSize, sampleDescriptionIndex := 1 }] }
  else
    { entryCount := 2
      entries := [{ firstChunk := 1, samplesPerChunk := chunkSize, sampleDescriptionIndex := 1 },
                  { firstChunk := (n / chunkSize + 1) % 2 ^ 32, samplesPerChunk := n % chunkSize,
                    sampleDescriptionIndex := 1 }] }

/-- The chunk-offset table box (`mp4.Stco`), 32-bit offsets. -/
structure Stco where
  entryCount : Nat
  chunkOffset : List Nat
  deriving DecidableEq, Repr

/-- The placeholder table reserved at main.go 1138-1142 for the 32-bit sample
count `n`: `l := (numSamples + chunkSize - 1) / chunkSize` in 32-bit
arithmetic, then `l` zero offsets. -/
def stcoPlaceholder (n : Nat) : Stco :=
  let l := (((n + chunkSize) % 2 ^ 32 + 2 ^ 32 - 1) % 2 ^ 32) / chunkSize
  { entryCount := l, chunkOffset := List.replicate l 0 }

/-- The loop `for i := uint32(0); i < numSamples; i++` at main.go 1495-1501,
with `left` iterations still to run from index `i` (so `i + left` is
`numSamples`, and `i + 1` cannot wrap). `offset` is the 64-bit running offset;
indexing `info.samples[i]` out of range is a panic (`none`). -/
def stcoLoop (samples : List SampleInfo) : Nat → Nat → Nat → Stco → Option Stco
  | 0, _, _, realStco => some realStco
  | left + 1, i, offset, realStco =>
    let realStco1 : Stco :=
      if i % chunkSize == 0 then
        { entryCount := (realStco.entryCount + 1) % 2 ^ 32
          chunkOffset := realStco.chunkOffset ++ [offset % 2 ^ 32] }
      else realStco
    match samples.get? i with
    | none => none
    | some sample =>
      stcoLoop samples left (i + 1) ((offset + sample.data.length) % 2 ^ 64) realStco1

/-- Result of a Go function returning `error`: the error value (`none` is
nil), or a run-time panic. -/
inductive ErrOutcome where
  | returned (err : Option String)
  | panicked
  deriving DecidableEq, Repr

/-- The fields of `mp4.BoxInfo` that `writeM4a` reads. -/
structure BoxInfo where
  offset : Nat
  headerSize : Nat
  size : Nat
  deriving DecidableEq, Repr

/-- The call `w.EndBox()` of the box library on a box that `StartBox` opened
with the 8-byte header at the file offset `offset`, `size` being the bytes
written from there on, header included: the size is written back into the
header. A size above `math.MaxUint32` needs the 16-byte header, and the call
then returns nil with the error "header size changed"; it returns nil with the
error of the file when a seek or write inside it fails (`ioErr`). -/
def endBox (ioErr : Option String) (offset size : Nat) : Except String BoxInfo :=
  match ioErr with
  | some e => .error e
  | none =>
    if size ≤ 4294967295 then .ok { offset := offset, headerSize := 8, size := size }
    else .error "header size changed"

/-- The real chunk-offset table computed after the payload box is closed
(main.go 1490-1501). `mdat` is what `w.EndBox()` returned, its error being
dropped; a nil `mdat` is dereferenced at `mdat.Offset`, a panic (`none`). -/
def stcoPatch (samples : List SampleInfo) (mdat : Option BoxInfo) : Option Stco :=
  match mdat with
  | none => none
  | some box =>
    stcoLoop samples (numSamples samples) 0 ((box.offset + box.headerSize) % 2 ^ 64)
      { entryCount := 0, chunkOffset := [] }

/-- What the tail of `writeM4a` (main.go 1109-1510) gets from the writer: the
file offsets at which the stsz box and the payload box start, the I/O errors
inside the two `EndBox` calls whose results matter here, the first error
returned by any other call between the stco box and the closing of the payload
box (main.go 1146-1488), and the error of the seek back or of the final
`mp4.Marshal` (main.go 1503-1510). -/
structure TableEnv where
  stszOffset : Nat
  stszEndErr : Option String
  betweenErr : Option String
  mdatOffset : Nat
  mdatEndErr : Option String
  patchErr : Option String
  deriving DecidableEq, Repr

/-- One run of the tail of `writeM4a`: the placeholder table marshalled into
the stco box and the real table computed for the patch (`realStco`), each
`none` when the run does not get that far, and what `writeM4a` returns. -/
structure TableRun where
  reserved : Option Stco
  patched : Option Stco
  ret : ErrOutcome
  deriving DecidableEq, Repr

/-- Size of the stsz box for the 32-bit sample count `n`: the 8-byte header,
version and flags, `SampleSize`, `SampleCount`, and `SampleCount` entries of 4
bytes. -/
def stszSize (n : Nat) : Nat := 8 + 4 + 4 + 4 + 4 * n

/-- The tail of `writeM4a` from the stsz box on (main.go 1109-1510), `data`
being the payload. The stsz box is closed first and an error of that `EndBox`
is returned (main.go 1126-1129); then the placeholder table is marshalled; any
error up to the payload is returned; the payload box is closed with the error
dropped, the real table is computed, and the seek back and the final
`mp4.Marshal` write it over the placeholder. -/
def writeTables (samples : List SampleInfo) (data : Bytes) (env : TableEnv) : TableRun :=
  match endBox env.stszEndErr env.stszOffset (stszSize (numSamples samples)) with
  | .error e => { reserved := none, patched := none, ret := .returned (some e) }
  | .ok _ =>
    let reserved := stcoPlaceholder (numSamples samples)
    match env.betweenErr with
    | some e => { reserved := some reserved, patched := none, ret := .returned (some e) }
    | none =>
      let mdat : Option BoxInfo :=
        match endBox env.mdatEndErr env.mdatOffset (8 + data.length) with
        | .error _ => none
        | .ok box => some box
      match stcoPatch samples mdat with
      | none => { reserved := some reserved, patched := none, ret := .panicked }
      | some realStco =>
        { reserved := some reserved, patched := some realStco, ret := .returned env.patchErr }

/-- A writer without I/O errors that starts the stsz box at offset 600 and the
payload box at offset `mdatOffset`. -/
def tableEnvAt (mdatOffset : Nat) : TableEnv :=
  { stszOffset := 600, stszEndErr := none, betweenErr := none
    mdatOffset := mdatOffset, mdatEndErr := none, patchErr := none }

/-- A sample with the given duration, one byte of data and descriptor index
0. -/
def sampleOfDuration (d : Nat) : SampleInfo :=
  { data := [0], duration := d, descIndex := 0 }

/-- Total length of the first `i` samples: the bytes of the payload that
precede sample `i`. -/
def bytesBefore (samples : List SampleInfo) (i : Nat) : Nat :=
  ((samples.take i).map (fun s => s.data.length)).sum

/-- Twelve samples, the `i`-th with `i + 1` bytes of data. -/
def twelveSamples : List SampleInfo :=
  (List.range 12).map (fun i => { data := List.replicate (i + 1) 0, duration := 1024, descIndex := 0 })

/-! ## decryptSong: the oracle exchange (main.go 1516-1579) -/

/-- The constant `defaultId = "0"` (main.go 31). -/
def defaultId : GoString := "0".toList.map Char.toNat

/-- The constant `prefetchKey` (main.go 32). -/
def prefetchKey : GoString := "skd://itunes.apple.com/P000000000/s1/e1".toList.map Char.toNat

/-- One completed operation on the connection to the oracle: a `Write` call
with its bytes, or an `io.ReadFull` with the bytes received. -/
inductive Event where
  | write (bs : Bytes)
  | read (bs : Bytes)
  deriving DecidableEq, Repr

/-- The connection to the oracle: the bytes the oracle will still deliver, the
number of `Write` calls that will still succeed before the connection breaks,
and the operations completed so far, oldest first. -/
structure Conn where
  rx : Bytes
  writesLeft : Nat
  log : List Event
  deriving DecidableEq, Repr

/-- Why `decryptSong` stopped early: an I/O error returned to the caller, or a
run-time panic. -/
inductive Failure where
  | ioError
  | panicked
  deriving DecidableEq, Repr

/-- A `Write` call (`conn.Write`, `io.WriteString`, `binary.Write`): it fails
once the connection is broken, and otherwise sends all of `bs`. -/
def Conn.write (c : Conn) (bs : Bytes) : Except (Failure × Conn) Conn :=
  match c.writesLeft with
  | 0 => .error (.ioError, c)
  | n + 1 => .ok { c with writesLeft := n, log := c.log ++ [.write bs] }

/-- The call `io.ReadFull(conn, de)` with `len(de) = n`: exactly the next `n`
bytes, or an error when the oracle delivers fewer. -/
def Conn.readFull (c : Conn) (n : Nat) : Except (Failure × Conn) (Bytes × Conn) :=
  if n ≤ c.rx.length then
    .ok (c.rx.take n, { c with rx := c.rx.drop n, log := c.log ++ [.read (c.rx.take n)] })
  else .error (.ioError, c)

/-- The bytes written by `binary.Write(conn, binary.LittleEndian, v)` for a
32-bit `v`. -/
def littleEndian32 (v : Nat) : Bytes :=
  [v % 256, v / 256 % 256, v / 65536 % 256, v / 16777216 % 256]

/-- The loop state of `decryptSong`: the connection, the buffer `decrypted`
and the variable `lastIndex`. -/
structure DecryptState where
  conn : Conn
  decrypted : Bytes
  lastIndex : Nat
  deriving DecidableEq, Repr

/-- The block `if lastIndex != sp.descIndex { ... }` (main.go 1528-1558).
`trackId` is `manifest.Data[0].Relationships.Tracks.Data[trackNum-1].ID`;
`keys[sp.descIndex]` out of range is a panic. -/
def switchContext (keys : List GoString) (trackId : GoString) (st : DecryptState)
    (sp : SampleInfo) : Except (Failure × Conn) Conn :=
  if st.lastIndex != sp.descIndex then
    (if st.decrypted.length != 0 then st.conn.write [0, 0, 0, 0] else .ok st.conn) >>= fun c0 =>
    match keys.get? sp.descIndex with
    | none => .error (.panicked, c0)
    | some keyUri =>
      let id := if keyUri == prefetchKey then defaultId else trackId
      c0.write [id.length % 256] >>= fun c1 =>
      c1.write id >>= fun c2 =>
      c2.write [keyUri.length % 256] >>= fun c3 =>
      c3.write keyUri
  else .ok st.conn

/-- Body of the loop `for _, sp := range info.samples` (main.go 1527-1578). -/
def decryptStep (keys : List GoString) (trackId : GoString) (st : DecryptState)
    (sp : SampleInfo) : Except (Failure × Conn) DecryptState :=
  switchContext keys trackId st sp >>= fun c0 =>
  c0.write (littleEndian32 (sp.data.length % 2 ^ 32)) >>= fun c1 =>
  c1.write sp.data >>= fun c2 =>
  c2.readFull sp.data.length >>= fun r =>
  .ok { conn := r.2, decrypted := st.decrypted ++ r.1, lastIndex := sp.descIndex }

/-- The loop `for _, sp := range info.samples` (main.go 1527-1578). -/
def decryptLoop (keys : List GoString) (trackId : GoString) :
    List SampleInfo → DecryptState → Except (Failure × Conn) DecryptState
  | [], st => .ok st
  | sp :: rest, st =>
    match decryptStep keys trackId st sp with
    | .error e => .error e
    | .ok st1 => decryptLoop keys trackId rest st1

/-- What the exchange hands on: the connection after the last operation and
the buffer `decrypted` passed to `writeM4a`. -/
structure Exchange where
  conn : Conn
  decrypted : Bytes
  deriving DecidableEq, Repr

/-- The oracle exchange of `decryptSong` (main.go 1523-1579) over the dialled
connection `conn`: `lastIndex` starts at `math.MaxUint8`, the samples are
streamed, and the 5-byte terminator is written with its error ignored. -/
def decryptSong (samples : List SampleInfo) (keys : List GoString) (trackId : GoString)
    (conn : Conn) : Except (Failure × Conn) Exchange :=
  match decryptLoop keys trackId samples { conn := conn, decrypted := [], lastIndex := 255 } with
  | .error e => .error e
  | .ok st =>
    match st.conn.write [0, 0, 0, 0, 0] with
    | .ok c => .ok { conn := c, decrypted := st.decrypted }
    | .error _ => .ok { conn := st.conn, decrypted := st.decrypted }

/-! ### The wire layout, as the specification words it -/

/-- A key-context-switch message:
`[1-byte id length][id][1-byte key length][key]`, one `Write` per field, each
length byte being the length modulo 256 (`byte(len(..))`). -/
def switchMessage (id key : GoString) : List Event :=
  [.write [id.length % 256], .write id, .write [key.length % 256], .write key]

/-- The 4-byte zero flush marker. -/
def flushMarker : Event := .write [0, 0, 0, 0]

/-- The frame of a sample: its 4-byte little-endian length, its raw bytes, and
the read of the oracle's response `resp`. -/
def sampleFrame (data resp : Bytes) : List Event :=
  [.write (littleEndian32 (data.length % 2 ^ 32)), .write data, .read resp]

/-- The log of an exchange in which the frame of the i-th sample, answered by
`resps[i]`, is preceded by exactly the events `blocks[i]`. -/
def framedLog : List (List Event) → List SampleInfo → List Bytes → List Event
  | b :: bs, sp :: sps, r :: rs => b ++ sampleFrame sp.data r ++ framedLog bs sps rs
  | _, _, _ => []

/-- The events `block` sent before the frame of sample `sp` when the previous
descriptor index is `last` and `n` bytes have been decrypted so far: nothing
when the index is unchanged; otherwise the switch message for the key at the
new index, naming the default identifier exactly when that key is the
prefetch key, after a flush marker exactly when `n` is not zero. -/
def IsSwitch (keys : List GoString) (trackId : GoString) (last n : Nat) (sp : SampleInfo)
    (block : List Event) : Prop :=
  (last = sp.descIndex ∧ block = []) ∨
  (last ≠ sp.descIndex ∧ ∃ key, keys.get? sp.descIndex = some key ∧
    block = (if n = 0 then [] else [flushMarker])
      ++ switchMessage (if key = prefetchKey then defaultId else trackId) key)

/-- Two samples under two keys, the first with no data. -/
def emptyFirstSamples : List SampleInfo :=
  [{ data := [], duration := 1024, descIndex := 0 },
   { data := [7, 8], duration := 1024, descIndex := 1 }]

/-- Three samples: two under key 1, then one under the prefetch key 0. -/
def threeSamples : List SampleInfo :=
  [{ data := [7, 8], duration := 1024, descIndex := 1 },
   { data := [9], duration := 1024, descIndex := 1 },
   { data := [10, 11], duration := 1024, descIndex := 0 }]

/-- A key list: the prefetch key and one discovered key. -/
def twoKeys : List GoString := [prefetchKey, [115, 107, 100, 58, 47, 47, 99, 50, 51]]

/-- A fresh connection on which the oracle will deliver `rx` and every write
succeeds. -/
def freshConn (rx : Bytes) : Conn := { rx := rx, writesLeft := 100, log := [] }

/-- The blocks `blocks[i]` are the events sent before the frame of each sample
in turn, `last` and `n` being the previous descriptor index and the number of
bytes decrypted before the first of the samples. -/
def SwitchBlocks (keys : List GoString) (trackId : GoString) :
    Nat → Nat → List SampleInfo → List (List Event) → Prop
  | last, n, sp :: rest, b :: bs =>
    IsSwitch keys trackId last n sp b ∧
      SwitchBlocks keys trackId sp.descIndex (n + sp.data.length) rest bs
  | _, _, [], [] => True
  | _, _, _ :: _, [] => False
  | _, _, [], _ :: _ => False

/-- What the exchange of `threeSamples` under `twoKeys` for track "12" yields
when the oracle answers 1, 2, 3, 4, 5. -/
def threeExchange : Exchange :=
  { conn :=
      { rx := []
        writesLeft := 84
        log := [.write [2], .write [49, 50], .write [9],
                .write [115, 107, 100, 58, 47, 47, 99, 50, 51],
                .write [2, 0, 0, 0], .write [7, 8], .read [1, 2],
                .write [1, 0, 0, 0], .write [9], .read [3],
                .write [0, 0, 0, 0],
                .write [1], .write [48], .write [39], .write prefetchKey,
                .write [2, 0, 0, 0], .write [10, 11], .read [4, 5],
                .write [0, 0, 0, 0, 0]] }
    decrypted := [1, 2, 3, 4, 5] }

/-- The value of a little-endian byte string. -/
def littleEndianValue (bs : Bytes) : Nat :=
  bs.foldr (fun b acc => b + 256 * acc) 0

/-- The container `exactContainer` with its payload block repeated: one
fragment (moof), two payload blocks (mdat), no library error. -/
def twoMdatContainer : Container :=
  { exactContainer with mdats := { boxes := [[7, 8, 9], [7, 8, 9]], err := none } }

/-- The container `exactContainer` without any fragment and payload block. -/
def noFragmentContainer : Container :=
  { exactContainer with moofs := { boxes := [], err := none },
                        mdats := { boxes := [], err := none } }

/-- The container `exactContainer` with the movie-level default record (trex)
present twice. -/
def twoTrexContainer : Container :=
  { exactContainer with
    trex := { boxes := [{ defaultSampleDuration := 4096, defaultSampleSize := 0 },
                        { defaultSampleDuration := 4096, defaultSampleSize := 0 }], err := none } }

/-- The container `exactContainer` whose sample table holds no `enca` box. -/
def noEncaContainer : Container :=
  { exactContainer with stbl := { boxes := [{ enca := { boxes := [], err := none } }], err := none } }

/-- The container `exactContainer` whose fragment holds no header record
(tfhd). -/
def noTfhdContainer : Container :=
  { exactContainer with
    moofs := { boxes := [{ tfhd := { boxes := [], err := none }
                           truns := { boxes := [{ flags := 0x300, entries := [] }],
                                      err := none } }], err := none } }

/-- The container `exactContainer` whose fragment holds no run record
(trun). -/
def noTrunContainer : Container :=
  { exactContainer with
    moofs := { boxes := [{ tfhd := { boxes := [{ flags := 0, sampleDescriptionIndex := 1,
                                                 defaultSampleDuration := 0,
                                                 defaultSampleSize := 0 }], err := none }
                           truns := { boxes := [], err := none } }], err := none } }

/-- The container `exactContainer` without a sample-table box (stbl). -/
def noStblContainer : Container :=
  { exactContainer with stbl := { boxes := [], err := none } }

/-- The container `exactContainer` whose `enca` box holds no codec box
(alac). -/
def noAlacContainer : Container :=
  { exactContainer with
    stbl := { boxes := [{ enca := { boxes := [{ alac := { boxes := [], err := none } }],
                                    err := none } }], err := none } }

/-! ## HttpDownloader.Split (main.go 109-121) -/

/-- The fields of `HttpDownloader` read by `Split`; Go `int` values. -/
structure HttpDownloader where
  contentLength : Int
  numThreads : Int
  deriving DecidableEq, Repr

/-- The method `Split` (main.go 109-121): `blockSize` is the truncating
quotient (a zero divisor is a run-time panic, `none`), and the loop appends
the pair `{start, end}` for `i = 0 .. numThreads - 1`. -/
def HttpDownloader.Split (h : HttpDownloader) : Option (List (Int × Int)) :=
  if h.numThreads = 0 then none
  else
    let blockSize := Int.tdiv h.contentLength h.numThreads
    some ((List.range h.numThreads.toNat).map (fun (i : Nat) =>
      let start := (i : Int) * blockSize
      let stop := if (i : Int) = h.numThreads - 1 then h.contentLength - 1
                  else ((i : Int) + 1) * blockSize - 1
      (start, stop)))

/-! ## writeM4a: the header boxes taken from the source (main.go 806-913) -/

/-- The payload of a header box of the source (`mp4.Mvhd`, `mp4.Tkhd`,
`mp4.Mdhd`) as `writeM4a` touches it: the version and flags of the full box,
the 32-bit and the 64-bit duration field, and `others`, all remaining fields
of the box in declaration order. -/
structure HeaderBox where
  version : Nat
  flags : Nat
  durationV0 : Nat
  durationV1 : Nat
  others : List Int
  deriving DecidableEq, Repr

/-- The movie header written at main.go 816-823: the source box with
`DurationV0 = uint32(duration)` for version 0 and `DurationV1 = duration`
otherwise. -/
def writeMvhd (duration : Nat) (mvhd : HeaderBox) : HeaderBox :=
  if mvhd.version == 0 then { mvhd with durationV0 := duration % 2 ^ 32 }
  else { mvhd with durationV1 := duration }

/-- The track header written at main.go 856-864: the duration as for the
movie header, then `tkhd.SetFlags(0x7)`. -/
def writeTkhd (duration : Nat) (tkhd : HeaderBox) : HeaderBox :=
  let tkhd1 : HeaderBox :=
    if tkhd.version == 0 then { tkhd with durationV0 := duration % 2 ^ 32 }
    else { tkhd with durationV1 := duration }
  { tkhd1 with flags := 0x7 }

/-- The media header written at main.go 897-904. -/
def writeMdhd (duration : Nat) (mdhd : HeaderBox) : HeaderBox :=
  if mdhd.version == 0 then { mdhd with durationV0 := duration % 2 ^ 32 }
  else { mdhd with durationV1 := duration }

/-- The three header boxes of a container. -/
structure MovieHeaders where
  mvhd : HeaderBox
  tkhd : HeaderBox
  mdhd : HeaderBox
  deriving DecidableEq, Repr

/-- The header boxes of the output of `writeM4a` for the source boxes `src`:
`duration := info.Duration()` (main.go 791) goes into each of them. -/
def writeHeaders (info : SongInfo) (src : MovieHeaders) : MovieHeaders :=
  { mvhd := writeMvhd info.Duration src.mvhd
    tkhd := writeTkhd info.Duration src.tkhd
    mdhd := writeMdhd info.Duration src.mdhd }

/-- Source header boxes of version 0 with duration 0, the track header with
flags 1. -/
def sourceHeaders : MovieHeaders :=
  { mvhd := { version := 0, flags := 0, durationV0 := 0, durationV1 := 0, others := [44100] }
    tkhd := { version := 0, flags := 1, durationV0 := 0, durationV1 := 0, others := [1] }
    mdhd := { version := 0, flags := 0, durationV0 := 0, durationV1 := 0, others := [44100] } }

/-- The header `out` is the source header `src` with the duration `duration`
written into the field of its version (reduced to 32 bits in the 32-bit
field), with flags `flags`, and with nothing else changed. -/
def PatchedHeader (duration : Nat) (src out : HeaderBox) (flags : Nat) : Prop :=
  out.version = src.version ∧ out.others = src.others ∧ out.flags = flags ∧
  (src.version = 0 →
    out.durationV0 = duration % 2 ^ 32 ∧ out.durationV1 = src.durationV1) ∧
  (src.version ≠ 0 → out.durationV1 = duration ∧ out.durationV0 = src.durationV0)

/-! ## extractMedia (main.go 1671-1725) -/

/-- A variant of the master playlist (`m3u8.Variant`): the fields read by
`extractMedia` and the field `Bandwidth`, which it does not read. `Bandwidth`
is the BANDWIDTH attribute of the variant, `AverageBandwidth` its
AVERAGE-BANDWIDTH attribute. -/
structure Variant where
  uri : GoString
  codecs : GoString
  audio : GoString
  bandwidth : Nat
  averageBandwidth : Nat
  deriving DecidableEq, Repr

/-- A parsed URL (`url.URL`): its path and its other components. -/
structure Url where
  path : GoString
  others : List GoString
  deriving DecidableEq, Repr

/-- What `extractMedia` gets from the libraries it calls: the errors of
`url.Parse`, `http.Get` and `io.ReadAll`, the status of the response, the
body, the variants decoded by `m3u8.DecodeFrom` (`none` when decoding fails or
the list is not a master playlist), the effect of `sort.Slice` with the
comparison of main.go 1696, and `masterUrl.Parse` (`none` for an error). -/
structure MediaEnv where
  urlErr : Option String
  getErr : Option String
  statusCode : Nat
  status : String
  readErr : Option String
  masterString : GoString
  decoded : Option (List Variant)
  sortSlice : List Variant → List Variant
  resolve : GoString → Option Url

/-- The contract of `sort.Slice` with `less(i, j)` being
`Variants[i].AverageBandwidth > Variants[j].AverageBandwidth`: the result is a
rearrangement of the input in which no later element is less than an earlier
one; the order of equal elements is not fixed. -/
def SortSliceContract (sortSlice : List Variant → List Variant) : Prop :=
  ∀ vs, (sortSlice vs).Perm vs ∧
    (sortSlice vs).Pairwise (fun a b => ¬ (b.averageBandwidth > a.averageBandwidth))

/-- The codec tag "alac". -/
def alacTag : GoString := "alac".toList.map Char.toNat

/-- The call `strings.HasSuffix(s, suffix)`. -/
def hasSuffix (s suffix : GoString) : Bool := suffix.isSuffixOf s

/-- The call `strings.TrimSuffix(s, suffix)`. -/
def trimSuffix (s suffix : GoString) : GoString :=
  if hasSuffix s suffix then s.take (s.length - suffix.length) else s

/-- The loop over the sorted variants (main.go 1698-1710): at the first
variant with codec tag "alac" the audio group id is split at "-" and its last
two parts are printed (indexing `split[length-2]` panics when there is no
"-"), the URI is resolved (`panic(err)` on an error), and the loop ends. The
result `(nil, nil)` stands for `streamUrl == nil` after the loop. -/
def selectLoop (resolve : GoString → Option Url) : List Variant → Outcome Url
  | [] => .returned none none
  | variant :: rest =>
    if variant.codecs == alacTag then
      if (List.splitOn 45 variant.audio).length < 2 then .panicked
      else
        match resolve variant.uri with
        | none => .panicked
        | some streamUrlTemp => .returned (some streamUrlTemp) none
    else selectLoop resolve rest

/-- A match of the pattern `"(skd?://[^"]*)"` starting at the head of the
text: its first group, the bytes between the quotes. -/
def keyMatchAt : GoString → Option GoString
  | 34 :: 115 :: 107 :: 100 :: 58 :: 47 :: 47 :: rest =>
    if rest.contains 34 then some ([115, 107, 100, 58, 47, 47] ++ rest.takeWhile (· != 34))
    else none
  | 34 :: 115 :: 107 :: 58 :: 47 :: 47 :: rest =>
    if rest.contains 34 then some ([115, 107, 58, 47, 47] ++ rest.takeWhile (· != 34))
    else none
  | _ => none

/-- The matches of the pattern from left to right without overlap; `skip`
bytes at the head of the text belong to the previous match. -/
def keyMatchesFrom : Nat → GoString → List GoString
  | _, [] => []
  | skip + 1, _ :: rest => keyMatchesFrom skip rest
  | 0, c :: rest =>
    match keyMatchAt (c :: rest) with
    | some key => key :: keyMatchesFrom (key.length + 1) rest
    | none => keyMatchesFrom 0 rest

/-- The first groups of
`regexp.MustCompile("\"(skd?://[^\"]*)\"").FindAllStringSubmatch(masterString, -1)`
(main.go 1717-1718), in document order. -/
def keyMatches (masterString : GoString) : List GoString :=
  keyMatchesFrom 0 masterString

/-- The function `extractMedia` (main.go 1671-1725). The URL is returned as
the parsed value whose path has ".m3u8" replaced by "_m.mp4"; rendering it
with `String()` is left to the library. -/
def extractMedia (env : MediaEnv) : Outcome (Url × List GoString) :=
  if env.urlErr.isSome then .returned none env.urlErr
  else if env.getErr.isSome then .returned none env.getErr
  else if env.statusCode != 200 then .returned none (some env.status)
  else if env.readErr.isSome then .returned none env.readErr
  else
    match env.decoded with
    | none => .returned none (some "m3u8 not of master type")
    | some variants =>
      match selectLoop env.resolve (env.sortSlice variants) with
      | .panicked => .panicked
      | .returned none _ => .returned none (some "no alac codec found")
      | .returned (some streamUrl) _ =>
        let keys := [prefetchKey]
        let streamUrl1 : Url :=
          { streamUrl with
            path := trimSuffix streamUrl.path (".m3u8".toList.map Char.toNat)
              ++ "_m.mp4".toList.map Char.toNat }
        let found := keyMatches env.masterString
        let keys1 := keys ++ found.filter (fun m =>
          hasSuffix m ("c23".toList.map Char.toNat) || hasSuffix m ("c6".toList.map Char.toNat))
        .returned (some (streamUrl1, keys1)) none

/-- A model of `sort.Slice` for evaluation: insertion sort by descending
average bandwidth. -/
def sortByBandwidth (vs : List Variant) : List Variant :=
  vs.insertionSort (fun a b => a.averageBandwidth ≥ b.averageBandwidth)

/-- A model of `masterUrl.Parse` for evaluation: the reference becomes the
path below a fixed base. -/
def resolveBelowBase (uri : GoString) : Option Url :=
  some { path := "/hls/".toList.map Char.toNat ++ uri, others := [] }

/-- An environment in which every library call succeeds, for the manifest
text `text` decoded into the variants `variants`. -/
def mediaEnvOf (text : GoString) (variants : List Variant) : MediaEnv :=
  { urlErr := none, getErr := none, statusCode := 200, status := "200 OK", readErr := none
    masterString := text, decoded := some variants
    sortSlice := sortByBandwidth, resolve := resolveBelowBase }

/-- A variant with the given codec tag, the given value as bandwidth and as
average bandwidth, the URI "a.m3u8" and the audio group id
"audio-alac-stereo-44100-16". -/
def variantOf (codecs : String) (bandwidth : Nat) : Variant :=
  { uri := "a.m3u8".toList.map Char.toNat, codecs := codecs.toList.map Char.toNat
    audio := "audio-alac-stereo-44100-16".toList.map Char.toNat
    bandwidth := bandwidth
    averageBandwidth := bandwidth }

/-- The variants of the example: alac 1000, alac 3000, aac 5000, the alac
3000 variant with the URI "b.m3u8". -/
def exampleVariants : List Variant :=
  [variantOf "alac" 1000,
   { variantOf "alac" 3000 with uri := "b.m3u8".toList.map Char.toNat },
   variantOf "aac" 5000]

/-- Two alac variants whose bandwidth and average bandwidth order differently:
"a.m3u8" with bandwidth 3000 and average bandwidth 1000, and "b.m3u8" with
bandwidth 1000 and average bandwidth 2000. -/
def crossedVariants : List Variant :=
  [{ variantOf "alac" 3000 with averageBandwidth := 1000 },
   { variantOf "alac" 1000 with uri := "b.m3u8".toList.map Char.toNat, averageBandwidth := 2000 }]

/-- The environment `mediaEnvOf` in which `masterUrl.Parse` returns an error
for every reference. -/
def mediaEnvUnresolved (text : GoString) (variants : List Variant) : MediaEnv :=
  { mediaEnvOf text variants with resolve := fun _ => none }

/-- A playlist with a single alac variant that has no audio group id. -/
def noAudioVariants : List Variant :=
  [{ variantOf "alac" 1000 with audio := [] }]

/-- A manifest text with four quoted identifiers: one ending in "c23", one
ending in "c6", one with another ending, and one that is not an skd URI. -/
def exampleManifest : GoString :=
  "URI=\"skd://k1c23\",X=\"skd://k2c6\",Y=\"skd://k3c7\",Z=\"http://k4c6\"".toList.map Char.toNat

/-! ## rip (main.go 264-341) -/

/-- What `os.Stat` reports for a path. -/
inductive StatResult where
  | file
  | dir
  | notExist
  | failed (msg : String)
  deriving DecidableEq, Repr

/-- The function `fileExists` (main.go 754-762). -/
def fileExists (stat : StatResult) : Bool × Option String :=
  match stat with
  | .file => (true, none)
  | .dir => (false, none)
  | .notExist => (false, none)
  | .failed msg => (false, some msg)

/-- What `decryptSong` gets from outside for one track: the error of
`net.Dial`, the dialled connection, the error of `os.Create`, and the result
of `writeM4a` on the decrypted data. -/
structure DecryptEnv where
  dialErr : Option String
  conn : Conn
  createErr : Option String
  mux : ErrOutcome
  deriving DecidableEq, Repr

/-- One invocation of `decryptSong`: what it returned and the operations it
completed on the connection to the oracle. -/
structure DecryptRun where
  ret : ErrOutcome
  oracle : List Event
  deriving DecidableEq, Repr

/-- The whole function `decryptSong` (main.go 1516-1590): dial, the exchange,
`os.Create`, `writeM4a`. An I/O error of the connection is returned as an
error (its text stands for the text of the network error). -/
def decryptSongRun (info : SongInfo) (keys : List GoString) (trackId : GoString)
    (env : DecryptEnv) : DecryptRun :=
  match env.dialErr with
  | some e => { ret := .returned (some e), oracle := [] }
  | none =>
    match decryptSong info.samples keys trackId env.conn with
    | .error (.ioError, c) => { ret := .returned (some "connection error"), oracle := c.log }
    | .error (.panicked, c) => { ret := .panicked, oracle := c.log }
    | .ok out =>
      match env.createErr with
      | some e => { ret := .returned (some e), oracle := out.conn.log }
      | none => { ret := env.mux, oracle := out.conn.log }

/-- What the body of the track loop of `rip` gets from outside for one track:
the identifier of the track, the result of `getInfoFromAdam` (the value being
`manifest.Attributes.ExtendedAssetUrls.EnhancedHls`; the function returns
`(nil, nil)` when the response has no entry for the track), what `os.Stat`
says about the track path, the environment of `extractMedia`, the container
behind the track URL, and the environment of `decryptSong`. -/
structure TrackEnv where
  id : GoString
  manifest : Outcome GoString
  stat : StatResult
  media : MediaEnv
  container : Container
  oracle : DecryptEnv

/-- Where the body of the track loop ended for a track. -/
inductive TrackStage where
  | manifestFailed
  | unavailable
  | alreadyExists
  | mediaFailed
  | extractFailed
  | keyMismatch
  | decryptFailed
  | done
  | panicked
  deriving DecidableEq, Repr

/-- What the body of the track loop did for one track: where it ended,
whether it executed `failed = true`, and the invocation of `decryptSong`
(`none` when `decryptSong` was not invoked). -/
structure TrackReport where
  stage : TrackStage
  setsFailed : Bool
  decrypt : Option DecryptRun
  deriving DecidableEq, Repr

/-- The check at main.go 317-326: `samplesOk` after the loop over the samples
(`int(i.descIndex) >= len(keys)` with a 64-bit `int`). -/
def samplesOk (samples : List SampleInfo) (keys : List GoString) : Bool :=
  samples.foldl (fun ok i => if keys.length ≤ i.descIndex then false else ok) true

/-- The part of the loop body after `extractMedia` returned `keys` without
error (main.go 311-335); `failed1` tells whether `failed = true` was executed
before. Using `info.samples` after `extractSong` returned `(nil, nil)` is a
nil dereference. -/
def ripSong (t : TrackEnv) (keys : List GoString) (failed1 : Bool) : TrackReport :=
  match extractSong t.container with
  | .panicked => { stage := .panicked, setsFailed := failed1, decrypt := none }
  | .returned _ (some _) => { stage := .extractFailed, setsFailed := true, decrypt := none }
  | .returned none none => { stage := .panicked, setsFailed := failed1, decrypt := none }
  | .returned (some info) none =>
    if !samplesOk info.samples keys then
      { stage := .keyMismatch, setsFailed := failed1, decrypt := none }
    else
      let run := decryptSongRun info keys t.id t.oracle
      match run.ret with
      | .panicked => { stage := .panicked, setsFailed := failed1, decrypt := some run }
      | .returned (some _) => { stage := .decryptFailed, setsFailed := true, decrypt := some run }
      | .returned none => { stage := .done, setsFailed := failed1, decrypt := some run }

/-- The body of the loop `for trackNum, track := range ...Tracks.Data`
(main.go 280-336) for one track. Reading `manifest.Attributes` after
`getInfoFromAdam` returned `(nil, nil)` is a nil dereference. -/
def ripTrack (t : TrackEnv) : TrackReport :=
  match t.manifest with
  | .panicked => { stage := .panicked, setsFailed := false, decrypt := none }
  | .returned _ (some _) => { stage := .manifestFailed, setsFailed := true, decrypt := none }
  | .returned none none => { stage := .panicked, setsFailed := false, decrypt := none }
  | .returned (some enhancedHls) none =>
    if enhancedHls == [] then { stage := .unavailable, setsFailed := true, decrypt := none }
    else
      let failed1 := (fileExists t.stat).2.isSome
      if (fileExists t.stat).1 then
        { stage := .alreadyExists, setsFailed := failed1, decrypt := none }
      else
        match extractMedia t.media with
        | .panicked => { stage := .panicked, setsFailed := failed1, decrypt := none }
        | .returned _ (some _) => { stage := .mediaFailed, setsFailed := true, decrypt := none }
        | .returned none none => ripSong t [] failed1
        | .returned (some (_, keys)) none => ripSong t keys failed1

/-- The track loop of `rip`: `failed` is the flag so far and `reports` what
was done for the tracks before; a panic ends the run (`none`). -/
def ripLoop : List TrackEnv → Bool → List TrackReport → Option Bool × List TrackReport
  | [], failed, reports => (some failed, reports)
  | t :: rest, failed, reports =>
    if (ripTrack t).stage == .panicked then (none, reports ++ [ripTrack t])
    else ripLoop rest (failed || (ripTrack t).setsFailed) (reports ++ [ripTrack t])

/-- What `rip` gets from outside: the error of `getMeta`, the error of
`writeCover`, and the tracks of the album `meta.Data[0]`. -/
structure AlbumEnv where
  metaErr : Option String
  coverErr : Option String
  tracks : List TrackEnv

/-- One run of `rip`: what it returned and what it did for the tracks, in
order. -/
structure RipResult where
  ret : ErrOutcome
  reports : List TrackReport
  deriving DecidableEq, Repr

/-- The function `rip` (main.go 264-341). The `err` returned at the end is the
variable of the function scope, last assigned by `writeCover`; the loop body
declares its own `err`. -/
def rip (env : AlbumEnv) : RipResult :=
  match env.metaErr with
  | some e => { ret := .returned (some e), reports := [] }
  | none =>
    match ripLoop env.tracks false [] with
    | (none, reports) => { ret := .panicked, reports := reports }
    | (some failed, reports) =>
      if failed then
        { ret := .returned (some "some tracks failed to download"), reports := reports }
      else { ret := .returned env.coverErr, reports := reports }

/-- An oracle environment in which the dial, the file creation and the muxing
succeed and the oracle delivers `rx`. -/
def oracleOf (rx : Bytes) : DecryptEnv :=
  { dialErr := none, conn := freshConn rx, createErr := none, mux := .returned none }

/-- A track for which every step before the key check succeeds: the manifest
text of the example (two discovered keys after the prefetch key, so three
keys), the variants of the example, and the container `c`. -/
def trackOf (c : Container) (rx : Bytes) : TrackEnv :=
  { id := [49, 50]
    manifest := .returned (some ("https://x/a.m3u8".toList.map Char.toNat)) none
    stat := .notExist
    media := mediaEnvOf exampleManifest exampleVariants
    container := c
    oracle := oracleOf rx }

/-- The container `exactContainer` with the fragment header's
SampleDescriptionIndex set to 6, so that its samples carry descriptor index
5. -/
def highIndexContainer : Container :=
  { exactContainer with
    moofs := { boxes := [{ tfhd := { boxes := [{ flags := 0, sampleDescriptionIndex := 6,
                                                 defaultSampleDuration := 0,
                                                 defaultSampleSize := 0 }], err := none }
                           truns := { boxes := [{ flags := 0x300,
                                                  entries := [{ sampleDuration := 1024,
                                                                sampleSize := 2 },
                                                              { sampleDuration := 2048,
                                                                sampleSize := 1 }] }],
                                      err := none } }], err := none } }

/-- An album of two tracks with a good cover: the samples of the first track
carry descriptor index 5 while only three keys are known; the second track is
in order. -/
def mismatchAlbum : AlbumEnv :=
  { metaErr := none, coverErr := none
    tracks := [trackOf highIndexContainer [], trackOf exactContainer [1, 2, 3]] }

/-- An album of two tracks whose first track has a container without any
fragment. -/
def noFragmentAlbum : AlbumEnv :=
  { metaErr := none, coverErr := none
    tracks := [trackOf noFragmentContainer [], trackOf exactContainer [1, 2, 3]] }

/-- The bytes sent to the oracle, in order: the payloads of the `Write` calls
of a log, concatenated. -/
def wireBytes : List Event → Bytes
  | [] => []
  | .write bs :: rest => bs ++ wireBytes rest
  | .read _ :: rest => wireBytes rest

/-- What the exchange of `emptyFirstSamples` under `twoKeys` for track "12"
yields when the oracle answers 1, 2. -/
def emptyFirstExchange : Exchange :=
  { conn :=
      { rx := []
        writesLeft := 87
        log := [.write [1], .write [48], .write [39], .write prefetchKey,
                .write [0, 0, 0, 0], .write [], .read [],
                .write [2], .write [49, 50], .write [9],
                .write [115, 107, 100, 58, 47, 47, 99, 50, 51],
                .write [2, 0, 0, 0], .write [7, 8], .read [1, 2],
                .write [0, 0, 0, 0, 0]] }
    decrypted := [1, 2] }

/-- A key identifier of 300 bytes: "skd://" and 294 times "a". -/
def longKey : GoString := [115, 107, 100, 58, 47, 47] ++ List.replicate 294 97

/-- Two samples of one byte each, under the keys at index 0 and index 1. -/
def longKeySamples : List SampleInfo :=
  [{ data := [7], duration := 1024, descIndex := 0 },
   { data := [8], duration := 1024, descIndex := 1 }]

/-- One sample with descriptor index 255. -/
def sample255 : List SampleInfo :=
  [{ data := [7, 8], duration := 1024, descIndex := 255 }]

/-- A key list of 256 keys: the prefetch key and 255 discovered keys, so that
index 255 is in range. -/
def keys256 : List GoString :=
  prefetchKey :: List.replicate 255 [115, 107, 100, 58, 47, 47, 99, 50, 51]

/-! ## writeM4a: the metadata value encoder (main.go 1222-1254) -/

/-- The data types of `mp4.Data` that `marshalData` uses
(`mp4.DataTypeBinary`, `mp4.DataTypeStringUTF8`,
`mp4.DataTypeSignedIntBigEndian`). -/
inductive DataType where
  | binary
  | stringUTF8
  | signedIntBigEndian
  deriving DecidableEq, Repr

/-- The box `mp4.Data` as `marshalData` fills it. -/
structure DataBox where
  dataType : DataType
  data : Bytes
  deriving DecidableEq, Repr

/-- The argument `val interface{}` by its dynamic type: the four types of the
type switch, and any other type by its name. -/
inductive MetaValue where
  | text (v : GoString)
  | uint8 (v : Nat)
  | uint32 (v : Nat)
  | bytes (v : Bytes)
  | other (typeName : String)
  deriving DecidableEq, Repr

/-- The errors of the writer calls of `marshalData`: `w.StartBox`,
`mp4.Marshal` and `w.EndBox`. -/
structure BoxWriterEnv where
  startErr : Option String
  marshalErr : Option String
  endErr : Option String
  deriving DecidableEq, Repr

/-- One call of `marshalData`: what it returned, and the box handed to
`mp4.Marshal` when the call got that far. -/
structure MarshalRun where
  ret : ErrOutcome
  box : Option DataBox
  deriving DecidableEq, Repr

/-- The bytes stored by `binary.BigEndian.PutUint32`. -/
def bigEndian32 (v : Nat) : Bytes :=
  [v / 16777216 % 256, v / 65536 % 256, v / 256 % 256, v % 256]

/-- The value of a big-endian byte string. -/
def bigEndianValue (bs : Bytes) : Nat :=
  bs.foldl (fun acc b => 256 * acc + b) 0

/-- The type switch of `marshalData` (main.go 1228-1245): the box for a value
of one of the four types, `none` for the `default` branch, which panics. -/
def dataBoxOf (val : MetaValue) : Option DataBox :=
  match val with
  | .text v => some { dataType := .stringUTF8, data := v }
  | .uint8 v => some { dataType := .signedIntBigEndian, data := [v] }
  | .uint32 v => some { dataType := .signedIntBigEndian, data := bigEndian32 v }
  | .bytes v => some { dataType := .binary, data := v }
  | .other _ => none

/-- The closure `marshalData` (main.go 1222-1254). -/
def marshalData (env : BoxWriterEnv) (val : MetaValue) : MarshalRun :=
  match env.startErr with
  | some e => { ret := .returned (some e), box := none }
  | none =>
    match dataBoxOf val with
    | none => { ret := .panicked, box := none }
    | some boxData =>
      match env.marshalErr with
      | some e => { ret := .returned (some e), box := some boxData }
      | none => { ret := .returned env.endErr, box := some boxData }

/-- A writer on which every call succeeds. -/
def goodWriter : BoxWriterEnv := { startErr := none, marshalErr := none, endErr := none }

/-! ### Reading the chunk map, as the specification words it -/

/-- The SamplesPerChunk the chunk map gives to chunk number `chunk` (from 1):
that of the last entry whose FirstChunk does not exceed it. -/
def samplesInChunk (entries : List StscEntry) (chunk : Nat) : Nat :=
  match (entries.filter (fun e => e.firstChunk ≤ chunk)).getLast? with
  | some e => e.samplesPerChunk
  | none => 0

/-- The number of samples the chunk map gives to the chunks 1 .. `chunks`
together. -/
def chunkTotal (entries : List StscEntry) (chunks : Nat) : Nat :=
  ((List.range chunks).map (fun k => samplesInChunk entries (k + 1))).sum

/-! ### The key identifiers of a manifest text, as the specification words them -/

theorem sliceFront_some {n : Nat} {mdat data rest : Bytes}
    (h : sliceFront n mdat = some (data, rest)) :
    data.length = n ∧ data ++ rest = mdat := by
  unfold sliceFront at h
  split at h
  · rename_i hn
    simp only [Option.some.injEq, Prod.mk.injEq] at h
    obtain ⟨h1, h2⟩ := h
    subst h1 h2
    exact ⟨by simp [List.length_take, hn], List.take_append_drop n mdat⟩
  · simp at h

theorem checkFlag_eq (flags flag : Nat) : (checkFlag flags flag = true) ↔ flags &&& flag ≠ 0 := by
  simp [checkFlag]

theorem sampleStep_some {trexPay : Trex} {tfhdPay : Tfhd} {index : Nat} {t : Trun}
    {en : TrunEntry} {mdat rest : Bytes} {info : SampleInfo}
    (h : sampleStep trexPay tfhdPay index t en mdat = some (info, rest)) :
    info.data.length = resolvedSize trexPay tfhdPay t en ∧ info.data ++ rest = mdat ∧
    info.duration = resolvedDuration trexPay tfhdPay t en ∧ info.descIndex = index := by
  unfold sampleStep at h
  simp only at h
  split at h
  · simp at h
  · rename_i data rest1 hs
    simp only [Option.some.injEq, Prod.mk.injEq] at h
    obtain ⟨h1, h2⟩ := h
    subst h1 h2
    refine ⟨?_, ?_, ?_, rfl⟩
    · unfold resolvedSize
      simp only [checkFlag_eq, ← ne_eq] at hs ⊢
      split_ifs at hs ⊢ <;> exact (sliceFront_some hs).1
    · simp only [checkFlag_eq] at hs
      split_ifs at hs <;> exact (sliceFront_some hs).2
    · unfold resolvedDuration
      simp only [checkFlag_eq]

theorem entriesLoop_some {trexPay : Trex} {tfhdPay : Tfhd} {index : Nat} {t : Trun} :
    ∀ (ens : List TrunEntry) (mdat : Bytes) (samples : List SampleInfo) (rest : Bytes)
      (out : List SampleInfo),
      entriesLoop trexPay tfhdPay index t ens mdat samples = some (rest, out) →
      ∃ part : List SampleInfo, out = samples ++ part ∧
        part.map (fun s => s.data.length) = ens.map (resolvedSize trexPay tfhdPay t) ∧
        (part.map (fun s => s.data)).flatten ++ rest = mdat ∧
        part.map (fun s => s.duration) = ens.map (resolvedDuration trexPay tfhdPay t) ∧
        ∀ s ∈ part, s.descIndex = index := by
  intro ens
  induction ens with
  | nil =>
    intro mdat samples rest out h
    simp only [entriesLoop, Option.some.injEq, Prod.mk.injEq] at h
    exact ⟨[], by simp [h.2], by simp, by simp [h.1], by simp, by simp⟩
  | cons en ens ih =>
    intro mdat samples rest out h
    simp only [entriesLoop] at h
    split at h
    · simp at h
    · rename_i info rest1 hstep
      obtain ⟨part, hout, hsz, hdata, hdur, hidx⟩ := ih _ _ _ _ h
      obtain ⟨s1, s2, s3, s4⟩ := sampleStep_some hstep
      refine ⟨info :: part, by simp [hout], by simp [hsz, s1], ?_, by simp [hdur, s3], ?_⟩
      · simp only [List.map_cons, List.flatten_cons, List.append_assoc, hdata, s2]
      · intro s hs
        rcases List.mem_cons.mp hs with rfl | hs
        · exact s4
        · exact hidx s hs

theorem trunsLoop_some {trexPay : Trex} {tfhdPay : Tfhd} {index : Nat} :
    ∀ (ts : List Trun) (mdat : Bytes) (samples : List SampleInfo) (rest : Bytes)
      (out : List SampleInfo),
      trunsLoop trexPay tfhdPay index ts mdat samples = some (rest, out) →
      ∃ part : List SampleInfo, out = samples ++ part ∧
        part.map (fun s => s.data.length)
          = (runEntries ts).map (fun p => resolvedSize trexPay tfhdPay p.1 p.2) ∧
        (part.map (fun s => s.data)).flatten ++ rest = mdat ∧
        part.map (fun s => s.duration)
          = (runEntries ts).map (fun p => resolvedDuration trexPay tfhdPay p.1 p.2) ∧
        ∀ s ∈ part, s.descIndex = index := by
  intro ts
  induction ts with
  | nil =>
    intro mdat samples rest out h
    simp only [trunsLoop, Option.some.injEq, Prod.mk.injEq] at h
    exact ⟨[], by simp [h.2], by simp [runEntries], by simp [h.1], by simp [runEntries], by simp⟩
  | cons t ts ih =>
    intro mdat samples rest out h
    simp only [trunsLoop] at h
    split at h
    · simp at h
    · rename_i rest1 samples1 hent
      obtain ⟨p1, ho1, hs1, hd1, hu1, hi1⟩ := entriesLoop_some _ _ _ _ _ hent
      obtain ⟨p2, ho2, hs2, hd2, hu2, hi2⟩ := ih _ _ _ _ h
      refine ⟨p1 ++ p2, by simp [ho2, ho1], ?_, ?_, ?_, ?_⟩
      · simp only [runEntries, List.flatMap_cons, List.map_append, List.map_map] at hs2 ⊢
        rw [hs1, hs2]
        rfl
      · simp only [List.map_append, List.flatten_append, List.append_assoc, hd2, hd1]
      · simp only [runEntries, List.flatMap_cons, List.map_append, List.map_map] at hu2 ⊢
        rw [hu1, hu2]
        rfl
      · intro s hs
        rcases List.mem_append.mp hs with hs | hs
        · exact hi1 s hs
        · exact hi2 s hs

theorem fragmentsLoop_some {trexPay : Trex} {mdats : List Bytes} :
    ∀ (moofs : List Moof) (i : Nat) (samples out : List SampleInfo) (err : Option String),
      fragmentsLoop trexPay mdats i moofs samples = .returned (some out) err →
      ∃ parts : List (List SampleInfo), out = samples ++ parts.flatten ∧
        parts.length = moofs.length ∧
        ∀ (k : Nat) (hk : k < moofs.length) (hp : k < parts.length),
          ∃ mdat, mdats.get? (i + k) = some mdat ∧ FragmentSpec trexPay moofs[k] mdat parts[k] := by
  intro moofs
  induction moofs with
  | nil =>
    intro i samples out err h
    simp only [fragmentsLoop, Outcome.returned.injEq, Option.some.injEq] at h
    exact ⟨[], by simp [h.1], rfl, fun k hk => absurd hk (by simp)⟩
  | cons moof rest ih =>
    intro i samples out err h
    simp only [fragmentsLoop] at h
    split at h
    · simp at h
    rename_i h1
    simp only [Bool.or_eq_true, bne_iff_ne, ne_eq, not_or, not_not] at h1
    split at h
    · simp at h
    · rename_i tfhdPay hhead
      split at h
      · simp at h
      rename_i h2
      split at h
      · simp at h
      · rename_i mdat hmdat
        split at h
        · simp at h
        · rename_i left samples1 hloop
          split at h
          · simp at h
          rename_i h3
          simp only [bne_iff_ne, ne_eq, not_not, List.length_eq_zero] at h3
          subst h3
          obtain ⟨part, ho, hs, hd, hu, hi⟩ := trunsLoop_some _ _ _ _ _ hloop
          obtain ⟨parts, hout, hlen, hall⟩ := ih _ _ _ _ h
          have htf : moof.tfhd.boxes = [tfhdPay] := by
            cases hb : moof.tfhd.boxes with
            | nil => simp [hb] at hhead
            | cons a l =>
              rw [hb] at hhead h1
              simp only [List.head?_cons, Option.some.injEq] at hhead
              simp only [List.length_cons, add_left_eq_self, List.length_eq_zero] at h1
              rw [hhead, h1.2]
          refine ⟨part :: parts, by simp [hout, ho], by simp [hlen], ?_⟩
          intro k hk hp
          cases k with
          | zero =>
            refine ⟨mdat, by simpa using hmdat, tfhdPay, htf, hs, ?_, hu, hi⟩
            simpa using hd
          | succ k =>
            have hk1 : k < rest.length := by simpa using hk
            have hp1 : k < parts.length := by simpa using hp
            obtain ⟨m, hm, hspec⟩ := hall k hk1 hp1
            refine ⟨m, ?_, by simpa using hspec⟩
            rw [← hm]
            congr 1
            omega

theorem extractSong_success {c : Container} {info : SongInfo}
    (h : extractSong c = .returned (some info) none) :
    ∃ (trexPay : Trex) (parts : List (List SampleInfo)),
      c.trex.boxes = [trexPay] ∧ info.samples = parts.flatten ∧
      parts.length = c.moofs.boxes.length ∧ c.mdats.boxes.length = c.moofs.boxes.length ∧
      ∀ (i : Nat) (hf : i < c.moofs.boxes.length) (hm : i < c.mdats.boxes.length)
        (hp : i < parts.length),
        FragmentSpec trexPay c.moofs.boxes[i] c.mdats.boxes[i] parts[i] := by
  unfold extractSong at h
  split at h
  · simp at h
  split at h
  · simp at h
  split at h
  · simp at h
  rename_i h0 h1
  simp only [Bool.or_eq_true, bne_iff_ne, ne_eq, not_or, not_not] at h1
  split at h
  · simp at h
  · rename_i trexPay htrex
    split at h
    · simp at h
    split at h
    · simp at h
    · rename_i stbl0 hstbl
      split at h
      · simp at h
      split at h
      · simp at h
      · rename_i enca0 henca
        split at h
        · simp at h
        split at h
        · simp at h
        · rename_i alac0 halac
          split at h
          · simp at h
          split at h
          · simp at h
          rename_i h5 h6
          simp only [Bool.or_eq_true, bne_iff_ne, ne_eq, not_or, not_not] at h6
          split at h
          · simp at h
          · simp at h
          · rename_i samples err hloop
            simp only [Outcome.returned.injEq, Option.some.injEq] at h
            obtain ⟨parts, hout, hlen, hall⟩ := fragmentsLoop_some _ _ _ _ _ hloop
            have htr : c.trex.boxes = [trexPay] := by
              cases hb : c.trex.boxes with
              | nil => simp [hb] at htrex
              | cons a l =>
                rw [hb] at htrex h1
                simp only [List.head?_cons, Option.some.injEq] at htrex
                simp only [List.length_cons, add_left_eq_self, List.length_eq_zero] at h1
                rw [htrex, h1.2]
            refine ⟨trexPay, parts, htr, ?_, hlen, h6.2, ?_⟩
            · rw [← h.1]
              simpa using hout
            · intro i hf hm hp
              obtain ⟨m, hm1, hspec⟩ := hall i hf hp
              have : c.mdats.boxes[i] = m := by
                have := List.get?_eq_get hm
                simp only [zero_add] at hm1
                rw [hm1] at this
                simpa using this.symm
              rw [this]
              exact hspec

theorem map_eq_map_getElem {α β γ : Type} {f : α → γ} {g : β → γ} {l₁ : List α} {l₂ : List β}
    (h : l₁.map f = l₂.map g) (j : Nat) (h₁ : j < l₁.length) (h₂ : j < l₂.length) :
    f l₁[j] = g l₂[j] := by
  have e : (l₁.map f)[j]? = (l₂.map g)[j]? := by rw [h]
  simpa [List.getElem?_map, List.getElem?_eq_getElem h₁, List.getElem?_eq_getElem h₂] using e

theorem flatten_drop_take_getElem {α : Type} :
    ∀ (L : List (List α)) (j : Nat) (hj : j < L.length),
      (L.flatten.drop ((L.take j).map List.length).sum).take L[j].length = L[j] := by
  intro L
  induction L with
  | nil => intro j hj; simp at hj
  | cons x L ih =>
    intro j hj
    cases j with
    | zero => simp
    | succ j =>
      have hj1 : j < L.length := by simpa using hj
      simp only [List.flatten_cons, List.take_succ_cons, List.map_cons, List.sum_cons,
        List.getElem_cons_succ]
      rw [List.drop_append_eq_append_drop]
      have h0 : x.length + ((L.take j).map List.length).sum - x.length
          = ((L.take j).map List.length).sum := by omega
      rw [List.drop_eq_nil_of_le (by omega), h0, List.nil_append]
      exact ih j hj1

/-- C1: whenever `extractSong` succeeds, its samples split into one block per
fragment (moof/mdat pair), in order; the block of a fragment has one sample
per declared run entry, and the lengths of its samples add up to the length of
that fragment's mdat payload. -/
theorem extractSong_fragment_payload_consumed (c : Container) (info : SongInfo)
    (h : extractSong c = .returned (some info) none) :
    ∃ parts : List (List SampleInfo),
      info.samples = parts.flatten ∧ parts.length = c.moofs.boxes.length ∧
      c.mdats.boxes.length = c.moofs.boxes.length ∧
      ∀ (i : Nat) (hf : i < c.moofs.boxes.length) (hm : i < c.mdats.boxes.length)
        (hp : i < parts.length),
        parts[i].length = (runEntries c.moofs.boxes[i].truns.boxes).length ∧
        (parts[i].map (fun s => s.data.length)).sum = c.mdats.boxes[i].length := by
  obtain ⟨trexPay, parts, _, hs, hl, hml, hall⟩ := extractSong_success h
  refine ⟨parts, hs, hl, hml, ?_⟩
  intro i hf hm hp
  obtain ⟨tfhdPay, _, hsz, hdata, _, _⟩ := hall i hf hm hp
  constructor
  · simpa using congrArg List.length hsz
  · rw [← hdata, List.length_flatten, List.map_map]
    rfl

/-- Witness for C1 on a fragment with samples of 2 and 1 bytes over a payload
of 3 bytes. -/
theorem extractSong_fragment_payload_consumed_witness :
    extractSong exactContainer = .returned (some exactSong) none ∧
    ∃ parts : List (List SampleInfo),
      exactSong.samples = parts.flatten ∧ parts.length = exactContainer.moofs.boxes.length ∧
      exactContainer.mdats.boxes.length = exactContainer.moofs.boxes.length ∧
      ∀ (i : Nat) (hf : i < exactContainer.moofs.boxes.length)
        (hm : i < exactContainer.mdats.boxes.length) (hp : i < parts.length),
        parts[i].length = (runEntries exactContainer.moofs.boxes[i].truns.boxes).length ∧
        (parts[i].map (fun s => s.data.length)).sum = exactContainer.mdats.boxes[i].length :=
  ⟨by decide, extractSong_fragment_payload_consumed exactContainer exactSong (by decide)⟩

/-- C2 (evaluation at the failing input): over a payload one byte longer than
the declared samples `extractSong` returns the offset-mismatch error, but over
a payload one byte shorter it ends in a slice-bounds panic and returns
nothing, neither a SongInfo nor the offset-mismatch error. -/
theorem extractSong_short_payload_panics :
    extractSong longContainer = .returned none (some "offset mismatch") ∧
    extractSong shortContainer = .panicked := by
  constructor <;> decide

/-- C3: whenever `extractSong` succeeds, in every fragment the sample of the
j-th run entry has the resolved size of that entry (the entry's own size under
trun flag 0x200, else the tfhd default under tfhd flag 0x10, else the trex
default), and its data is exactly that many bytes taken from the front of the
payload not yet consumed by the earlier entries of the fragment. -/
theorem extractSong_sample_size_resolution (c : Container) (info : SongInfo)
    (h : extractSong c = .returned (some info) none) :
    ∃ (trexPay : Trex) (parts : List (List SampleInfo)),
      c.trex.boxes = [trexPay] ∧ info.samples = parts.flatten ∧
      parts.length = c.moofs.boxes.length ∧
      ∀ (i : Nat) (hf : i < c.moofs.boxes.length) (hm : i < c.mdats.boxes.length)
        (hp : i < parts.length),
        ∃ tfhdPay : Tfhd, c.moofs.boxes[i].tfhd.boxes = [tfhdPay] ∧
          parts[i].length = (runEntries c.moofs.boxes[i].truns.boxes).length ∧
          ∀ (j : Nat) (hj : j < parts[i].length)
            (he : j < (runEntries c.moofs.boxes[i].truns.boxes).length),
            parts[i][j].data.length
              = resolvedSize trexPay tfhdPay (runEntries c.moofs.boxes[i].truns.boxes)[j].1
                  (runEntries c.moofs.boxes[i].truns.boxes)[j].2 ∧
            parts[i][j].data
              = (c.mdats.boxes[i].drop
                  ((((runEntries c.moofs.boxes[i].truns.boxes).take j).map
                    (fun p => resolvedSize trexPay tfhdPay p.1 p.2)).sum)).take
                  (resolvedSize trexPay tfhdPay (runEntries c.moofs.boxes[i].truns.boxes)[j].1
                    (runEntries c.moofs.boxes[i].truns.boxes)[j].2) := by
  obtain ⟨trexPay, parts, htr, hs, hl, _, hall⟩ := extractSong_success h
  refine ⟨trexPay, parts, htr, hs, hl, ?_⟩
  intro i hf hm hp
  obtain ⟨tfhdPay, htf, hsz, hdata, _, _⟩ := hall i hf hm hp
  refine ⟨tfhdPay, htf, by simpa using congrArg List.length hsz, ?_⟩
  intro j hj he
  have hlen := map_eq_map_getElem hsz j hj he
  simp only at hlen
  refine ⟨hlen, ?_⟩
  have hj2 : j < (parts[i].map (fun s => s.data)).length := by simpa using hj
  have key := flatten_drop_take_getElem (parts[i].map (fun s => s.data)) j hj2
  rw [hdata] at key
  simp only [List.getElem_map, ← List.map_take, List.map_map] at key
  have hT : ((runEntries c.moofs.boxes[i].truns.boxes).take j).map
        (fun p => resolvedSize trexPay tfhdPay p.1 p.2)
      = (parts[i].take j).map (fun s => s.data.length) := by
    have := congrArg (List.take j) hsz
    simpa only [List.map_take] using this.symm
  rw [← hlen, hT]
  exact key.symm

/-- Witness for C3 on the container with samples of 2 and 1 bytes. -/
theorem extractSong_sample_size_resolution_witness :
    extractSong exactContainer = .returned (some exactSong) none ∧
    ∃ (trexPay : Trex) (parts : List (List SampleInfo)),
      exactContainer.trex.boxes = [trexPay] ∧ exactSong.samples = parts.flatten ∧
      parts.length = exactContainer.moofs.boxes.length ∧
      ∀ (i : Nat) (hf : i < exactContainer.moofs.boxes.length)
        (hm : i < exactContainer.mdats.boxes.length) (hp : i < parts.length),
        ∃ tfhdPay : Tfhd, exactContainer.moofs.boxes[i].tfhd.boxes = [tfhdPay] ∧
          parts[i].length = (runEntries exactContainer.moofs.boxes[i].truns.boxes).length ∧
          ∀ (j : Nat) (hj : j < parts[i].length)
            (he : j < (runEntries exactContainer.moofs.boxes[i].truns.boxes).length),
            parts[i][j].data.length
              = resolvedSize trexPay tfhdPay
                  (runEntries exactContainer.moofs.boxes[i].truns.boxes)[j].1
                  (runEntries exactContainer.moofs.boxes[i].truns.boxes)[j].2 ∧
            parts[i][j].data
              = (exactContainer.mdats.boxes[i].drop
                  ((((runEntries exactContainer.moofs.boxes[i].truns.boxes).take j).map
                    (fun p => resolvedSize trexPay tfhdPay p.1 p.2)).sum)).take
                  (resolvedSize trexPay tfhdPay
                    (runEntries exactContainer.moofs.boxes[i].truns.boxes)[j].1
                    (runEntries exactContainer.moofs.boxes[i].truns.boxes)[j].2) :=
  ⟨by decide, extractSong_sample_size_resolution exactContainer exactSong (by decide)⟩

/-- C4: whenever `extractSong` succeeds, in every fragment the sample of the
j-th run entry has the resolved duration of that entry: the entry's own
duration under trun flag 0x100, else the tfhd default under tfhd flag 0x8,
else the trex default. -/
theorem extractSong_sample_duration_resolution (c : Container) (info : SongInfo)
    (h : extractSong c = .returned (some info) none) :
    ∃ (trexPay : Trex) (parts : List (List SampleInfo)),
      c.trex.boxes = [trexPay] ∧ info.samples = parts.flatten ∧
      parts.length = c.moofs.boxes.length ∧
      ∀ (i : Nat) (hf : i < c.moofs.boxes.length) (hp : i < parts.length),
        ∃ tfhdPay : Tfhd, c.moofs.boxes[i].tfhd.boxes = [tfhdPay] ∧
          parts[i].length = (runEntries c.moofs.boxes[i].truns.boxes).length ∧
          ∀ (j : Nat) (hj : j < parts[i].length)
            (he : j < (runEntries c.moofs.boxes[i].truns.boxes).length),
            parts[i][j].duration
              = resolvedDuration trexPay tfhdPay (runEntries c.moofs.boxes[i].truns.boxes)[j].1
                  (runEntries c.moofs.boxes[i].truns.boxes)[j].2 := by
  obtain ⟨trexPay, parts, htr, hs, hl, hml, hall⟩ := extractSong_success h
  refine ⟨trexPay, parts, htr, hs, hl, ?_⟩
  intro i hf hp
  obtain ⟨tfhdPay, htf, hsz, _, hdur, _⟩ := hall i hf (by omega) hp
  refine ⟨tfhdPay, htf, by simpa using congrArg List.length hsz, ?_⟩
  intro j hj he
  exact map_eq_map_getElem hdur j hj he

/-- Witness for C4 on the container with durations 1024 and 2048. -/
theorem extractSong_sample_duration_resolution_witness :
    extractSong exactContainer = .returned (some exactSong) none ∧
    ∃ (trexPay : Trex) (parts : List (List SampleInfo)),
      exactContainer.trex.boxes = [trexPay] ∧ exactSong.samples = parts.flatten ∧
      parts.length = exactContainer.moofs.boxes.length ∧
      ∀ (i : Nat) (hf : i < exactContainer.moofs.boxes.length) (hp : i < parts.length),
        ∃ tfhdPay : Tfhd, exactContainer.moofs.boxes[i].tfhd.boxes = [tfhdPay] ∧
          parts[i].length = (runEntries exactContainer.moofs.boxes[i].truns.boxes).length ∧
          ∀ (j : Nat) (hj : j < parts[i].length)
            (he : j < (runEntries exactContainer.moofs.boxes[i].truns.boxes).length),
            parts[i][j].duration
              = resolvedDuration trexPay tfhdPay
                  (runEntries exactContainer.moofs.boxes[i].truns.boxes)[j].1
                  (runEntries exactContainer.moofs.boxes[i].truns.boxes)[j].2 :=
  ⟨by decide, extractSong_sample_duration_resolution exactContainer exactSong (by decide)⟩

/-- The invariant of the duration-table loop after the durations `done` have
been processed. -/
theorem sttsStep_invariant (entries : List SttsEntry) (done : List Nat) (sample : SampleInfo)
    (hexp : sttsExpand entries = done)
    (hch : List.Chain' (fun a b : SttsEntry => a.sampleDelta ≠ b.sampleDelta) entries)
    (hpos : ∀ e ∈ entries, 1 ≤ e.sampleCount)
    (hlen : done.length + 1 < 2 ^ 32) :
    sttsExpand (sttsStep entries sample) = done ++ [sample.duration] ∧
    List.Chain' (fun a b : SttsEntry => a.sampleDelta ≠ b.sampleDelta) (sttsStep entries sample) ∧
    ∀ e ∈ sttsStep entries sample, 1 ≤ e.sampleCount := by
  rcases List.eq_nil_or_concat entries with rfl | ⟨init, last, hcat⟩
  · simp [sttsStep, sttsExpand] at hexp ⊢
    exact hexp.symm ▸ rfl
  · rw [List.concat_eq_append] at hcat
    subst hcat
    have hlast : (init ++ [last]).getLast? = some last := List.getLast?_concat init
    have hcount : last.sampleCount ≤ done.length := by
      rw [← hexp]
      simp [sttsExpand, List.flatMap_append]
    unfold sttsStep
    rw [hlast]
    simp only [List.dropLast_concat]
    by_cases hd : last.sampleDelta = sample.duration
    · simp only [hd, beq_self_eq_true, if_true]
      have hmod : (last.sampleCount + 1) % 2 ^ 32 = last.sampleCount + 1 :=
        Nat.mod_eq_of_lt (by omega)
      rw [hmod]
      refine ⟨?_, ?_, ?_⟩
      · rw [← hexp]
        simp [sttsExpand, List.flatMap_append, List.replicate_succ', hd]
      · rw [List.chain'_append] at hch ⊢
        refine ⟨hch.1, by simp, ?_⟩
        intro x hx y hy
        simp only [List.head?_cons, Option.mem_def, Option.some.injEq] at hy
        subst hy
        simpa [hd] using hch.2.2 x hx last (by simp)
      · intro e he
        rcases List.mem_append.mp he with he | he
        · exact hpos e (List.mem_append_left _ he)
        · simp only [List.mem_singleton] at he
          subst he
          simp
    · have hne : (last.sampleDelta == sample.duration) = false := by simpa using hd
      simp only [hne, Bool.false_eq_true, if_false]
      refine ⟨?_, ?_, ?_⟩
      · rw [← hexp]
        simp [sttsExpand, List.flatMap_append]
      · rw [List.chain'_append]
        refine ⟨hch, by simp, ?_⟩
        intro x hx y hy
        simp only [List.head?_cons, Option.mem_def, Option.some.injEq] at hy
        subst hy
        rw [hlast] at hx
        simp only [Option.mem_def, Option.some.injEq] at hx
        subst hx
        exact hd
      · intro e he
        rcases List.mem_append.mp he with he | he
        · exact hpos e he
        · simp only [List.mem_singleton] at he
          subst he
          simp

theorem sttsLoop_invariant :
    ∀ (samples : List SampleInfo) (entries : List SttsEntry) (done : List Nat),
      sttsExpand entries = done →
      List.Chain' (fun a b : SttsEntry => a.sampleDelta ≠ b.sampleDelta) entries →
      (∀ e ∈ entries, 1 ≤ e.sampleCount) →
      done.length + samples.length < 2 ^ 32 →
      sttsExpand (samples.foldl sttsStep entries) = done ++ samples.map (fun s => s.duration) ∧
      List.Chain' (fun a b : SttsEntry => a.sampleDelta ≠ b.sampleDelta)
        (samples.foldl sttsStep entries) ∧
      ∀ e ∈ samples.foldl sttsStep entries, 1 ≤ e.sampleCount := by
  intro samples
  induction samples with
  | nil => intro entries done h1 h2 h3 _; simpa using ⟨h1, h2, h3⟩
  | cons s rest ih =>
    intro entries done h1 h2 h3 h4
    simp only [List.length_cons] at h4
    obtain ⟨a, b, c⟩ := sttsStep_invariant entries done s h1 h2 h3 (by omega)
    have := ih (sttsStep entries s) (done ++ [s.duration]) a b c
      (by simp only [List.length_append, List.length_singleton]; omega)
    simpa using this

theorem sttsExpand_length_le (entries : List SttsEntry)
    (hpos : ∀ e ∈ entries, 1 ≤ e.sampleCount) : entries.length ≤ (sttsExpand entries).length := by
  induction entries with
  | nil => simp [sttsExpand]
  | cons e es ih =>
    have h1 := hpos e (by simp)
    have h2 := ih (fun x hx => hpos x (List.mem_cons_of_mem _ hx))
    simp only [sttsExpand, List.flatMap_cons, List.length_append, List.length_replicate,
      List.length_cons] at h2 ⊢
    omega

theorem sttsLoop_replicate (s : SampleInfo) :
    ∀ (n c : Nat) (init : List SttsEntry),
      (List.replicate n s).foldl sttsStep
          (init ++ [{ sampleCount := c % 2 ^ 32, sampleDelta := s.duration }])
        = init ++ [{ sampleCount := (c + n) % 2 ^ 32, sampleDelta := s.duration }] := by
  intro n
  induction n with
  | zero => intro c init; rfl
  | succ n ih =>
    intro c init
    have hstep : sttsStep (init ++ [{ sampleCount := c % 2 ^ 32, sampleDelta := s.duration }]) s
        = init ++ [{ sampleCount := (c + 1) % 2 ^ 32, sampleDelta := s.duration }] := by
      unfold sttsStep
      rw [List.getLast?_concat]
      simp only [beq_self_eq_true, if_true, List.dropLast_concat, Nat.mod_add_mod]
    rw [List.replicate_succ, List.foldl_cons, hstep, ih (c + 1) init]
    congr 3
    omega

/-- C5 (amended): for every sample sequence of fewer than 2^32 samples, the
duration table built by `writeM4a` has exactly one entry per maximal run of
equal durations: expanding the entries gives back the durations, no two
adjacent entries have the same SampleDelta, every SampleCount is at least 1,
and EntryCount is the number of entries; and every sequence with durations
1024, 1024, 1024, 2048, 2048 gives exactly the two entries (3, 1024) and
(2, 2048). -/
theorem sttsTable_run_length (samples : List SampleInfo) (h : samples.length < 2 ^ 32) :
    sttsExpand (sttsTable samples).entries = samples.map (fun s => s.duration) ∧
    List.Chain' (fun a b : SttsEntry => a.sampleDelta ≠ b.sampleDelta) (sttsTable samples).entries ∧
    (∀ e ∈ (sttsTable samples).entries, 1 ≤ e.sampleCount) ∧
    (sttsTable samples).entryCount = (sttsTable samples).entries.length ∧
    (samples.map (fun s => s.duration) = [1024, 1024, 1024, 2048, 2048] →
      sttsTable samples
        = { entryCount := 2
            entries := [{ sampleCount := 3, sampleDelta := 1024 },
                        { sampleCount := 2, sampleDelta := 2048 }] }) := by
  obtain ⟨a, b, c⟩ := sttsLoop_invariant samples [] [] rfl List.chain'_nil (by simp)
    (by simpa using h)
  simp only [List.nil_append] at a
  have hlen : (samples.foldl sttsStep []).length ≤ samples.length := by
    have := sttsExpand_length_le _ c
    rw [a] at this
    simpa using this
  refine ⟨a, b, c, ?_, ?_⟩
  · exact Nat.mod_eq_of_lt (lt_of_le_of_lt hlen h)
  · intro hd
    rcases samples with _ | ⟨s1, _ | ⟨s2, _ | ⟨s3, _ | ⟨s4, _ | ⟨s5, _ | ⟨s6, t⟩⟩⟩⟩⟩⟩ <;>
      simp only [List.map_cons, List.map_nil, List.cons.injEq, and_true, and_false,
        reduceCtorEq] at hd
    obtain ⟨h1, h2, h3, h4, h5⟩ := hd
    simp [sttsTable, sttsStep, h1, h2, h3, h4, h5]

/-- Witness for C5 (amended) at the durations of the example. -/
theorem sttsTable_run_length_witness :
    ([1024, 1024, 1024, 2048, 2048].map sampleOfDuration).length < 2 ^ 32 ∧
    sttsTable ([1024, 1024, 1024, 2048, 2048].map sampleOfDuration)
      = { entryCount := 2
          entries := [{ sampleCount := 3, sampleDelta := 1024 },
                      { sampleCount := 2, sampleDelta := 2048 }] } :=
  ⟨by decide, (sttsTable_run_length ([1024, 1024, 1024, 2048, 2048].map sampleOfDuration)
    (by decide)).2.2.2.2 (by decide)⟩

/-- C5 fails as stated: for 2^32 samples of one duration the 32-bit
`SampleCount++` wraps, and the table is the single entry (0, 1024), whose
SampleCount is not at least 1. -/
theorem sttsTable_count_wraps :
    (sttsTable (List.replicate 4294967296 (sampleOfDuration 1024))).entries
      = [{ sampleCount := 0, sampleDelta := 1024 }] ∧
    ¬ (∀ e ∈ (sttsTable (List.replicate 4294967296 (sampleOfDuration 1024))).entries,
        1 ≤ e.sampleCount) := by
  have hrun : (sttsTable (List.replicate 4294967296 (sampleOfDuration 1024))).entries
      = [{ sampleCount := 0, sampleDelta := 1024 }] := by
    have h1 : List.replicate 4294967296 (sampleOfDuration 1024)
        = sampleOfDuration 1024 :: List.replicate 4294967295 (sampleOfDuration 1024) :=
      List.replicate_succ (sampleOfDuration 1024) 4294967295
    have h2 := sttsLoop_replicate (sampleOfDuration 1024) 4294967295 1 []
    simp only [sttsTable]
    rw [h1, List.foldl_cons]
    exact h2
  refine ⟨hrun, ?_⟩
  rw [hrun]
  intro hall
  have := hall { sampleCount := 0, sampleDelta := 1024 } (by simp)
  simp at this

theorem numSamples_lt (samples : List SampleInfo) : numSamples samples < 2 ^ 32 :=
  Nat.mod_lt _ (by norm_num)

theorem numSamples_le (samples : List SampleInfo) : numSamples samples ≤ samples.length :=
  Nat.mod_le _ _

/-- C6: with `n` the 32-bit sample count `numSamples` of `writeM4a` and chunk
size 5, the chunk map has the one entry (firstChunk 1, perChunk 5) when `n` is
an exact multiple of 5, and otherwise exactly the two entries (1, 5) and
(n / 5 + 1, n mod 5); `n` is the number of samples whenever that is below
2^32, and for 12 samples the entries are (1, 5) and (3, 2). -/
theorem stscTable_entries (samples : List SampleInfo) :
    (numSamples samples % 5 = 0 →
      stscTable (numSamples samples)
        = { entryCount := 1
            entries := [{ firstChunk := 1, samplesPerChunk := 5, sampleDescriptionIndex := 1 }] }) ∧
    (numSamples samples % 5 ≠ 0 →
      stscTable (numSamples samples)
        = { entryCount := 2
            entries := [{ firstChunk := 1, samplesPerChunk := 5, sampleDescriptionIndex := 1 },
                        { firstChunk := numSamples samples / 5 + 1
                          samplesPerChunk := numSamples samples % 5
                          sampleDescriptionIndex := 1 }] }) ∧
    (samples.length < 2 ^ 32 → numSamples samples = samples.length) ∧
    (samples.length = 12 →
      stscTable (numSamples samples)
        = { entryCount := 2
            entries := [{ firstChunk := 1, samplesPerChunk := 5, sampleDescriptionIndex := 1 },
                        { firstChunk := 3, samplesPerChunk := 2, sampleDescriptionIndex := 1 }] }) := by
  have hlt := numSamples_lt samples
  refine ⟨?_, ?_, ?_, ?_⟩
  · intro h
    simp [stscTable, chunkSize, h]
  · intro h
    have hm : numSamples samples / 5 + 1 < 4294967296 := by omega
    simp [stscTable, chunkSize, h, Nat.mod_eq_of_lt hm]
  · intro h
    exact Nat.mod_eq_of_lt h
  · intro h
    have : numSamples samples = 12 := by simp [numSamples, h]
    rw [this]
    decide

/-- Witness for C6 at 12 samples. -/
theorem stscTable_entries_witness :
    (List.replicate 12 (sampleOfDuration 1024)).length = 12 ∧
    stscTable (numSamples (List.replicate 12 (sampleOfDuration 1024)))
      = { entryCount := 2
          entries := [{ firstChunk := 1, samplesPerChunk := 5, sampleDescriptionIndex := 1 },
                      { firstChunk := 3, samplesPerChunk := 2, sampleDescriptionIndex := 1 }] } :=
  ⟨by decide, (stscTable_entries (List.replicate 12 (sampleOfDuration 1024))).2.2.2 (by decide)⟩

theorem bytesBefore_succ (samples : List SampleInfo) (i : Nat) (sample : SampleInfo)
    (h : samples.get? i = some sample) :
    bytesBefore samples (i + 1) = bytesBefore samples i + sample.data.length := by
  have hi : i < samples.length := by
    rcases Nat.lt_or_ge i samples.length with hlt | hge
    · exact hlt
    · rw [List.get?_eq_none.mpr hge] at h
      simp at h
  have hs : samples[i] = sample := by
    rw [List.get?_eq_get hi] at h
    simpa using h
  unfold bytesBefore
  rw [← List.take_concat_get _ _ hi]
  simp [hs]

theorem stcoLoop_spec (samples : List SampleInfo) (base : Nat) :
    ∀ (left i offset : Nat) (realStco : Stco),
      i + left ≤ samples.length →
      offset = (base + bytesBefore samples i) % 2 ^ 64 →
      realStco.entryCount < 2 ^ 32 →
      stcoLoop samples left i offset realStco
        = some
            { entryCount :=
                (realStco.entryCount + ((List.range' i left).filter (fun j => j % 5 == 0)).length)
                  % 2 ^ 32
              chunkOffset := realStco.chunkOffset ++
                ((List.range' i left).filter (fun j => j % 5 == 0)).map
                  (fun j => (base + bytesBefore samples j) % 2 ^ 32) } := by
  intro left
  induction left with
  | zero =>
    intro i offset realStco _ _ hc
    have hc1 : realStco.entryCount % 4294967296 = realStco.entryCount := Nat.mod_eq_of_lt hc
    simp [stcoLoop, hc1]
  | succ left ih =>
    intro i offset realStco hle hoff hc
    have hi : i < samples.length := by omega
    have hget : samples.get? i = some samples[i] := List.get?_eq_get hi
    have hnext : (offset + samples[i].data.length) % 2 ^ 64
        = (base + bytesBefore samples (i + 1)) % 2 ^ 64 := by
      rw [bytesBefore_succ samples i _ hget, hoff, Nat.mod_add_mod, Nat.add_assoc]
    have hlow : offset % 2 ^ 32 = (base + bytesBefore samples i) % 2 ^ 32 := by
      rw [hoff]
      exact Nat.mod_mod_of_dvd _ (Nat.pow_dvd_pow 2 (by norm_num))
    simp only [stcoLoop, hget, chunkSize]
    rw [List.range'_succ]
    by_cases h5 : i % 5 = 0
    · rw [ih (i + 1) _ _ (by omega) hnext
        (by simp only [h5, beq_self_eq_true, if_true]; exact Nat.mod_lt _ (by norm_num))]
      simp only [h5, beq_self_eq_true, if_true, List.filter_cons_of_pos, List.length_cons,
        List.map_cons, List.append_assoc, List.singleton_append, hlow, Nat.mod_add_mod]
      congr 2
      congr 1
      omega
    · have h5b : (i % 5 == 0) = false := by simpa using h5
      rw [ih (i + 1) _ _ (by omega) hnext (by simp only [h5b]; exact hc)]
      simp [h5b]

theorem range_filter_chunk_starts (n : Nat) :
    (List.range' 0 n).filter (fun j => j % 5 == 0) = (List.range ((n + 4) / 5)).map (fun k => 5 * k) := by
  induction n with
  | zero => rfl
  | succ n ih =>
    rw [List.range'_concat, List.filter_append, ih]
    by_cases h5 : n % 5 = 0
    · have e : (n + 1 + 4) / 5 = (n + 4) / 5 + 1 := by omega
      have e2 : 5 * ((n + 4) / 5) = n := by omega
      rw [e, List.range_succ, List.map_append]
      simp [h5, e2]
    · have e : (n + 1 + 4) / 5 = (n + 4) / 5 := by omega
      rw [e]
      simp [h5]

/-- The patched chunk-offset table in closed form: one entry per started
chunk of 5 samples, the `k`-th being the low 32 bits of the payload start plus
the bytes of the samples before sample `5 * k`. -/
theorem stcoPatch_spec (samples : List SampleInfo) (box : BoxInfo) :
    stcoPatch samples (some box)
      = some
          { entryCount := (numSamples samples + 4) / 5
            chunkOffset := (List.range ((numSamples samples + 4) / 5)).map
              (fun k => (box.offset + box.headerSize + bytesBefore samples (5 * k)) % 2 ^ 32) } := by
  have hlt := numSamples_lt samples
  have h0 : bytesBefore samples 0 = 0 := by simp [bytesBefore]
  simp only [stcoPatch]
  rw [stcoLoop_spec samples ((box.offset + box.headerSize) % 2 ^ 64) (numSamples samples) 0 _ _
    (by simpa using numSamples_le samples) (by simp [h0]) (by norm_num)]
  rw [range_filter_chunk_starts]
  have hm : ∀ k, ((box.offset + box.headerSize) % 2 ^ 64 + bytesBefore samples (5 * k)) % 2 ^ 32
      = (box.offset + box.headerSize + bytesBefore samples (5 * k)) % 2 ^ 32 := by
    intro k
    have hd : (2 : Nat) ^ 32 ∣ 2 ^ 64 := Nat.pow_dvd_pow 2 (by norm_num)
    rw [Nat.add_mod, Nat.mod_mod_of_dvd _ hd, ← Nat.add_mod]
  simp only [List.length_map, List.length_range, List.map_map, Nat.zero_add, List.nil_append,
    Function.comp_def, hm]
  congr 2
  exact Nat.mod_eq_of_lt (by omega)

theorem stcoPlaceholder_length (n : Nat) (h : n + 4 < 2 ^ 32) :
    (stcoPlaceholder n).entryCount = (n + 4) / 5 ∧
    (stcoPlaceholder n).chunkOffset.length = (n + 4) / 5 := by
  have e : ((n + 5) % 2 ^ 32 + 2 ^ 32 - 1) % 2 ^ 32 = n + 4 := by omega
  simp only [stcoPlaceholder, chunkSize, e, List.length_replicate, and_self]

/-- The call `EndBox` returns a box exactly when the file raises no error and
the size fits 32 bits; the box then has the 8-byte header. -/
theorem endBox_ok_iff (ioErr : Option String) (offset size : Nat) (box : BoxInfo) :
    endBox ioErr offset size = .ok box ↔
      ioErr = none ∧ size ≤ 4294967295 ∧
      box = { offset := offset, headerSize := 8, size := size } := by
  unfold endBox
  cases ioErr with
  | some e => simp
  | none =>
    by_cases hs : size ≤ 4294967295
    · simp only [hs, if_true, Except.ok.injEq, true_and]
      exact eq_comm
    · simp [hs]

/-- The stco block is reached exactly when the stsz box is closed without an
error, which needs a sample count of at most 1073741818. -/
theorem writeTables_reserved (samples : List SampleInfo) (data : Bytes) (env : TableEnv) :
    (env.stszEndErr = none ∧ numSamples samples ≤ 1073741818 ∧
      (writeTables samples data env).reserved = some (stcoPlaceholder (numSamples samples))) ∨
    ((env.stszEndErr ≠ none ∨ 1073741818 < numSamples samples) ∧
      (writeTables samples data env).reserved = none ∧
      (writeTables samples data env).patched = none ∧
      ∃ e, (writeTables samples data env).ret = .returned (some e)) := by
  cases hs : env.stszEndErr with
  | some e =>
    right
    exact ⟨Or.inl (by simp), by simp [writeTables, endBox, hs], by simp [writeTables, endBox, hs],
      e, by simp [writeTables, endBox, hs]⟩
  | none =>
    by_cases hn : numSamples samples ≤ 1073741818
    · left
      have hsz : stszSize (numSamples samples) ≤ 4294967295 := by
        simp only [stszSize]
        omega
      refine ⟨rfl, hn, ?_⟩
      simp only [writeTables, endBox, hs, hsz, if_true]
      cases env.betweenErr with
      | some e => rfl
      | none =>
        simp only
        split <;> rfl
    · right
      have hsz : ¬ stszSize (numSamples samples) ≤ 4294967295 := by
        simp only [stszSize]
        omega
      exact ⟨Or.inr (by omega), by simp [writeTables, endBox, hs, hsz],
        by simp [writeTables, endBox, hs, hsz], "header size changed",
        by simp [writeTables, endBox, hs, hsz]⟩

/-- The real table is computed exactly when the stco block is reached, no
call up to the payload returns an error, and the payload box is closed, which
needs a payload of at most 4294967287 bytes; when the payload box cannot be
closed, the nil box is dereferenced. -/
theorem writeTables_patched (samples : List SampleInfo) (data : Bytes) (env : TableEnv)
    (hs : env.stszEndErr = none) (hn : numSamples samples ≤ 1073741818) :
    (env.betweenErr = none ∧ env.mdatEndErr = none ∧ 8 + data.length ≤ 4294967295 ∧
      writeTables samples data env
        = { reserved := some (stcoPlaceholder (numSamples samples))
            patched := some
              { entryCount := (numSamples samples + 4) / 5
                chunkOffset := (List.range ((numSamples samples + 4) / 5)).map
                  (fun k => (env.mdatOffset + 8 + bytesBefore samples (5 * k)) % 2 ^ 32) }
            ret := .returned env.patchErr }) ∨
    (env.betweenErr = none ∧ (env.mdatEndErr ≠ none ∨ 4294967295 < 8 + data.length) ∧
      writeTables samples data env
        = { reserved := some (stcoPlaceholder (numSamples samples)), patched := none
            ret := .panicked }) ∨
    (∃ e, env.betweenErr = some e ∧
      writeTables samples data env
        = { reserved := some (stcoPlaceholder (numSamples samples)), patched := none
            ret := .returned (some e) }) := by
  have hsz : stszSize (numSamples samples) ≤ 4294967295 := by
    simp only [stszSize]
    omega
  cases hb : env.betweenErr with
  | some e =>
    right; right
    exact ⟨e, rfl, by simp [writeTables, endBox, hs, hsz, hb]⟩
  | none =>
    cases hm : env.mdatEndErr with
    | some e =>
      right; left
      exact ⟨rfl, Or.inl (by simp), by simp [writeTables, endBox, hs, hsz, hb, hm, stcoPatch]⟩
    | none =>
      by_cases hd : 8 + data.length ≤ 4294967295
      · left
        refine ⟨rfl, rfl, hd, ?_⟩
        simp only [writeTables, endBox, hs, hsz, hb, hm, hd, if_true, stcoPatch_spec]
      · right; left
        exact ⟨rfl, Or.inr (by omega), by simp [writeTables, endBox, hs, hsz, hb, hm, hd, stcoPatch]⟩



theorem Conn.write_ok {c c1 : Conn} {bs : Bytes} (h : c.write bs = .ok c1) :
    c1.log = c.log ++ [.write bs] ∧ c1.rx = c.rx := by
  unfold Conn.write at h
  split at h
  · simp at h
  · simp only [Except.ok.injEq] at h
    subst h
    exact ⟨rfl, rfl⟩

theorem Conn.readFull_ok {c c1 : Conn} {n : Nat} {de : Bytes}
    (h : c.readFull n = .ok (de, c1)) :
    de.length = n ∧ c1.log = c.log ++ [.read de] ∧ c.rx = de ++ c1.rx := by
  unfold Conn.readFull at h
  split at h
  · rename_i hn
    simp only [Except.ok.injEq, Prod.mk.injEq] at h
    obtain ⟨h1, h2⟩ := h
    subst h1 h2
    exact ⟨by simp [hn], rfl, (List.take_append_drop n c.rx).symm⟩
  · simp at h

theorem except_bind_ok {ε α β : Type} {x : Except ε α} {f : α → Except ε β} {b : β}
    (h : x >>= f = .ok b) : ∃ a, x = .ok a ∧ f a = .ok b := by
  cases x with
  | error e => simp [bind, Except.bind] at h
  | ok a => exact ⟨a, rfl, h⟩

theorem switchContext_ok {keys : List GoString} {trackId : GoString} {st : DecryptState}
    {sp : SampleInfo} {c : Conn} (h : switchContext keys trackId st sp = .ok c) :
    ∃ block, IsSwitch keys trackId st.lastIndex st.decrypted.length sp block ∧
      c.log = st.conn.log ++ block ∧ c.rx = st.conn.rx := by
  unfold switchContext at h
  split at h
  · rename_i hne
    simp only [bne_iff_ne, ne_eq] at hne
    obtain ⟨c0, h0, h⟩ := except_bind_ok h
    split at h
    · simp at h
    · rename_i keyUri hkey
      simp only [beq_iff_eq] at h
      obtain ⟨c1, h1, h⟩ := except_bind_ok h
      obtain ⟨c2, h2, h⟩ := except_bind_ok h
      obtain ⟨c3, h3, h⟩ := except_bind_ok h
      obtain ⟨l1, r1⟩ := Conn.write_ok h1
      obtain ⟨l2, r2⟩ := Conn.write_ok h2
      obtain ⟨l3, r3⟩ := Conn.write_ok h3
      obtain ⟨l4, r4⟩ := Conn.write_ok h
      have hflush : c0.log = st.conn.log
          ++ (if st.decrypted.length = 0 then [] else [flushMarker]) ∧ c0.rx = st.conn.rx := by
        split at h0
        · rename_i hd
          simp only [bne_iff_ne, ne_eq] at hd
          obtain ⟨l0, r0⟩ := Conn.write_ok h0
          simp [hd, l0, r0, flushMarker]
        · rename_i hd
          simp only [bne_iff_ne, ne_eq, not_not] at hd
          simp only [Except.ok.injEq] at h0
          subst h0
          simp [hd]
      refine ⟨_, Or.inr ⟨hne, keyUri, hkey, rfl⟩, ?_, ?_⟩
      · rw [l4, l3, l2, l1, hflush.1]
        simp [switchMessage]
      · rw [r4, r3, r2, r1, hflush.2]
  · rename_i hne
    simp only [bne_iff_ne, ne_eq, not_not] at hne
    simp only [Except.ok.injEq] at h
    subst h
    exact ⟨[], Or.inl ⟨hne, rfl⟩, by simp, rfl⟩

theorem decryptStep_ok {keys : List GoString} {trackId : GoString} {st st1 : DecryptState}
    {sp : SampleInfo} (h : decryptStep keys trackId st sp = .ok st1) :
    ∃ block resp, IsSwitch keys trackId st.lastIndex st.decrypted.length sp block ∧
      resp.length = sp.data.length ∧
      st1.conn.log = st.conn.log ++ (block ++ sampleFrame sp.data resp) ∧
      st1.decrypted = st.decrypted ++ resp ∧ st1.lastIndex = sp.descIndex ∧
      st.conn.rx = resp ++ st1.conn.rx := by
  unfold decryptStep at h
  obtain ⟨c0, h0, h⟩ := except_bind_ok h
  obtain ⟨c1, h1, h⟩ := except_bind_ok h
  obtain ⟨c2, h2, h⟩ := except_bind_ok h
  obtain ⟨⟨de, c3⟩, h3, h⟩ := except_bind_ok h
  simp only [Except.ok.injEq] at h
  subst h
  obtain ⟨block, hsw, l0, r0⟩ := switchContext_ok h0
  obtain ⟨l1, r1⟩ := Conn.write_ok h1
  obtain ⟨l2, r2⟩ := Conn.write_ok h2
  obtain ⟨hlen, l3, r3⟩ := Conn.readFull_ok h3
  refine ⟨block, de, hsw, hlen, ?_, rfl, rfl, ?_⟩
  · simp [l3, l2, l1, l0, sampleFrame]
  · rw [← r0, ← r1, ← r2, r3]

theorem decryptLoop_ok {keys : List GoString} {trackId : GoString} :
    ∀ (samples : List SampleInfo) (st st1 : DecryptState),
      decryptLoop keys trackId samples st = .ok st1 →
      ∃ (blocks : List (List Event)) (resps : List Bytes),
        SwitchBlocks keys trackId st.lastIndex st.decrypted.length samples blocks ∧
        resps.map List.length = samples.map (fun s => s.data.length) ∧
        st1.conn.log = st.conn.log ++ framedLog blocks samples resps ∧
        st1.decrypted = st.decrypted ++ resps.flatten ∧
        st.conn.rx = resps.flatten ++ st1.conn.rx := by
  intro samples
  induction samples with
  | nil =>
    intro st st1 h
    simp only [decryptLoop, Except.ok.injEq] at h
    subst h
    exact ⟨[], [], trivial, rfl, by simp [framedLog], by simp, by simp⟩
  | cons sp rest ih =>
    intro st st1 h
    simp only [decryptLoop] at h
    split at h
    · simp at h
    · rename_i st2 hstep
      obtain ⟨block, resp, hsw, hlen, hlog, hdec, hidx, hrx⟩ := decryptStep_ok hstep
      obtain ⟨blocks, resps, hbs, hls, hlog2, hdec2, hrx2⟩ := ih _ _ h
      refine ⟨block :: blocks, resp :: resps, ?_, ?_, ?_, ?_, ?_⟩
      · refine ⟨hsw, ?_⟩
        rw [hidx, hdec, List.length_append, hlen] at hbs
        exact hbs
      · simp [hls, hlen]
      · rw [hlog2, hlog]
        simp [framedLog]
      · rw [hdec2, hdec]
        simp
      · rw [hrx, hrx2]
        simp

theorem SwitchBlocks.length_eq {keys : List GoString} {trackId : GoString} :
    ∀ (samples : List SampleInfo) (blocks : List (List Event)) (last n : Nat),
      SwitchBlocks keys trackId last n samples blocks → blocks.length = samples.length := by
  intro samples
  induction samples with
  | nil =>
    intro blocks last n h
    cases blocks with
    | nil => rfl
    | cons b bs => exact absurd h (by simp [SwitchBlocks])
  | cons sp rest ih =>
    intro blocks last n h
    cases blocks with
    | nil => exact absurd h (by simp [SwitchBlocks])
    | cons b bs =>
      simp only [SwitchBlocks] at h
      simp [ih bs _ _ h.2]

theorem SwitchBlocks.head {keys : List GoString} {trackId : GoString}
    {samples : List SampleInfo} {blocks : List (List Event)} {last n : Nat}
    (h : SwitchBlocks keys trackId last n samples blocks)
    (hs : 0 < samples.length) (hb : 0 < blocks.length) :
    IsSwitch keys trackId last n samples[0] blocks[0] := by
  cases samples with
  | nil => simp at hs
  | cons sp rest =>
    cases blocks with
    | nil => simp at hb
    | cons b bs =>
      simp only [SwitchBlocks] at h
      exact h.1

theorem SwitchBlocks.next {keys : List GoString} {trackId : GoString} :
    ∀ (samples : List SampleInfo) (blocks : List (List Event)) (last n : Nat),
      SwitchBlocks keys trackId last n samples blocks →
      ∀ (i : Nat) (hs : i + 1 < samples.length) (hb : i + 1 < blocks.length),
        IsSwitch keys trackId samples[i].descIndex (n + bytesBefore samples (i + 1))
          samples[i + 1] blocks[i + 1] := by
  intro samples
  induction samples with
  | nil => intro blocks last n _ i hs; simp at hs
  | cons sp rest ih =>
    intro blocks last n h i hs hb
    cases blocks with
    | nil => simp at hb
    | cons b bs =>
      simp only [SwitchBlocks] at h
      have hs1 : i < rest.length := by simpa using hs
      have hb1 : i < bs.length := by simpa using hb
      cases i with
      | zero =>
        have := SwitchBlocks.head h.2 hs1 hb1
        simpa [bytesBefore] using this
      | succ i =>
        have := ih bs _ _ h.2 i hs1 hb1
        simpa [bytesBefore, Nat.add_assoc] using this

theorem decryptSong_ok {samples : List SampleInfo} {keys : List GoString} {trackId : GoString}
    {conn : Conn} {out : Exchange} (h : decryptSong samples keys trackId conn = .ok out) :
    ∃ (blocks : List (List Event)) (resps : List Bytes) (tail : List Event),
      SwitchBlocks keys trackId 255 0 samples blocks ∧
      resps.map List.length = samples.map (fun s => s.data.length) ∧
      out.conn.log = conn.log ++ framedLog blocks samples resps ++ tail ∧
      (tail = [] ∨ tail = [.write [0, 0, 0, 0, 0]]) ∧
      out.decrypted = resps.flatten ∧ conn.rx = resps.flatten ++ out.conn.rx := by
  unfold decryptSong at h
  split at h
  · simp at h
  · rename_i st hloop
    obtain ⟨blocks, resps, hbs, hls, hlog, hdec, hrx⟩ := decryptLoop_ok _ _ _ hloop
    simp only [List.length_nil, List.nil_append] at hbs hlog hdec hrx
    split at h
    · rename_i c hw
      simp only [Except.ok.injEq] at h
      subst h
      obtain ⟨l, r⟩ := Conn.write_ok hw
      exact ⟨blocks, resps, [.write [0, 0, 0, 0, 0]], hbs, hls, by simp [l, hlog], Or.inr rfl,
        hdec, by simp [r, hrx]⟩
    · simp only [Except.ok.injEq] at h
      subst h
      exact ⟨blocks, resps, [], hbs, hls, by simp [hlog], Or.inl rfl, hdec, hrx⟩

/-- C9 (amended): in a completed exchange of `decryptSong`, the log is the
frames of the samples in order, each preceded by its own block of events (and
the whole followed by the terminator write); for every sample after the first
the block is empty when its descriptor index equals the previous sample's, and
otherwise it ends with the key-context-switch message
`[1-byte id length][id][1-byte key length][key]`, where `key = keys[descIndex]`
and `id` is the default identifier "0" exactly when `key` is the prefetch
constant and the track identifier otherwise. Each length byte is the length
modulo 256, which is the length itself for an id or key of fewer than 256
bytes; before the message the block holds at most the flush marker. -/
theorem decryptSong_context_switch (samples : List SampleInfo) (keys : List GoString)
    (trackId : GoString) (conn : Conn) (out : Exchange)
    (h : decryptSong samples keys trackId conn = .ok out) :
    ∃ (blocks : List (List Event)) (resps : List Bytes) (tail : List Event),
      blocks.length = samples.length ∧ resps.length = samples.length ∧
      out.conn.log = conn.log ++ framedLog blocks samples resps ++ tail ∧
      (tail = [] ∨ tail = [.write [0, 0, 0, 0, 0]]) ∧
      ∀ (i : Nat) (hs : i + 1 < samples.length) (hb : i + 1 < blocks.length),
        (samples[i + 1].descIndex = samples[i].descIndex → blocks[i + 1] = []) ∧
        (samples[i + 1].descIndex ≠ samples[i].descIndex →
          ∃ (key id : GoString) (flush : List Event) (idLen keyLen : Nat),
            keys.get? samples[i + 1].descIndex = some key ∧
            id = (if key = prefetchKey then defaultId else trackId) ∧
            (flush = [] ∨ flush = [flushMarker]) ∧
            idLen = id.length % 256 ∧ keyLen = key.length % 256 ∧
            (id.length < 256 → idLen = id.length) ∧
            (key.length < 256 → keyLen = key.length) ∧
            blocks[i + 1] = flush ++
              [.write [idLen], .write id, .write [keyLen], .write key]) := by
  obtain ⟨blocks, resps, tail, hbs, hls, hlog, htail, _, _⟩ := decryptSong_ok h
  have hlen := SwitchBlocks.length_eq _ _ _ _ hbs
  refine ⟨blocks, resps, tail, hlen, by simpa using congrArg List.length hls, hlog, htail, ?_⟩
  intro i hs hb
  have hsw := SwitchBlocks.next _ _ _ _ hbs i hs hb
  rcases hsw with ⟨heq, hnil⟩ | ⟨hne, key, hkey, hblock⟩
  · exact ⟨fun _ => hnil, fun hne => absurd heq.symm hne⟩
  · refine ⟨fun heq => absurd heq.symm hne,
      fun _ => ⟨key, _, _, _, _, hkey, rfl, ?_, rfl, rfl, Nat.mod_eq_of_lt, Nat.mod_eq_of_lt,
        hblock⟩⟩
    split
    · exact Or.inl rfl
    · exact Or.inr rfl

/-- Witness for C9 (amended): three samples with descriptor indices 1, 1, 0
for track "12"; the oracle answers 1, 2, 3, 4, 5. -/
theorem decryptSong_context_switch_witness :
    decryptSong threeSamples twoKeys [49, 50] (freshConn [1, 2, 3, 4, 5]) = .ok threeExchange ∧
    ∃ (blocks : List (List Event)) (resps : List Bytes) (tail : List Event),
      blocks.length = threeSamples.length ∧ resps.length = threeSamples.length ∧
      threeExchange.conn.log
        = (freshConn [1, 2, 3, 4, 5]).log ++ framedLog blocks threeSamples resps ++ tail ∧
      (tail = [] ∨ tail = [.write [0, 0, 0, 0, 0]]) ∧
      ∀ (i : Nat) (hs : i + 1 < threeSamples.length) (hb : i + 1 < blocks.length),
        (threeSamples[i + 1].descIndex = threeSamples[i].descIndex → blocks[i + 1] = []) ∧
        (threeSamples[i + 1].descIndex ≠ threeSamples[i].descIndex →
          ∃ (key id : GoString) (flush : List Event) (idLen keyLen : Nat),
            twoKeys.get? threeSamples[i + 1].descIndex = some key ∧
            id = (if key = prefetchKey then defaultId else [49, 50]) ∧
            (flush = [] ∨ flush = [flushMarker]) ∧
            idLen = id.length % 256 ∧ keyLen = key.length % 256 ∧
            (id.length < 256 → idLen = id.length) ∧
            (key.length < 256 → keyLen = key.length) ∧
            blocks[i + 1] = flush ++
              [.write [idLen], .write id, .write [keyLen], .write key]) :=
  ⟨rfl, decryptSong_context_switch threeSamples twoKeys [49, 50]
    (freshConn [1, 2, 3, 4, 5]) threeExchange rfl⟩

set_option maxRecDepth 8000

/-- C9 fails as stated: for two samples with descriptor indices 0 and 1, the
key at index 1 being 300 bytes long, the switch message before the second
sample carries the length byte 44 in front of the 300 bytes of the key, so it
is not the key preceded by its length in one byte. -/
theorem decryptSong_long_key_length_byte :
    longKey.length = 300 ∧
    decryptSong longKeySamples [prefetchKey, longKey] [49, 50] (freshConn [1, 2])
      = .ok { conn := { rx := [], writesLeft := 86,
                        log := [.write [1], .write [48], .write [39], .write prefetchKey,
                                .write [1, 0, 0, 0], .write [7], .read [1],
                                .write [0, 0, 0, 0],
                                .write [2], .write [49, 50], .write [44], .write longKey,
                                .write [1, 0, 0, 0], .write [8], .read [2],
                                .write [0, 0, 0, 0, 0]] }
              decrypted := [1, 2] } := by
  refine ⟨?_, rfl⟩
  simp only [longKey, List.length_append, List.length_cons, List.length_nil,
    List.length_replicate]

theorem wireBytes_append (l1 l2 : List Event) :
    wireBytes (l1 ++ l2) = wireBytes l1 ++ wireBytes l2 := by
  induction l1 with
  | nil => rfl
  | cons e rest ih =>
    cases e with
    | write bs => simp [wireBytes, ih]
    | read bs => simp [wireBytes, ih]

/-- The log of the first `i + 1` frames is the log of the first `i` frames
followed by the block and the frame of sample `i`. -/
theorem framedLog_take_succ :
    ∀ (blocks : List (List Event)) (samples : List SampleInfo) (resps : List Bytes) (i : Nat)
      (hb : i < blocks.length) (hs : i < samples.length) (hr : i < resps.length),
      framedLog (blocks.take (i + 1)) (samples.take (i + 1)) (resps.take (i + 1))
        = framedLog (blocks.take i) (samples.take i) (resps.take i)
          ++ (blocks[i] ++ sampleFrame samples[i].data resps[i]) := by
  intro blocks
  induction blocks with
  | nil => intro samples resps i hb; simp at hb
  | cons b bs ih =>
    intro samples resps i hb hs hr
    cases samples with
    | nil => simp at hs
    | cons sp sps =>
      cases resps with
      | nil => simp at hr
      | cons r rs =>
        cases i with
        | zero => simp [framedLog]
        | succ i =>
          have := ih sps rs i (by simpa using hb) (by simpa using hs) (by simpa using hr)
          simp only [List.take_succ_cons, framedLog, List.getElem_cons_succ, List.append_assoc]
            at this ⊢
          rw [this]

/-- The log of all frames splits at sample `i` into the log of the first `i`
frames, the block and the frame of sample `i`, and the log of the rest. -/
theorem framedLog_split :
    ∀ (blocks : List (List Event)) (samples : List SampleInfo) (resps : List Bytes) (i : Nat)
      (hb : i < blocks.length) (hs : i < samples.length) (hr : i < resps.length),
      framedLog blocks samples resps
        = framedLog (blocks.take i) (samples.take i) (resps.take i)
          ++ (blocks[i] ++ (sampleFrame samples[i].data resps[i]
            ++ framedLog (blocks.drop (i + 1)) (samples.drop (i + 1)) (resps.drop (i + 1)))) := by
  intro blocks
  induction blocks with
  | nil => intro samples resps i hb; simp at hb
  | cons b bs ih =>
    intro samples resps i hb hs hr
    cases samples with
    | nil => simp at hs
    | cons sp sps =>
      cases resps with
      | nil => simp at hr
      | cons r rs =>
        cases i with
        | zero => simp [framedLog]
        | succ i =>
          have := ih sps rs i (by simpa using hb) (by simpa using hs) (by simpa using hr)
          simp only [List.take_succ_cons, framedLog, List.getElem_cons_succ, List.append_assoc,
            List.drop_succ_cons] at this ⊢
          rw [this]

/-- C10: in a completed exchange of `decryptSong`, take any key-context-switch
message, the one sent before the frame of sample `i`. When `i` is not the
first sample, so that at least one sample has been sent before it, the four
bytes sent immediately before the message are zero: they are the flush marker,
written as such when the samples sent so far hold at least one byte, and
otherwise they are the length header of the preceding sample, which is empty.
When `i` is the first sample, nothing is sent before the message, so no flush
marker precedes it. -/
theorem decryptSong_flush_marker (samples : List SampleInfo) (keys : List GoString)
    (trackId : GoString) (conn : Conn) (out : Exchange)
    (h : decryptSong samples keys trackId conn = .ok out) :
    ∃ (blocks : List (List Event)) (resps : List Bytes) (tail : List Event),
      blocks.length = samples.length ∧ resps.length = samples.length ∧
      out.conn.log = conn.log ++ framedLog blocks samples resps ++ tail ∧
      ∀ (i : Nat) (hb : i < blocks.length), blocks[i] ≠ [] →
        ∃ (id key : GoString) (flush later : List Event),
          blocks[i] = flush ++ switchMessage id key ∧
          (bytesBefore samples i ≠ 0 → flush = [flushMarker]) ∧
          (bytesBefore samples i = 0 → flush = []) ∧
          out.conn.log = conn.log
            ++ (framedLog (blocks.take i) (samples.take i) (resps.take i) ++ flush)
            ++ switchMessage id key ++ later ∧
          (i = 0 → framedLog (blocks.take i) (samples.take i) (resps.take i) ++ flush = []) ∧
          (0 < i → ∃ front,
            wireBytes (framedLog (blocks.take i) (samples.take i) (resps.take i) ++ flush)
              = front ++ [0, 0, 0, 0]) := by
  obtain ⟨blocks, resps, tail, hbs, hls, hlog, htail, _, _⟩ := decryptSong_ok h
  have hlen := SwitchBlocks.length_eq _ _ _ _ hbs
  have hrlen : resps.length = samples.length := by simpa using congrArg List.length hls
  have hb0 : bytesBefore samples 0 = 0 := by simp [bytesBefore]
  refine ⟨blocks, resps, tail, hlen, hrlen, hlog, ?_⟩
  intro i hb hne
  have hs : i < samples.length := hlen ▸ hb
  have hr : i < resps.length := hrlen ▸ hs
  have hsw : ∃ last, IsSwitch keys trackId last (bytesBefore samples i) samples[i] blocks[i] := by
    cases i with
    | zero =>
      refine ⟨255, ?_⟩
      rw [hb0]
      exact SwitchBlocks.head hbs hs hb
    | succ i =>
      refine ⟨samples[i].descIndex, ?_⟩
      simpa using SwitchBlocks.next _ _ _ _ hbs i hs hb
  obtain ⟨last, hsw⟩ := hsw
  rcases hsw with ⟨_, hnil⟩ | ⟨_, key, _, hblock⟩
  · exact absurd hnil hne
  · refine ⟨if key = prefetchKey then defaultId else trackId, key,
      if bytesBefore samples i = 0 then [] else [flushMarker],
      sampleFrame samples[i].data resps[i]
        ++ framedLog (blocks.drop (i + 1)) (samples.drop (i + 1)) (resps.drop (i + 1)) ++ tail,
      hblock, fun hn => if_neg hn, fun hn => if_pos hn, ?_, ?_, ?_⟩
    · rw [hlog, framedLog_split blocks samples resps i hb hs hr, hblock]
      simp only [List.append_assoc]
    · intro hi
      subst hi
      simp [hb0, framedLog]
    · intro hi
      by_cases hn : bytesBefore samples i = 0
      · obtain ⟨j, rfl⟩ : ∃ j, i = j + 1 := ⟨i - 1, by omega⟩
        have hsj : j < samples.length := by omega
        have hdata : samples[j].data = [] := by
          have := bytesBefore_succ samples j samples[j] (List.get?_eq_get hsj)
          rw [hn] at this
          exact List.length_eq_zero.mp (by omega)
        refine ⟨wireBytes (framedLog (blocks.take j) (samples.take j) (resps.take j))
          ++ wireBytes blocks[j], ?_⟩
        rw [if_pos hn, List.append_nil,
          framedLog_take_succ blocks samples resps j (by omega) hsj (by omega), hdata]
        simp [wireBytes_append, sampleFrame, wireBytes, littleEndian32]
      · refine ⟨wireBytes (framedLog (blocks.take i) (samples.take i) (resps.take i)), ?_⟩
        rw [if_neg hn]
        simp [wireBytes_append, wireBytes, flushMarker]

/-- Witness for C10 on two samples under two keys, the first with no data: the
switch message before the second sample is sent with no flush write before it,
and the four bytes sent before it are the zero length header of the empty
first sample. -/
theorem decryptSong_flush_marker_witness :
    decryptSong emptyFirstSamples twoKeys [49, 50] (freshConn [1, 2]) = .ok emptyFirstExchange ∧
    emptyFirstExchange.conn.log
      = switchMessage defaultId prefetchKey
        ++ sampleFrame [] []
        ++ switchMessage [49, 50] [115, 107, 100, 58, 47, 47, 99, 50, 51]
        ++ sampleFrame [7, 8] [1, 2]
        ++ [.write [0, 0, 0, 0, 0]] ∧
    wireBytes (switchMessage defaultId prefetchKey ++ sampleFrame [] [])
      = [1, 48, 39] ++ prefetchKey ++ [0, 0, 0, 0] ∧
    ∃ (blocks : List (List Event)) (resps : List Bytes) (tail : List Event),
      blocks.length = emptyFirstSamples.length ∧ resps.length = emptyFirstSamples.length ∧
      emptyFirstExchange.conn.log
        = (freshConn [1, 2]).log ++ framedLog blocks emptyFirstSamples resps ++ tail ∧
      ∀ (i : Nat) (hb : i < blocks.length), blocks[i] ≠ [] →
        ∃ (id key : GoString) (flush later : List Event),
          blocks[i] = flush ++ switchMessage id key ∧
          (bytesBefore emptyFirstSamples i ≠ 0 → flush = [flushMarker]) ∧
          (bytesBefore emptyFirstSamples i = 0 → flush = []) ∧
          emptyFirstExchange.conn.log = (freshConn [1, 2]).log
            ++ (framedLog (blocks.take i) (emptyFirstSamples.take i) (resps.take i) ++ flush)
            ++ switchMessage id key ++ later ∧
          (i = 0 →
            framedLog (blocks.take i) (emptyFirstSamples.take i) (resps.take i) ++ flush = []) ∧
          (0 < i → ∃ front,
            wireBytes
                (framedLog (blocks.take i) (emptyFirstSamples.take i) (resps.take i) ++ flush)
              = front ++ [0, 0, 0, 0]) :=
  ⟨rfl, rfl, by decide, decryptSong_flush_marker emptyFirstSamples twoKeys [49, 50]
    (freshConn [1, 2]) emptyFirstExchange rfl⟩

theorem Conn.write_succeeds (c : Conn) (bs : Bytes) (h : 0 < c.writesLeft) :
    ∃ c1, c.write bs = .ok c1 ∧ c1.writesLeft + 1 = c.writesLeft ∧ c1.rx = c.rx := by
  unfold Conn.write
  cases hw : c.writesLeft with
  | zero => omega
  | succ n => exact ⟨_, rfl, rfl, rfl⟩

theorem switchContext_succeeds (keys : List GoString) (trackId : GoString) (st : DecryptState)
    (sp : SampleInfo) (hk : sp.descIndex < keys.length) (hw : 5 ≤ st.conn.writesLeft) :
    ∃ c, switchContext keys trackId st sp = .ok c ∧ st.conn.writesLeft ≤ c.writesLeft + 5 ∧
      c.rx = st.conn.rx := by
  unfold switchContext
  split
  · have h0 : ∃ c0, (if st.decrypted.length != 0 then st.conn.write [0, 0, 0, 0]
          else Except.ok st.conn) = Except.ok c0 ∧
        st.conn.writesLeft ≤ c0.writesLeft + 1 ∧ c0.rx = st.conn.rx := by
      split
      · obtain ⟨c0, e, w, r⟩ := Conn.write_succeeds st.conn [0, 0, 0, 0] (by omega)
        exact ⟨c0, e, by omega, r⟩
      · exact ⟨st.conn, rfl, by omega, rfl⟩
    obtain ⟨c0, e0, w0, r0⟩ := h0
    rw [e0]
    simp only [bind, Except.bind, List.get?_eq_get hk]
    obtain ⟨c1, e1, w1, r1⟩ := Conn.write_succeeds c0
      [(if (keys.get ⟨sp.descIndex, hk⟩ == prefetchKey) = true then defaultId
        else trackId).length % 256] (by omega)
    obtain ⟨c2, e2, w2, r2⟩ := Conn.write_succeeds c1
      (if (keys.get ⟨sp.descIndex, hk⟩ == prefetchKey) = true then defaultId else trackId)
      (by omega)
    obtain ⟨c3, e3, w3, r3⟩ := Conn.write_succeeds c2
      [(keys.get ⟨sp.descIndex, hk⟩).length % 256] (by omega)
    obtain ⟨c4, e4, w4, r4⟩ := Conn.write_succeeds c3 (keys.get ⟨sp.descIndex, hk⟩) (by omega)
    rw [e1]
    simp only [e2, e3, e4]
    exact ⟨c4, rfl, by omega, by rw [r4, r3, r2, r1, r0]⟩
  · exact ⟨st.conn, rfl, by omega, rfl⟩

theorem decryptStep_succeeds (keys : List GoString) (trackId : GoString) (st : DecryptState)
    (sp : SampleInfo) (hk : sp.descIndex < keys.length) (hw : 7 ≤ st.conn.writesLeft)
    (hr : sp.data.length ≤ st.conn.rx.length) :
    ∃ st1, decryptStep keys trackId st sp = .ok st1 ∧
      st.conn.writesLeft ≤ st1.conn.writesLeft + 7 ∧
      st1.conn.rx = st.conn.rx.drop sp.data.length := by
  obtain ⟨c0, e0, w0, r0⟩ := switchContext_succeeds keys trackId st sp hk (by omega)
  obtain ⟨c1, e1, w1, r1⟩ := Conn.write_succeeds c0
    (littleEndian32 (sp.data.length % 2 ^ 32)) (by omega)
  obtain ⟨c2, e2, w2, r2⟩ := Conn.write_succeeds c1 sp.data (by omega)
  have hr2 : sp.data.length ≤ c2.rx.length := by rw [r2, r1, r0]; exact hr
  unfold decryptStep
  rw [e0]
  simp only [bind, Except.bind, e1, e2, Conn.readFull, if_pos hr2]
  exact ⟨_, rfl, by simp only; omega, by simp only [r2, r1, r0]⟩

/-- The exchange completes whenever every descriptor index is within the key
list, the oracle delivers at least as many bytes as the samples hold, and the
connection carries 7 writes per sample and one more. -/
theorem decryptLoop_succeeds (keys : List GoString) (trackId : GoString) :
    ∀ (samples : List SampleInfo) (st : DecryptState),
      (∀ sp ∈ samples, sp.descIndex < keys.length) →
      7 * samples.length ≤ st.conn.writesLeft →
      bytesBefore samples samples.length ≤ st.conn.rx.length →
      ∃ st1, decryptLoop keys trackId samples st = .ok st1 ∧
        st.conn.writesLeft ≤ st1.conn.writesLeft + 7 * samples.length := by
  intro samples
  induction samples with
  | nil => intro st _ _ _; exact ⟨st, rfl, by simp⟩
  | cons sp rest ih =>
    intro st hk hw hr
    simp only [List.length_cons] at hw
    have hb : bytesBefore (sp :: rest) (rest.length + 1)
        = sp.data.length + bytesBefore rest rest.length := by
      simp [bytesBefore]
    simp only [List.length_cons, hb] at hr
    obtain ⟨st1, e1, w1, r1⟩ := decryptStep_succeeds keys trackId st sp
      (hk sp (by simp)) (by omega) (by omega)
    obtain ⟨st2, e2, w2⟩ := ih st1 (fun x hx => hk x (List.mem_cons_of_mem _ hx)) (by omega)
      (by rw [r1, List.length_drop]; omega)
    refine ⟨st2, ?_, ?_⟩
    · simp only [decryptLoop, e1, e2]
    · simp only [List.length_cons]
      omega

theorem decryptSong_succeeds (samples : List SampleInfo) (keys : List GoString)
    (trackId : GoString) (conn : Conn)
    (hk : ∀ sp ∈ samples, sp.descIndex < keys.length)
    (hw : 7 * samples.length ≤ conn.writesLeft)
    (hr : bytesBefore samples samples.length ≤ conn.rx.length) :
    ∃ out, decryptSong samples keys trackId conn = .ok out := by
  obtain ⟨st1, e1, _⟩ := decryptLoop_succeeds keys trackId samples
    { conn := conn, decrypted := [], lastIndex := 255 } hk hw hr
  unfold decryptSong
  rw [e1]
  simp only
  split
  · exact ⟨_, rfl⟩
  · exact ⟨_, rfl⟩

theorem littleEndianValue_littleEndian32 (v : Nat) (h : v < 2 ^ 32) :
    littleEndianValue (littleEndian32 v) = v := by
  simp only [littleEndianValue, littleEndian32, List.foldr_cons, List.foldr_nil]
  omega

/-- The bytes of `littleEndian32` are four bytes, each below 256, whose
little-endian value is the 32-bit value written. -/
theorem littleEndian32_bytes (v : Nat) (h : v < 2 ^ 32) :
    (littleEndian32 v).length = 4 ∧ (∀ b ∈ littleEndian32 v, b < 256) ∧
    littleEndianValue (littleEndian32 v) = v := by
  refine ⟨rfl, ?_, littleEndianValue_littleEndian32 v h⟩
  intro b hb
  simp only [littleEndian32, List.mem_cons, List.mem_singleton, List.not_mem_nil, or_false] at hb
  rcases hb with hb | hb | hb | hb <;> subst hb <;> omega

/-- C12: whenever `decryptSong` completes the oracle exchange, the buffer
`decrypted` is the concatenation, in sample order, of the responses read back
for the samples (the bytes the oracle delivered, in order), and its length is
the sum of the sizes of the original samples. -/
theorem decryptSong_decrypted_buffer (samples : List SampleInfo) (keys : List GoString)
    (trackId : GoString) (conn : Conn) (out : Exchange)
    (h : decryptSong samples keys trackId conn = .ok out) :
    ∃ (blocks : List (List Event)) (resps : List Bytes) (tail : List Event),
      resps.length = samples.length ∧
      out.conn.log = conn.log ++ framedLog blocks samples resps ++ tail ∧
      out.decrypted = resps.flatten ∧
      conn.rx = out.decrypted ++ out.conn.rx ∧
      out.decrypted.length = (samples.map (fun s => s.data.length)).sum := by
  obtain ⟨blocks, resps, tail, _, hls, hlog, _, hdec, hrx⟩ := decryptSong_ok h
  refine ⟨blocks, resps, tail, by simpa using congrArg List.length hls, hlog, hdec, ?_, ?_⟩
  · rw [hdec]
    exact hrx
  · rw [hdec, List.length_flatten, hls]

/-- Witness for C12 on the exchange of the three samples. -/
theorem decryptSong_decrypted_buffer_witness :
    decryptSong threeSamples twoKeys [49, 50] (freshConn [1, 2, 3, 4, 5]) = .ok threeExchange ∧
    ∃ (blocks : List (List Event)) (resps : List Bytes) (tail : List Event),
      resps.length = threeSamples.length ∧
      threeExchange.conn.log
        = (freshConn [1, 2, 3, 4, 5]).log ++ framedLog blocks threeSamples resps ++ tail ∧
      threeExchange.decrypted = resps.flatten ∧
      (freshConn [1, 2, 3, 4, 5]).rx = threeExchange.decrypted ++ threeExchange.conn.rx ∧
      threeExchange.decrypted.length = (threeSamples.map (fun s => s.data.length)).sum :=
  ⟨rfl, decryptSong_decrypted_buffer threeSamples twoKeys [49, 50]
    (freshConn [1, 2, 3, 4, 5]) threeExchange rfl⟩

/-- C14 (evaluation at failing inputs): with no error from the box library,
`extractSong` returns the pair (nil, nil), a nil error, for a container with
one fragment and two payload blocks, without any fragment, with two trex
records, without a sample-table box, without a codec box, with a fragment
without header record, and with a fragment without run record; for a sample
table without an `enca` box it ends in an index-out-of-range panic. -/
theorem extractSong_invalid_structure_nil_error :
    extractSong twoMdatContainer = .returned none none ∧
    extractSong noFragmentContainer = .returned none none ∧
    extractSong twoTrexContainer = .returned none none ∧
    extractSong noStblContainer = .returned none none ∧
    extractSong noAlacContainer = .returned none none ∧
    extractSong noTfhdContainer = .returned none none ∧
    extractSong noTrunContainer = .returned none none ∧
    extractSong noEncaContainer = .panicked := by
  refine ⟨?_, ?_, ?_, ?_, ?_, ?_, ?_, ?_⟩ <;> decide

/-- C18: whenever `extractSong` succeeds, every sample produced from a
fragment carries the same descriptor index: the fragment header's
SampleDescriptionIndex minus one when that value is nonzero, and 0 (the raw
value unchanged) when it is zero. -/
theorem extractSong_fragment_descriptor_index (c : Container) (info : SongInfo)
    (h : extractSong c = .returned (some info) none) :
    ∃ parts : List (List SampleInfo),
      info.samples = parts.flatten ∧ parts.length = c.moofs.boxes.length ∧
      ∀ (i : Nat) (hf : i < c.moofs.boxes.length) (hp : i < parts.length),
        ∃ tfhdPay : Tfhd, c.moofs.boxes[i].tfhd.boxes = [tfhdPay] ∧
          parts[i].length = (runEntries c.moofs.boxes[i].truns.boxes).length ∧
          ∀ s ∈ parts[i],
            (tfhdPay.sampleDescriptionIndex ≠ 0 →
              s.descIndex = tfhdPay.sampleDescriptionIndex - 1) ∧
            (tfhdPay.sampleDescriptionIndex = 0 → s.descIndex = 0) := by
  obtain ⟨trexPay, parts, _, hs, hl, hml, hall⟩ := extractSong_success h
  refine ⟨parts, hs, hl, ?_⟩
  intro i hf hp
  obtain ⟨tfhdPay, htf, hsz, _, _, hidx⟩ := hall i hf (by omega) hp
  refine ⟨tfhdPay, htf, by simpa using congrArg List.length hsz, ?_⟩
  intro s hs
  have := hidx s hs
  unfold fragmentIndex at this
  constructor
  · intro hne
    rw [this]
    simp [hne]
  · intro h0
    rw [this]
    simp [h0]

/-- Witness for C18 on the container whose fragment header has
SampleDescriptionIndex 1. -/
theorem extractSong_fragment_descriptor_index_witness :
    extractSong exactContainer = .returned (some exactSong) none ∧
    ∃ parts : List (List SampleInfo),
      exactSong.samples = parts.flatten ∧ parts.length = exactContainer.moofs.boxes.length ∧
      ∀ (i : Nat) (hf : i < exactContainer.moofs.boxes.length) (hp : i < parts.length),
        ∃ tfhdPay : Tfhd, exactContainer.moofs.boxes[i].tfhd.boxes = [tfhdPay] ∧
          parts[i].length = (runEntries exactContainer.moofs.boxes[i].truns.boxes).length ∧
          ∀ s ∈ parts[i],
            (tfhdPay.sampleDescriptionIndex ≠ 0 →
              s.descIndex = tfhdPay.sampleDescriptionIndex - 1) ∧
            (tfhdPay.sampleDescriptionIndex = 0 → s.descIndex = 0) :=
  ⟨by decide, extractSong_fragment_descriptor_index exactContainer exactSong (by decide)⟩

theorem Split_closed_form (size N : Int) (hs : 0 ≤ size) (hN : 1 ≤ N) :
    HttpDownloader.Split { contentLength := size, numThreads := N }
      = some ((List.range N.toNat).map (fun (i : Nat) =>
          ((i : Int) * (size / N),
            if (i : Int) = N - 1 then size - 1 else ((i : Int) + 1) * (size / N) - 1))) := by
  have h0 : N ≠ 0 := by omega
  simp only [HttpDownloader.Split, h0, if_false, Int.tdiv_eq_ediv hs (by omega : (0 : Int) ≤ N)]

theorem Split_disjoint (size N : Int) (i j : Nat) (p : Int) (hbs : 0 ≤ size / N)
    (hij : i < j) (hj : (j : Int) ≤ N - 1)
    (hi : p ≤ (if (i : Int) = N - 1 then size - 1 else ((i : Int) + 1) * (size / N) - 1))
    (hjp : (j : Int) * (size / N) ≤ p) : False := by
  have hne : ¬ ((i : Int) = N - 1) := by omega
  rw [if_neg hne] at hi
  have hle : ((i : Int) + 1) * (size / N) ≤ (j : Int) * (size / N) :=
    mul_le_mul_of_nonneg_right (by omega) hbs
  omega

/-- C17: for every content length `size >= 0` and thread count `N >= 1`,
`Split` returns exactly `N` inclusive ranges: the first starts at 0, each next
range starts at the previous end + 1, the last ends at `size - 1`, every range
but the last has length `size / N`, the last has length
`size / N + size mod N`, and every byte position of `[0, size)` lies in
exactly one range. -/
theorem Split_ranges (size N : Int) (hs : 0 ≤ size) (hN : 1 ≤ N) :
    ∃ ranges : List (Int × Int),
      HttpDownloader.Split { contentLength := size, numThreads := N } = some ranges ∧
      (ranges.length : Int) = N ∧
      (∀ (h0 : 0 < ranges.length), ranges[0].1 = 0) ∧
      (∀ (i : Nat) (h : i + 1 < ranges.length), ranges[i + 1].1 = ranges[i].2 + 1) ∧
      (∀ (h : ranges.length - 1 < ranges.length), ranges[ranges.length - 1].2 = size - 1) ∧
      (∀ (i : Nat) (h : i + 1 < ranges.length), ranges[i].2 - ranges[i].1 + 1 = size / N) ∧
      (∀ (h : ranges.length - 1 < ranges.length),
        ranges[ranges.length - 1].2 - ranges[ranges.length - 1].1 + 1 = size / N + size % N) ∧
      (∀ p : Int, 0 ≤ p → p < size →
        ∃! i : Nat, ∃ h : i < ranges.length, ranges[i].1 ≤ p ∧ p ≤ ranges[i].2) := by
  have hn : ((N.toNat : Nat) : Int) = N := Int.toNat_of_nonneg (by omega)
  have hbs : 0 ≤ size / N := Int.ediv_nonneg hs (by omega)
  have hdiv : N * (size / N) + size % N = size := Int.ediv_add_emod size N
  have hmod : 0 ≤ size % N := Int.emod_nonneg size (by omega)
  refine ⟨_, Split_closed_form size N hs hN, ?_, ?_, ?_, ?_, ?_, ?_, ?_⟩
  · simp [hn]
  · intro h0
    simp
  · intro i h
    simp only [List.length_map, List.length_range] at h
    have hne : ¬ ((i : Int) = N - 1) := by omega
    simp only [List.getElem_map, List.getElem_range, hne, if_false]
    push_cast
    ring
  · intro h
    simp only [List.length_map, List.length_range] at h ⊢
    have he : ((N.toNat - 1 : Nat) : Int) = N - 1 := by omega
    simp only [List.getElem_map, List.getElem_range, he, if_true]
  · intro i h
    simp only [List.length_map, List.length_range] at h
    have hne : ¬ ((i : Int) = N - 1) := by omega
    simp only [List.getElem_map, List.getElem_range, hne, if_false]
    ring
  · intro h
    simp only [List.length_map, List.length_range] at h ⊢
    have he : ((N.toNat - 1 : Nat) : Int) = N - 1 := by omega
    simp only [List.getElem_map, List.getElem_range, he, if_true]
    have : (N - 1) * (size / N) = N * (size / N) - size / N := by ring
    rw [this]
    omega
  · intro p hp0 hps
    simp only [List.length_map, List.length_range, List.getElem_map, List.getElem_range]
    have hex : ∃ i : Nat, ∃ h : i < N.toNat, (i : Int) * (size / N) ≤ p ∧
        p ≤ (if (i : Int) = N - 1 then size - 1 else ((i : Int) + 1) * (size / N) - 1) := by
      by_cases hq : p / (size / N) < N - 1 ∧ 0 < size / N
      · obtain ⟨hq1, hpos⟩ := hq
        have hq0 : 0 ≤ p / (size / N) := Int.ediv_nonneg hp0 hbs
        have hqn : ((p / (size / N)).toNat : Int) = p / (size / N) := Int.toNat_of_nonneg hq0
        refine ⟨(p / (size / N)).toNat, by omega, ?_, ?_⟩
        · rw [hqn]
          exact Int.ediv_mul_le p (by omega)
        · rw [hqn, if_neg (by omega)]
          have := Int.lt_ediv_add_one_mul_self p hpos
          omega
      · refine ⟨N.toNat - 1, by omega, ?_, ?_⟩
        · have he : ((N.toNat - 1 : Nat) : Int) = N - 1 := by omega
          rw [he]
          rcases lt_or_ge 0 (size / N) with hpos | hz
          · have hq1 : N - 1 ≤ p / (size / N) := by
              by_contra hc
              exact hq ⟨by omega, hpos⟩
            have h1 : (N - 1) * (size / N) ≤ p / (size / N) * (size / N) :=
              mul_le_mul_of_nonneg_right hq1 hbs
            have h2 := Int.ediv_mul_le p (by omega : size / N ≠ 0)
            omega
          · have hz0 : size / N = 0 := by omega
            rw [hz0]
            simpa using hp0
        · have he : ((N.toNat - 1 : Nat) : Int) = N - 1 := by omega
          rw [he, if_pos rfl]
          omega
    obtain ⟨i, hi, hlo, hhi⟩ := hex
    refine ⟨i, ⟨hi, hlo, hhi⟩, ?_⟩
    rintro j ⟨hj, hjlo, hjhi⟩
    rcases Nat.lt_trichotomy i j with hlt | heq | hgt
    · exact (Split_disjoint size N i j p hbs hlt (by omega) hhi hjlo).elim
    · exact heq.symm
    · exact (Split_disjoint size N j i p hbs hgt (by omega) hjhi hlo).elim

/-- Witness for C17: 103 bytes over 10 threads. -/
theorem Split_ranges_witness :
    HttpDownloader.Split { contentLength := 103, numThreads := 10 }
      = some [(0, 9), (10, 19), (20, 29), (30, 39), (40, 49), (50, 59), (60, 69), (70, 79),
              (80, 89), (90, 102)] ∧
    ∃ ranges : List (Int × Int),
      HttpDownloader.Split { contentLength := 103, numThreads := 10 } = some ranges ∧
      (ranges.length : Int) = 10 ∧
      (∀ (h0 : 0 < ranges.length), ranges[0].1 = 0) ∧
      (∀ (i : Nat) (h : i + 1 < ranges.length), ranges[i + 1].1 = ranges[i].2 + 1) ∧
      (∀ (h : ranges.length - 1 < ranges.length), ranges[ranges.length - 1].2 = 103 - 1) ∧
      (∀ (i : Nat) (h : i + 1 < ranges.length), ranges[i].2 - ranges[i].1 + 1 = 103 / 10) ∧
      (∀ (h : ranges.length - 1 < ranges.length),
        ranges[ranges.length - 1].2 - ranges[ranges.length - 1].1 + 1 = 103 / 10 + 103 % 10) ∧
      (∀ p : Int, 0 ≤ p → p < 103 →
        ∃! i : Nat, ∃ h : i < ranges.length, ranges[i].1 ≤ p ∧ p ≤ ranges[i].2) :=
  ⟨by decide, Split_ranges 103 10 (by decide) (by decide)⟩

theorem durationLoop_eq (samples : List SampleInfo) :
    ∀ ret : Nat, samples.foldl (fun ret sample => (ret + sample.duration) % 2 ^ 64) (ret % 2 ^ 64)
      = (ret + (samples.map (fun s => s.duration)).sum) % 2 ^ 64 := by
  induction samples with
  | nil => intro ret; simp
  | cons s rest ih =>
    intro ret
    simp only [List.foldl_cons, List.map_cons, List.sum_cons, Nat.mod_add_mod]
    rw [ih (ret + s.duration), Nat.add_assoc]

/-- The method `Duration` returns the sum of the sample durations in 64
bits. -/
theorem Duration_eq_sum (info : SongInfo) :
    info.Duration = (info.samples.map (fun s => s.duration)).sum % 2 ^ 64 := by
  have := durationLoop_eq info.samples 0
  simpa [SongInfo.Duration] using this

/-- C19 (amended): the movie, track and media header written by `writeM4a`
are the source boxes except for the duration of each of the three, set to
`info.Duration()` (the sum of all sample durations modulo 2^64), reduced
modulo 2^32 in the 32-bit field when the box's version is 0 and in the 64-bit
field otherwise, and for the flags of the track header, set to 0x7; the
version, the other duration field and every other field of the three boxes,
and the flags of the movie and the media header, are unchanged. -/
theorem writeHeaders_frame (info : SongInfo) (src : MovieHeaders) :
    info.Duration = (info.samples.map (fun s => s.duration)).sum % 2 ^ 64 ∧
    PatchedHeader info.Duration src.mvhd (writeHeaders info src).mvhd src.mvhd.flags ∧
    PatchedHeader info.Duration src.tkhd (writeHeaders info src).tkhd 0x7 ∧
    PatchedHeader info.Duration src.mdhd (writeHeaders info src).mdhd src.mdhd.flags := by
  refine ⟨Duration_eq_sum info, ?_, ?_, ?_⟩
  · by_cases hv : src.mvhd.version = 0 <;> simp [PatchedHeader, writeHeaders, writeMvhd, hv]
  · by_cases hv : src.tkhd.version = 0 <;> simp [PatchedHeader, writeHeaders, writeTkhd, hv]
  · by_cases hv : src.mdhd.version = 0 <;> simp [PatchedHeader, writeHeaders, writeMdhd, hv]

/-- Witness for C19 (amended): one sample of duration 1024 over version-0
source headers. -/
theorem writeHeaders_frame_witness :
    writeHeaders { alacParam := sampleAlac, samples := [sampleOfDuration 1024] } sourceHeaders
      = { mvhd := { version := 0, flags := 0, durationV0 := 1024, durationV1 := 0,
                    others := [44100] }
          tkhd := { version := 0, flags := 7, durationV0 := 1024, durationV1 := 0,
                    others := [1] }
          mdhd := { version := 0, flags := 0, durationV0 := 1024, durationV1 := 0,
                    others := [44100] } } ∧
    PatchedHeader 1024 sourceHeaders.mdhd
      (writeHeaders { alacParam := sampleAlac, samples := [sampleOfDuration 1024] }
        sourceHeaders).mdhd sourceHeaders.mdhd.flags :=
  ⟨by decide, (writeHeaders_frame { alacParam := sampleAlac, samples := [sampleOfDuration 1024] }
    sourceHeaders).2.2.2⟩

/-- C19 fails as stated: for one sample of duration 1024 and source headers
of version 0 with duration 0, the media header of the output has duration
1024, so it is not the source media header, and the flags of the track header
change from 1 to 7. -/
theorem writeHeaders_changes_mdhd_and_flags :
    (writeHeaders { alacParam := sampleAlac, samples := [sampleOfDuration 1024] }
      sourceHeaders).mdhd
      = { version := 0, flags := 0, durationV0 := 1024, durationV1 := 0, others := [44100] } ∧
    (writeHeaders { alacParam := sampleAlac, samples := [sampleOfDuration 1024] }
      sourceHeaders).mdhd ≠ sourceHeaders.mdhd ∧
    sourceHeaders.tkhd.flags = 1 ∧
    (writeHeaders { alacParam := sampleAlac, samples := [sampleOfDuration 1024] }
      sourceHeaders).tkhd.flags = 7 := by
  refine ⟨?_, ?_, ?_, ?_⟩ <;> decide

theorem sortByBandwidth_contract : SortSliceContract sortByBandwidth := by
  intro vs
  haveI : IsTotal Variant (fun a b => a.averageBandwidth ≥ b.averageBandwidth) :=
    ⟨fun a b => Nat.le_total b.averageBandwidth a.averageBandwidth⟩
  haveI : IsTrans Variant (fun a b => a.averageBandwidth ≥ b.averageBandwidth) :=
    ⟨fun a b c hab hbc => Nat.le_trans hbc hab⟩
  refine ⟨List.perm_insertionSort _ vs, ?_⟩
  have hs := List.sorted_insertionSort
    (fun a b : Variant => a.averageBandwidth ≥ b.averageBandwidth) vs
  have hp : List.Pairwise (fun a b : Variant => a.averageBandwidth ≥ b.averageBandwidth)
      (sortByBandwidth vs) := hs
  exact hp.imp (fun h => Nat.not_lt.mpr h)

/-- The loop over the variants finds nothing exactly when no variant has the
codec tag "alac". -/
theorem selectLoop_none (resolve : GoString → Option Url) :
    ∀ (sorted : List Variant) (err : Option String),
      selectLoop resolve sorted = .returned none err ↔
        (err = none ∧ ∀ v ∈ sorted, v.codecs ≠ alacTag) := by
  intro sorted
  induction sorted with
  | nil =>
    intro err
    simp only [selectLoop, Outcome.returned.injEq, true_and, List.not_mem_nil, false_implies,
      implies_true, and_true]
    exact eq_comm
  | cons v rest ih =>
    intro err
    simp only [selectLoop]
    by_cases hc : v.codecs = alacTag
    · simp only [hc, beq_self_eq_true, if_true]
      constructor
      · intro h
        split at h
        · simp at h
        · split at h <;> simp at h
      · intro h
        exact absurd hc (h.2 v (by simp))
    · have hb : (v.codecs == alacTag) = false := by simpa using hc
      simp only [hb, Bool.false_eq_true, if_false, ih err, List.mem_cons, forall_eq_or_imp]
      constructor
      · intro h
        exact ⟨h.1, hc, h.2⟩
      · intro h
        exact ⟨h.1, h.2.2⟩

/-- When some variant has the codec tag "alac", the loop stops at the first
such variant of the list. -/
theorem selectLoop_first (resolve : GoString → Option Url) :
    ∀ (sorted : List Variant), (∃ v ∈ sorted, v.codecs = alacTag) →
      ∃ (front : List Variant) (v : Variant) (back : List Variant),
        sorted = front ++ v :: back ∧ (∀ w ∈ front, w.codecs ≠ alacTag) ∧ v.codecs = alacTag ∧
        selectLoop resolve sorted
          = (if (List.splitOn 45 v.audio).length < 2 then .panicked
             else match resolve v.uri with
               | none => .panicked
               | some streamUrlTemp => .returned (some streamUrlTemp) none) := by
  intro sorted
  induction sorted with
  | nil => rintro ⟨v, hv, _⟩; simp at hv
  | cons a rest ih =>
    intro hex
    by_cases hc : a.codecs = alacTag
    · refine ⟨[], a, rest, rfl, by simp, hc, ?_⟩
      simp only [selectLoop, hc, beq_self_eq_true, if_true]
    · have hrest : ∃ v ∈ rest, v.codecs = alacTag := by
        obtain ⟨v, hv, hva⟩ := hex
        rcases List.mem_cons.mp hv with rfl | hv
        · exact absurd hva hc
        · exact ⟨v, hv, hva⟩
      obtain ⟨front, v, back, hs, hf, hv, hsel⟩ := ih hrest
      refine ⟨a :: front, v, back, by simp [hs], ?_, hv, ?_⟩
      · intro w hw
        rcases List.mem_cons.mp hw with rfl | hw
        · exact hc
        · exact hf w hw
      · have hb : (a.codecs == alacTag) = false := by simpa using hc
        simp only [selectLoop, hb, Bool.false_eq_true, if_false]
        exact hsel

theorem extractMedia_of_decoded (env : MediaEnv) (variants : List Variant)
    (hurl : env.urlErr = none) (hget : env.getErr = none) (hstatus : env.statusCode = 200)
    (hread : env.readErr = none) (hdec : env.decoded = some variants) :
    extractMedia env
      = match selectLoop env.resolve (env.sortSlice variants) with
        | .panicked => .panicked
        | .returned none _ => .returned none (some "no alac codec found")
        | .returned (some streamUrl) _ =>
          .returned (some
            ({ streamUrl with
               path := trimSuffix streamUrl.path (".m3u8".toList.map Char.toNat)
                 ++ "_m.mp4".toList.map Char.toNat },
             [prefetchKey] ++ (keyMatches env.masterString).filter (fun m =>
               hasSuffix m ("c23".toList.map Char.toNat)
                 || hasSuffix m ("c6".toList.map Char.toNat)))) none := by
  simp only [extractMedia, hurl, hget, hstatus, hread, hdec, Option.isSome_none,
    Bool.false_eq_true, if_false, bne_self_eq_false]

/-- The call `strings.HasSuffix` holds exactly when the string ends with the
suffix. -/
theorem hasSuffix_iff (s suffix : GoString) :
    hasSuffix s suffix = true ↔ ∃ front, s = front ++ suffix := by
  unfold hasSuffix
  rw [List.isSuffixOf_iff_suffix]
  constructor
  · rintro ⟨front, h⟩
    exact ⟨front, h.symm⟩
  · rintro ⟨front, h⟩
    exact ⟨front, h.symm⟩

/-- The call `strings.TrimSuffix` removes the suffix from a string that ends
with it and leaves any other string unchanged. -/
theorem trimSuffix_spec (s suffix : GoString) :
    (∀ front, s = front ++ suffix → trimSuffix s suffix = front) ∧
    ((¬ ∃ front, s = front ++ suffix) → trimSuffix s suffix = s) := by
  constructor
  · intro front h
    have hs : hasSuffix s suffix = true := (hasSuffix_iff s suffix).mpr ⟨front, h⟩
    simp only [trimSuffix, hs, if_true]
    subst h
    simp
  · intro h
    have hs : ¬ hasSuffix s suffix = true := fun hh => h ((hasSuffix_iff s suffix).mp hh)
    simp only [trimSuffix, hs, if_false]
    simp

/-- C15 (amended): for every master playlist, `extractMedia` fails with the
no-alac-codec error if and only if no variant has the codec tag "alac";
otherwise the variant it stops at is the first "alac" variant after sorting by
descending average bandwidth, so its average bandwidth is greater than or
equal to that of every other "alac" variant, and, provided its audio group id
has at least two parts separated by "-", that variant is selected (its
resolved URL is returned, a path ending in ".m3u8" having it replaced by
"_m.mp4" and any other path having "_m.mp4" appended) when its URI resolves
against the manifest URL, and `extractMedia` panics when it does not; for
variants (alac, 1000), (alac, 3000), (aac, 5000) the variant is the one with
average bandwidth 3000. -/
theorem extractMedia_variant_selection (env : MediaEnv) (variants : List Variant)
    (hurl : env.urlErr = none) (hget : env.getErr = none) (hstatus : env.statusCode = 200)
    (hread : env.readErr = none) (hdec : env.decoded = some variants)
    (hsort : SortSliceContract env.sortSlice) :
    (extractMedia env = .returned none (some "no alac codec found") ↔
      ∀ v ∈ variants, v.codecs ≠ alacTag) ∧
    ((∃ v ∈ variants, v.codecs = alacTag) →
      ∃ v ∈ variants, v.codecs = alacTag ∧
        (∀ w ∈ variants, w.codecs = alacTag → w.averageBandwidth ≤ v.averageBandwidth) ∧
        (∃ front back, env.sortSlice variants = front ++ v :: back ∧
          ∀ w ∈ front, w.codecs ≠ alacTag) ∧
        (2 ≤ (List.splitOn 45 v.audio).length →
          (env.resolve v.uri = none → extractMedia env = .panicked) ∧
          (∀ u, env.resolve v.uri = some u →
            ∃ keys path, extractMedia env = .returned (some ({ u with path := path }, keys)) none ∧
              (∀ front, u.path = front ++ ".m3u8".toList.map Char.toNat →
                path = front ++ "_m.mp4".toList.map Char.toNat) ∧
              ((¬ ∃ front, u.path = front ++ ".m3u8".toList.map Char.toNat) →
                path = u.path ++ "_m.mp4".toList.map Char.toNat))) ∧
        (variants.map (fun x => (x.codecs, x.averageBandwidth))
            = [(alacTag, 1000), (alacTag, 3000), ("aac".toList.map Char.toNat, 5000)] →
          v.averageBandwidth = 3000)) := by
  obtain ⟨hperm, hpair⟩ := hsort variants
  have hunf := extractMedia_of_decoded env variants hurl hget hstatus hread hdec
  constructor
  · constructor
    · intro h
      rw [hunf] at h
      split at h
      · simp at h
      · rename_i err hsel
        have := (selectLoop_none env.resolve _ err).mp hsel
        intro v hv
        exact this.2 v (hperm.mem_iff.mpr hv)
      · simp at h
    · intro h
      have hnone : selectLoop env.resolve (env.sortSlice variants) = .returned none none :=
        (selectLoop_none env.resolve _ none).mpr
          ⟨rfl, fun v hv => h v (hperm.mem_iff.mp hv)⟩
      rw [hunf, hnone]
  · rintro ⟨a, ha, haa⟩
    obtain ⟨front, v, back, hs, hf, hv, hsel⟩ :=
      selectLoop_first env.resolve (env.sortSlice variants) ⟨a, hperm.mem_iff.mpr ha, haa⟩
    have hvmem : v ∈ variants := hperm.mem_iff.mp (by rw [hs]; simp)
    have hmax : ∀ w ∈ variants, w.codecs = alacTag →
        w.averageBandwidth ≤ v.averageBandwidth := by
      intro w hw hwa
      have hw2 : w ∈ front ++ v :: back := by rw [← hs]; exact hperm.mem_iff.mpr hw
      rw [hs, List.pairwise_append, List.pairwise_cons] at hpair
      rcases List.mem_append.mp hw2 with hwf | hwb
      · exact absurd hwa (hf w hwf)
      · rcases List.mem_cons.mp hwb with rfl | hwb
        · exact Nat.le_refl _
        · exact Nat.not_lt.mp (hpair.2.1.1 w hwb)
    refine ⟨v, hvmem, hv, hmax, ⟨front, back, hs, hf⟩, ?_, ?_⟩
    · intro hlen
      have hlt : ¬ ((List.splitOn 45 v.audio).length < 2) := by omega
      rw [if_neg hlt] at hsel
      constructor
      · intro hr
        rw [hr] at hsel
        rw [hunf, hsel]
      · intro u hr
        rw [hr] at hsel
        have hts := trimSuffix_spec u.path (".m3u8".toList.map Char.toNat)
        refine ⟨_, trimSuffix u.path (".m3u8".toList.map Char.toNat)
          ++ "_m.mp4".toList.map Char.toNat, by rw [hunf, hsel], ?_, ?_⟩
        · intro front hfront
          rw [hts.1 front hfront]
        · intro hno
          rw [hts.2 hno]
    · intro hshape
      rcases variants with _ | ⟨x, _ | ⟨y, _ | ⟨z, _ | ⟨t, r⟩⟩⟩⟩ <;>
        simp only [List.map_cons, List.map_nil, List.cons.injEq, Prod.mk.injEq, and_true,
          and_false, reduceCtorEq] at hshape
      obtain ⟨⟨hx1, hx2⟩, ⟨hy1, hy2⟩, hz1, hz2⟩ := hshape
      have hymax := hmax y (by simp) hy1
      simp only [List.mem_cons, List.mem_singleton, List.not_mem_nil, or_false] at hvmem
      rcases hvmem with rfl | rfl | rfl
      · omega
      · exact hy2
      · rw [hz1] at hv
        exact absurd hv (by decide)

/-- C15 fails as stated: of two alac variants, "a.m3u8" with bandwidth 3000 and
average bandwidth 1000 and "b.m3u8" with bandwidth 1000 and average bandwidth
2000, `extractMedia` selects "b.m3u8", whose bandwidth is below that of the
other alac variant, because the variants are sorted by average bandwidth; and
for the variants of the example, when the URI of the alac variant of average
bandwidth 3000 does not resolve against the manifest URL, `extractMedia`
selects nothing and returns no error: it panics. -/
theorem extractMedia_sorts_by_average_bandwidth :
    crossedVariants.map (fun v => (v.uri, v.codecs, v.bandwidth, v.averageBandwidth))
      = [("a.m3u8".toList.map Char.toNat, alacTag, 3000, 1000),
         ("b.m3u8".toList.map Char.toNat, alacTag, 1000, 2000)] ∧
    extractMedia (mediaEnvOf exampleManifest crossedVariants)
      = .returned (some
          ({ path := "/hls/b_m.mp4".toList.map Char.toNat, others := [] },
           [prefetchKey, "skd://k1c23".toList.map Char.toNat,
            "skd://k2c6".toList.map Char.toNat])) none ∧
    extractMedia (mediaEnvUnresolved exampleManifest exampleVariants) = .panicked := by
  refine ⟨by decide, by decide, by decide⟩

/-- For a master playlist whose only variant has the codec tag "alac" and no
audio group id, `extractMedia` selects nothing and returns no error: indexing
`split[length-2]` is out of range, a panic. -/
theorem extractMedia_panics_without_audio_id :
    extractMedia (mediaEnvOf exampleManifest noAudioVariants) = .panicked ∧
    ∃ v ∈ noAudioVariants, v.codecs = alacTag := by
  refine ⟨by decide, _, List.mem_singleton.mpr rfl, by decide⟩

/-- Witness for C15 (amended) on the variants of the example, which have the
audio group id "audio-alac-stereo-44100-16": the URL of the alac variant with
average bandwidth 3000, "b.m3u8", is returned as "/hls/b_m.mp4". -/
theorem extractMedia_variant_selection_witness :
    SortSliceContract (mediaEnvOf exampleManifest exampleVariants).sortSlice ∧
    (extractMedia (mediaEnvOf exampleManifest exampleVariants)
        = .returned none (some "no alac codec found") ↔
      ∀ v ∈ exampleVariants, v.codecs ≠ alacTag) ∧
    extractMedia (mediaEnvOf exampleManifest exampleVariants)
      = .returned (some
          ({ path := "/hls/b_m.mp4".toList.map Char.toNat, others := [] },
           [prefetchKey, "skd://k1c23".toList.map Char.toNat,
            "skd://k2c6".toList.map Char.toNat])) none :=
  ⟨sortByBandwidth_contract,
   (extractMedia_variant_selection (mediaEnvOf exampleManifest exampleVariants) exampleVariants
      rfl rfl rfl rfl rfl sortByBandwidth_contract).1,
   by decide⟩

theorem takeWhile_ne_quote (rest : GoString) (h : rest.contains 34 = true) :
    ∃ back, rest = rest.takeWhile (· != 34) ++ 34 :: back ∧
      34 ∉ rest.takeWhile (· != 34) := by
  induction rest with
  | nil => simp at h
  | cons c cs ih =>
    by_cases hc : c = 34
    · subst hc
      exact ⟨cs, by simp [List.takeWhile], by simp [List.takeWhile]⟩
    · have hcs : cs.contains 34 = true := by
        simp only [List.contains_cons, Bool.or_eq_true, beq_iff_eq] at h
        rcases h with h | h
        · exact absurd h.symm hc
        · exact h
      obtain ⟨back, hb, hn⟩ := ih hcs
      have hne : (c != 34) = true := by simpa using hc
      refine ⟨back, ?_, ?_⟩
      · simp only [List.takeWhile_cons, hne, if_true, List.cons_append]
        rw [← hb]
      · simp only [List.takeWhile_cons, hne, if_true, List.mem_cons, not_or]
        exact ⟨fun h => hc h.symm, hn⟩

/-- A match at the head of the text is a quoted `skd://` or `sk://` identifier
without a quote inside, and the text starts with it in quotes. -/
theorem keyMatchAt_some {text key : GoString} (h : keyMatchAt text = some key) :
    ([115, 107, 100, 58, 47, 47] <+: key ∨ [115, 107, 58, 47, 47] <+: key) ∧
    34 ∉ key ∧ ([34] ++ key ++ [34]) <+: text := by
  unfold keyMatchAt at h
  split at h
  · rename_i rest
    split at h
    · rename_i hq
      simp only [Option.some.injEq] at h
      subst h
      obtain ⟨back, hb, hn⟩ := takeWhile_ne_quote rest hq
      refine ⟨Or.inl ⟨_, rfl⟩, ?_, back, ?_⟩
      · simp only [List.mem_append, not_or]
        exact ⟨by decide, hn⟩
      · simp only [List.cons_append, List.nil_append, List.append_assoc, List.cons.injEq,
          true_and]
        exact hb.symm
    · simp at h
  · rename_i rest
    split at h
    · rename_i hq
      simp only [Option.some.injEq] at h
      subst h
      obtain ⟨back, hb, hn⟩ := takeWhile_ne_quote rest hq
      refine ⟨Or.inr ⟨_, rfl⟩, ?_, back, ?_⟩
      · simp only [List.mem_append, not_or]
        exact ⟨by decide, hn⟩
      · simp only [List.cons_append, List.nil_append, List.append_assoc, List.cons.injEq,
          true_and]
        exact hb.symm
    · simp at h
  · simp at h

/-- Every match found in the text is a quoted `skd://` or `sk://` identifier
that occurs in the text. -/
theorem keyMatchesFrom_mem :
    ∀ (text : GoString) (skip : Nat) (key : GoString), key ∈ keyMatchesFrom skip text →
      ([115, 107, 100, 58, 47, 47] <+: key ∨ [115, 107, 58, 47, 47] <+: key) ∧
      34 ∉ key ∧ ([34] ++ key ++ [34]) <:+: text := by
  intro text
  induction text with
  | nil => intro skip key h; cases skip <;> simp [keyMatchesFrom] at h
  | cons c rest ih =>
    intro skip key h
    have hstep : ∀ k, ([34] ++ k ++ [34]) <:+: rest → ([34] ++ k ++ [34]) <:+: c :: rest :=
      fun k hk => hk.trans (List.suffix_cons c rest).isInfix
    cases skip with
    | succ skip =>
      simp only [keyMatchesFrom] at h
      obtain ⟨a, b, d⟩ := ih skip key h
      exact ⟨a, b, hstep key d⟩
    | zero =>
      simp only [keyMatchesFrom] at h
      split at h
      · rename_i k hk
        rcases List.mem_cons.mp h with rfl | h
        · obtain ⟨a, b, d⟩ := keyMatchAt_some hk
          exact ⟨a, b, d.isInfix⟩
        · obtain ⟨a, b, d⟩ := ih _ key h
          exact ⟨a, b, hstep key d⟩
      · obtain ⟨a, b, d⟩ := ih _ key h
        exact ⟨a, b, hstep key d⟩

theorem samplesOk_loop (keys : List GoString) :
    ∀ (samples : List SampleInfo) (ok : Bool),
      samples.foldl (fun ok i => if keys.length ≤ i.descIndex then false else ok) ok = true ↔
        (ok = true ∧ ∀ s ∈ samples, s.descIndex < keys.length) := by
  intro samples
  induction samples with
  | nil => intro ok; simp
  | cons s rest ih =>
    intro ok
    rw [List.foldl_cons, ih]
    by_cases hs : keys.length ≤ s.descIndex
    · simp only [hs, if_true, Bool.false_eq_true, false_and, List.mem_cons, forall_eq_or_imp,
        false_iff, not_and]
      intro _ h
      omega
    · simp only [hs, if_false, List.mem_cons, forall_eq_or_imp]
      constructor
      · intro h
        exact ⟨h.1, by omega, h.2⟩
      · intro h
        exact ⟨h.1, h.2.2⟩

theorem samplesOk_iff (samples : List SampleInfo) (keys : List GoString) :
    samplesOk samples keys = true ↔ ∀ s ∈ samples, s.descIndex < keys.length := by
  unfold samplesOk
  rw [samplesOk_loop]
  simp

theorem Conn.write_error_kind {c : Conn} {bs : Bytes} {e : Failure × Conn}
    (h : c.write bs = .error e) : e.1 = .ioError := by
  unfold Conn.write at h
  split at h
  · simp only [Except.error.injEq] at h
    rw [← h]
  · simp at h

theorem Conn.readFull_error_kind {c : Conn} {n : Nat} {e : Failure × Conn}
    (h : c.readFull n = .error e) : e.1 = .ioError := by
  unfold Conn.readFull at h
  split at h
  · simp at h
  · simp only [Except.error.injEq] at h
    rw [← h]

theorem except_bind_error {ε α β : Type} {x : Except ε α} {f : α → Except ε β} {e : ε}
    (h : x >>= f = .error e) : x = .error e ∨ ∃ a, x = .ok a ∧ f a = .error e := by
  cases x with
  | error e1 =>
    simp only [bind, Except.bind, Except.error.injEq] at h
    exact Or.inl (by rw [h])
  | ok a => exact Or.inr ⟨a, rfl, h⟩

theorem switchContext_error_kind {keys : List GoString} {trackId : GoString}
    {st : DecryptState} {sp : SampleInfo} {e : Failure × Conn}
    (hk : sp.descIndex < keys.length) (h : switchContext keys trackId st sp = .error e) :
    e.1 = .ioError := by
  unfold switchContext at h
  split at h
  · rcases except_bind_error h with h0 | ⟨c0, _, h⟩
    · split at h0
      · exact Conn.write_error_kind h0
      · simp at h0
    · rw [List.get?_eq_get hk] at h
      simp only at h
      rcases except_bind_error h with h1 | ⟨c1, _, h⟩
      · exact Conn.write_error_kind h1
      rcases except_bind_error h with h2 | ⟨c2, _, h⟩
      · exact Conn.write_error_kind h2
      rcases except_bind_error h with h3 | ⟨c3, _, h⟩
      · exact Conn.write_error_kind h3
      exact Conn.write_error_kind h
  · simp at h

theorem decryptStep_error_kind {keys : List GoString} {trackId : GoString}
    {st : DecryptState} {sp : SampleInfo} {e : Failure × Conn}
    (hk : sp.descIndex < keys.length) (h : decryptStep keys trackId st sp = .error e) :
    e.1 = .ioError := by
  unfold decryptStep at h
  rcases except_bind_error h with h0 | ⟨c0, _, h⟩
  · exact switchContext_error_kind hk h0
  rcases except_bind_error h with h1 | ⟨c1, _, h⟩
  · exact Conn.write_error_kind h1
  rcases except_bind_error h with h2 | ⟨c2, _, h⟩
  · exact Conn.write_error_kind h2
  rcases except_bind_error h with h3 | ⟨r, _, h⟩
  · exact Conn.readFull_error_kind h3
  simp at h

theorem decryptLoop_error_kind {keys : List GoString} {trackId : GoString} :
    ∀ (samples : List SampleInfo) (st : DecryptState) (e : Failure × Conn),
      (∀ s ∈ samples, s.descIndex < keys.length) →
      decryptLoop keys trackId samples st = .error e → e.1 = .ioError := by
  intro samples
  induction samples with
  | nil => intro st e _ h; simp [decryptLoop] at h
  | cons sp rest ih =>
    intro st e hk h
    simp only [decryptLoop] at h
    split at h
    · rename_i e1 hstep
      simp only [Except.error.injEq] at h
      rw [← h]
      exact decryptStep_error_kind (hk sp (by simp)) hstep
    · exact ih _ e (fun s hs => hk s (List.mem_cons_of_mem _ hs)) h

/-- With every descriptor index inside the key list, the exchange never ends
in a panic: the lookup `keys[sp.descIndex]` is always in range. -/
theorem decryptSong_no_panic (samples : List SampleInfo) (keys : List GoString)
    (trackId : GoString) (conn : Conn) (hk : ∀ s ∈ samples, s.descIndex < keys.length)
    (c : Conn) : decryptSong samples keys trackId conn ≠ .error (.panicked, c) := by
  intro h
  unfold decryptSong at h
  split at h
  · rename_i e hloop
    simp only [Except.error.injEq] at h
    have := decryptLoop_error_kind samples _ e hk hloop
    rw [h] at this
    simp at this
  · split at h <;> simp at h

theorem extractMedia_ne_nil_nil (env : MediaEnv) : extractMedia env ≠ .returned none none := by
  intro h
  unfold extractMedia at h
  split at h
  · rename_i h1
    simp only [Outcome.returned.injEq, true_and] at h
    simp [h] at h1
  split at h
  · rename_i h1
    simp only [Outcome.returned.injEq, true_and] at h
    simp [h] at h1
  split at h
  · simp at h
  split at h
  · rename_i h1
    simp only [Outcome.returned.injEq, true_and] at h
    simp [h] at h1
  split at h
  · simp at h
  · split at h <;> simp at h

theorem ripLoop_reports :
    ∀ (tracks : List TrackEnv) (failed : Bool) (reports : List TrackReport),
      ∃ n, n ≤ tracks.length ∧
        (ripLoop tracks failed reports).2 = reports ++ (tracks.take n).map ripTrack ∧
        ((ripLoop tracks failed reports).1 ≠ none → n = tracks.length) := by
  intro tracks
  induction tracks with
  | nil => intro failed reports; exact ⟨0, by simp, by simp [ripLoop], by simp⟩
  | cons t rest ih =>
    intro failed reports
    simp only [ripLoop]
    split
    · exact ⟨1, by simp, by simp, by simp⟩
    · obtain ⟨n, hn, hrep, hfull⟩ := ih (failed || (ripTrack t).setsFailed) (reports ++ [ripTrack t])
      refine ⟨n + 1, by simpa using hn, ?_, ?_⟩
      · rw [hrep]
        simp
      · intro h
        simp [hfull h]

theorem ripSong_decrypt (t : TrackEnv) (keys : List GoString) (failed1 : Bool) :
    (∀ info, extractSong t.container = .returned (some info) none →
      (∃ s ∈ info.samples, keys.length ≤ s.descIndex) →
      (ripSong t keys failed1).decrypt = none) ∧
    (∀ run, (ripSong t keys failed1).decrypt = some run →
      ∃ info, extractSong t.container = .returned (some info) none ∧
        (∀ s ∈ info.samples, s.descIndex < keys.length) ∧
        run = decryptSongRun info keys t.id t.oracle) := by
  constructor
  · intro info hinfo ⟨s, hs, hsk⟩
    have hok : samplesOk info.samples keys = false := by
      cases hb : samplesOk info.samples keys with
      | false => rfl
      | true =>
        have := (samplesOk_iff _ _).mp hb s hs
        omega
    simp [ripSong, hinfo, hok]
  · intro run hrun
    unfold ripSong at hrun
    split at hrun
    · simp at hrun
    · simp at hrun
    · simp at hrun
    · rename_i info hinfo
      split at hrun
      · simp at hrun
      · rename_i hok
        simp only [Bool.not_eq_true', Bool.not_eq_false] at hok
        refine ⟨info, hinfo, (samplesOk_iff _ _).mp hok, ?_⟩
        simp only at hrun
        split at hrun <;> simp only [Option.some.injEq] at hrun <;> exact hrun.symm

/-- C13: in `rip`, what is done for the tracks is what the loop body does for
each track in turn; for every track whose samples, as returned by
`extractSong`, contain a sample with `descIndex >= len(keys)` for the keys
returned by `extractMedia`, `decryptSong` is not invoked, so nothing is sent
to the oracle; and whenever `decryptSong` is invoked from `rip`, every
descriptor index is below `len(keys)`, so the exchange never ends in the panic
of an out-of-range `keys[descIndex]`. -/
theorem rip_key_index_check (env : AlbumEnv) :
    (∃ n, n ≤ env.tracks.length ∧ (rip env).reports = (env.tracks.take n).map ripTrack) ∧
    (∀ (t : TrackEnv) (url : Url) (keys : List GoString) (info : SongInfo),
      extractMedia t.media = .returned (some (url, keys)) none →
      extractSong t.container = .returned (some info) none →
      (∃ s ∈ info.samples, keys.length ≤ s.descIndex) →
      (ripTrack t).decrypt = none) ∧
    (∀ (t : TrackEnv) (run : DecryptRun), (ripTrack t).decrypt = some run →
      ∃ (url : Url) (keys : List GoString) (info : SongInfo),
        extractMedia t.media = .returned (some (url, keys)) none ∧
        extractSong t.container = .returned (some info) none ∧
        (∀ s ∈ info.samples, s.descIndex < keys.length) ∧
        run = decryptSongRun info keys t.id t.oracle ∧
        ∀ c, decryptSong info.samples keys t.id t.oracle.conn ≠ .error (.panicked, c)) := by
  refine ⟨?_, ?_, ?_⟩
  · unfold rip
    split
    · exact ⟨0, by simp, by simp⟩
    · obtain ⟨n, hn, hrep, _⟩ := ripLoop_reports env.tracks false []
      refine ⟨n, hn, ?_⟩
      simp only [List.nil_append] at hrep
      split
      · rename_i reports hloop
        rw [hloop] at hrep
        exact hrep
      · rename_i failed reports hloop
        rw [hloop] at hrep
        split <;> exact hrep
  · intro t url keys info hmedia hsong hbad
    unfold ripTrack
    split
    · rfl
    · rfl
    · rfl
    · split
      · rfl
      · split
        · rfl
        · rw [hmedia]
          exact (ripSong_decrypt t keys _).1 info hsong hbad
  · intro t run hrun
    unfold ripTrack at hrun
    split at hrun
    · simp at hrun
    · simp at hrun
    · simp at hrun
    · split at hrun
      · simp at hrun
      · split at hrun
        · simp at hrun
        · split at hrun
          · simp at hrun
          · simp at hrun
          · rename_i hnil
            exact absurd hnil (extractMedia_ne_nil_nil t.media)
          · rename_i url keys hmedia
            obtain ⟨info, hsong, hk, hr⟩ := (ripSong_decrypt t keys _).2 run hrun
            exact ⟨url, keys, info, hmedia, hsong, hk, hr,
              decryptSong_no_panic info.samples keys t.id t.oracle.conn hk⟩

/-- Witness for C13: the first track of `mismatchAlbum` has samples with
descriptor index 5 and three keys; `decryptSong` is not invoked for it. -/
theorem rip_key_index_check_witness :
    (∃ s ∈ [({ data := [7, 8], duration := 1024, descIndex := 5 } : SampleInfo),
            { data := [9], duration := 2048, descIndex := 5 }],
      [prefetchKey, "skd://k1c23".toList.map Char.toNat,
        "skd://k2c6".toList.map Char.toNat].length ≤ s.descIndex) ∧
    (ripTrack (trackOf highIndexContainer [])).decrypt = none ∧
    (rip mismatchAlbum).reports.map (fun r => r.decrypt.isSome) = [false, true] :=
  ⟨⟨_, List.mem_cons_self _ _, by decide⟩,
   (rip_key_index_check mismatchAlbum).2.1 (trackOf highIndexContainer [])
     { path := "/hls/b_m.mp4".toList.map Char.toNat, others := [] }
     [prefetchKey, "skd://k1c23".toList.map Char.toNat, "skd://k2c6".toList.map Char.toNat]
     { alacParam := sampleAlac
       samples := [{ data := [7, 8], duration := 1024, descIndex := 5 },
                   { data := [9], duration := 2048, descIndex := 5 }] }
     (by decide) (by decide) ⟨_, List.mem_cons_self _ _, by decide⟩,
   by decide⟩

/-- C20 (evaluation at failing inputs): for an album with a good cover whose
first track fails the key-index check, `rip` processes both tracks and returns
a nil error; for an album whose first track has a container without any
fragment, `extractSong` returns (nil, nil) and `rip` ends in a panic at that
track, returning nothing and not processing the second track. -/
theorem rip_key_mismatch_returns_nil :
    (rip mismatchAlbum).ret = .returned none ∧
    (rip mismatchAlbum).reports.map (fun r => r.stage) = [.keyMismatch, .done] ∧
    (rip noFragmentAlbum).ret = .panicked ∧
    (rip noFragmentAlbum).reports.map (fun r => r.stage) = [.panicked] := by
  refine ⟨?_, ?_, ?_, ?_⟩ <;> decide

/-- In a completed exchange whose first sample has a descriptor index other
than 255, the first writes are the key-context-switch message for that index,
and the frame of the first sample follows it. -/
theorem decryptSong_first_switch (samples : List SampleInfo) (keys : List GoString)
    (trackId : GoString) (conn : Conn) (out : Exchange) (sp : SampleInfo)
    (rest : List SampleInfo) (hs : samples = sp :: rest) (h255 : sp.descIndex ≠ 255)
    (h : decryptSong samples keys trackId conn = .ok out) :
    ∃ (key resp : Bytes) (later : List Event),
      keys.get? sp.descIndex = some key ∧
      out.conn.log = conn.log
        ++ switchMessage (if key = prefetchKey then defaultId else trackId) key
        ++ sampleFrame sp.data resp ++ later := by
  subst hs
  obtain ⟨blocks, resps, tail, hbs, hls, hlog, _, _, _⟩ := decryptSong_ok h
  cases blocks with
  | nil => exact absurd hbs (by simp [SwitchBlocks])
  | cons b bs =>
    cases resps with
    | nil => simp at hls
    | cons r rs =>
      simp only [SwitchBlocks] at hbs
      rcases hbs.1 with ⟨heq, _⟩ | ⟨_, key, hkey, hblock⟩
      · exact absurd heq.symm h255
      · refine ⟨key, r, framedLog bs rest rs ++ tail, hkey, ?_⟩
        rw [hlog, hblock]
        simp [framedLog]

/-- C22 (evaluation at the failing input): for one sample with descriptor
index 255 and 256 keys, so that every index is in range, `decryptSong`
completes and the first writes to the oracle are the frame of the sample (its
length, then its bytes); no key-context-switch message is written at all. -/
theorem decryptSong_index_255_no_switch :
    (∀ s ∈ sample255, s.descIndex < keys256.length) ∧
    decryptSong sample255 keys256 [49, 50] (freshConn [1, 2])
      = .ok
          { conn :=
              { rx := []
                writesLeft := 97
                log := [.write [2, 0, 0, 0], .write [7, 8], .read [1, 2],
                        .write [0, 0, 0, 0, 0]] }
            decrypted := [1, 2] } := by
  refine ⟨?_, rfl⟩
  intro s hs
  simp only [sample255, List.mem_singleton] at hs
  subst hs
  simp only [keys256, List.length_cons, List.length_replicate]
  omega

theorem sttsExpand_length (entries : List SttsEntry) :
    (sttsExpand entries).length = (entries.map (fun e => e.sampleCount)).sum := by
  induction entries with
  | nil => rfl
  | cons e es ih =>
    simp only [sttsExpand, List.flatMap_cons, List.length_append, List.length_replicate,
      List.map_cons, List.sum_cons] at ih ⊢
    rw [ih]

theorem sttsExpand_sum (entries : List SttsEntry) :
    (sttsExpand entries).sum = (entries.map (fun e => e.sampleCount * e.sampleDelta)).sum := by
  induction entries with
  | nil => rfl
  | cons e es ih =>
    simp only [sttsExpand, List.flatMap_cons, List.sum_append, List.sum_replicate,
      List.map_cons, List.sum_cons, smul_eq_mul] at ih ⊢
    rw [ih]

theorem sum_le_length_mul (l : List Nat) (b : Nat) (h : ∀ x ∈ l, x ≤ b) :
    l.sum ≤ l.length * b := by
  induction l with
  | nil => simp
  | cons x xs ih =>
    have hx := h x (by simp)
    have hxs := ih (fun y hy => h y (List.mem_cons_of_mem _ hy))
    simp only [List.sum_cons, List.length_cons]
    nlinarith

/-- C23 (amended): for every sample sequence of fewer than 2^32 samples,
expanding the duration table built by `writeM4a` (each entry repeated
SampleCount times) yields exactly the list of sample durations in order; hence
the SampleCounts sum to the number of samples, and the sum of
SampleCount * SampleDelta is the sum of the durations, which modulo 2^64 is
`SongInfo.Duration()` and equals it when every duration is a 32-bit value. -/
theorem sttsTable_expansion (info : SongInfo) (h : info.samples.length < 2 ^ 32) :
    sttsExpand (sttsTable info.samples).entries = info.samples.map (fun s => s.duration) ∧
    ((sttsTable info.samples).entries.map (fun e => e.sampleCount)).sum = info.samples.length ∧
    ((sttsTable info.samples).entries.map (fun e => e.sampleCount * e.sampleDelta)).sum
      = (info.samples.map (fun s => s.duration)).sum ∧
    ((sttsTable info.samples).entries.map (fun e => e.sampleCount * e.sampleDelta)).sum % 2 ^ 64
      = info.Duration ∧
    ((∀ s ∈ info.samples, s.duration < 2 ^ 32) →
      ((sttsTable info.samples).entries.map (fun e => e.sampleCount * e.sampleDelta)).sum
        = info.Duration) := by
  obtain ⟨a, _, _⟩ := sttsLoop_invariant info.samples [] [] rfl List.chain'_nil (by simp)
    (by simpa using h)
  simp only [List.nil_append] at a
  have hexp : sttsExpand (sttsTable info.samples).entries
      = info.samples.map (fun s => s.duration) := a
  have hsum : ((sttsTable info.samples).entries.map
      (fun e => e.sampleCount * e.sampleDelta)).sum
      = (info.samples.map (fun s => s.duration)).sum := by
    rw [← sttsExpand_sum, hexp]
  refine ⟨hexp, ?_, hsum, ?_, ?_⟩
  · rw [← sttsExpand_length, hexp, List.length_map]
  · rw [hsum, Duration_eq_sum]
  · intro hd
    rw [hsum, Duration_eq_sum]
    symm
    apply Nat.mod_eq_of_lt
    have hb := sum_le_length_mul (info.samples.map (fun s => s.duration)) (2 ^ 32 - 1)
      (by
        intro x hx
        obtain ⟨s, hs, rfl⟩ := List.mem_map.mp hx
        have := hd s hs
        omega)
    rw [List.length_map] at hb
    have h1 : info.samples.length * (2 ^ 32 - 1) ≤ (2 ^ 32 - 1) * (2 ^ 32 - 1) :=
      Nat.mul_le_mul_right _ (by omega)
    have h2 : (2 ^ 32 - 1) * (2 ^ 32 - 1) < 2 ^ 64 := by norm_num
    omega

/-- Witness for C23 (amended) at the durations 1024, 1024, 1024, 2048,
2048. -/
theorem sttsTable_expansion_witness :
    ([1024, 1024, 1024, 2048, 2048].map sampleOfDuration).length < 2 ^ 32 ∧
    sttsExpand (sttsTable ([1024, 1024, 1024, 2048, 2048].map sampleOfDuration)).entries
      = [1024, 1024, 1024, 2048, 2048] ∧
    SongInfo.Duration
      { alacParam := sampleAlac, samples := [1024, 1024, 1024, 2048, 2048].map sampleOfDuration }
      = 7168 ∧
    sttsExpand (sttsTable (SongInfo.mk sampleAlac
        ([1024, 1024, 1024, 2048, 2048].map sampleOfDuration)).samples).entries
      = (SongInfo.mk sampleAlac
          ([1024, 1024, 1024, 2048, 2048].map sampleOfDuration)).samples.map
          (fun s => s.duration) :=
  ⟨by decide, by decide, by decide,
   (sttsTable_expansion
      { alacParam := sampleAlac, samples := [1024, 1024, 1024, 2048, 2048].map sampleOfDuration }
      (by decide)).1⟩

/-- C23 fails as stated: for 2^32 samples of duration 1024 the table is the
single entry (0, 1024); its expansion is empty and its SampleCounts sum to 0,
while there are 4294967296 durations. -/
theorem sttsTable_expansion_wraps :
    sttsExpand (sttsTable (List.replicate 4294967296 (sampleOfDuration 1024))).entries = [] ∧
    ((sttsTable (List.replicate 4294967296 (sampleOfDuration 1024))).entries.map
      (fun e => e.sampleCount)).sum = 0 ∧
    ((List.replicate 4294967296 (sampleOfDuration 1024)).map (fun s => s.duration)).length
      = 4294967296 := by
  have hrun : (sttsTable (List.replicate 4294967296 (sampleOfDuration 1024))).entries
      = [{ sampleCount := 0, sampleDelta := 1024 }] := by
    have h1 : List.replicate 4294967296 (sampleOfDuration 1024)
        = sampleOfDuration 1024 :: List.replicate 4294967295 (sampleOfDuration 1024) :=
      List.replicate_succ (sampleOfDuration 1024) 4294967295
    have h2 := sttsLoop_replicate (sampleOfDuration 1024) 4294967295 1 []
    simp only [sttsTable]
    rw [h1, List.foldl_cons]
    exact h2
  refine ⟨?_, ?_, ?_⟩
  · rw [hrun]
    rfl
  · rw [hrun]
    rfl
  · simp only [List.length_map, List.length_replicate]

/-- For a sample count `n` with `5 ≤ n < 2 ^ 32` the chunk map is well formed
against the `(n + 4) / 5` chunks of the chunk-offset table: the FirstChunk
values increase strictly, each lies between 1 and the number of chunks, and
the per-chunk counts read off the map sum to `n`. -/
theorem stscTable_well_formed (n : Nat) (h5 : 5 ≤ n) (h : n < 2 ^ 32) :
    List.Chain' (fun a b => a.firstChunk < b.firstChunk) (stscTable n).entries ∧
    (∀ e ∈ (stscTable n).entries, 1 ≤ e.firstChunk ∧ e.firstChunk ≤ (n + 4) / 5) ∧
    chunkTotal (stscTable n).entries ((n + 4) / 5) = n := by
  have h32 : (2 : Nat) ^ 32 = 4294967296 := by norm_num
  rw [h32] at h
  by_cases hm : n % 5 = 0
  · have he : (stscTable n).entries
        = [{ firstChunk := 1, samplesPerChunk := 5, sampleDescriptionIndex := 1 }] := by
      simp [stscTable, chunkSize, hm]
    rw [he]
    refine ⟨by simp, ?_, ?_⟩
    · intro e hmem
      simp only [List.mem_singleton] at hmem
      subst hmem
      simp only
      omega
    · have hconst : ∀ k : Nat, samplesInChunk
          [{ firstChunk := 1, samplesPerChunk := 5, sampleDescriptionIndex := 1 }] (k + 1) = 5 := by
        intro k
        simp [samplesInChunk]
      simp only [chunkTotal, hconst]
      simp only [List.map_const', List.length_range, List.sum_replicate, smul_eq_mul]
      omega
  · have hq : (n / 5 + 1) % 4294967296 = n / 5 + 1 := Nat.mod_eq_of_lt (by omega)
    have he : (stscTable n).entries
        = [{ firstChunk := 1, samplesPerChunk := 5, sampleDescriptionIndex := 1 },
           { firstChunk := n / 5 + 1, samplesPerChunk := n % 5, sampleDescriptionIndex := 1 }] := by
      simp [stscTable, chunkSize, hm, hq]
    rw [he]
    refine ⟨?_, ?_, ?_⟩
    · simp only [List.chain'_cons, List.chain'_singleton, and_true]
      omega
    · intro e hmem
      simp only [List.mem_cons, List.mem_singleton, List.not_mem_nil, or_false] at hmem
      rcases hmem with hmem | hmem
      · subst hmem
        simp only
        omega
      · subst hmem
        simp only
        omega
    · have hc : (n + 4) / 5 = n / 5 + 1 := by omega
      rw [hc]
      have hlow : ∀ k ∈ List.range (n / 5), samplesInChunk
          [{ firstChunk := 1, samplesPerChunk := 5, sampleDescriptionIndex := 1 },
           { firstChunk := n / 5 + 1, samplesPerChunk := n % 5, sampleDescriptionIndex := 1 }]
            (k + 1) = 5 := by
        intro k hk
        have hk2 : k < n / 5 := List.mem_range.mp hk
        have hnot : ¬ (n / 5 ≤ k) := by omega
        simp [samplesInChunk, List.filter_cons, hnot]
      have hlast : samplesInChunk
          [{ firstChunk := 1, samplesPerChunk := 5, sampleDescriptionIndex := 1 },
           { firstChunk := n / 5 + 1, samplesPerChunk := n % 5, sampleDescriptionIndex := 1 }]
            (n / 5 + 1) = n % 5 := by
        simp [samplesInChunk, List.filter_cons]
      simp only [chunkTotal, List.range_succ, List.map_append, List.map_cons, List.map_nil,
        List.sum_append, List.sum_cons, List.sum_nil, hlast, List.map_congr_left hlow]
      simp only [List.map_const', List.length_range, List.sum_replicate, smul_eq_mul]
      omega

/-- C24 (evaluation at the failing input): for three samples the chunk map
built by `writeM4a` has two entries that both carry FirstChunk 1, so its
FirstChunk values are not strictly increasing, although there is one chunk
(`ceil(3/5) = 1`) and the per-chunk counts read off the map still sum to 3. -/
theorem stscTable_three_samples :
    numSamples threeSamples = 3 ∧
    stscTable (numSamples threeSamples)
      = { entryCount := 2
          entries := [{ firstChunk := 1, samplesPerChunk := 5, sampleDescriptionIndex := 1 },
                      { firstChunk := 1, samplesPerChunk := 3, sampleDescriptionIndex := 1 }] } ∧
    (stscTable (numSamples threeSamples)).entries.map (fun e => e.firstChunk) = [1, 1] ∧
    ¬ List.Chain' (fun a b => a.firstChunk < b.firstChunk)
        (stscTable (numSamples threeSamples)).entries ∧
    chunkTotal (stscTable (numSamples threeSamples)).entries ((3 + 4) / 5) = 3 := by
  have he : (stscTable (numSamples threeSamples)).entries
      = [{ firstChunk := 1, samplesPerChunk := 5, sampleDescriptionIndex := 1 },
         { firstChunk := 1, samplesPerChunk := 3, sampleDescriptionIndex := 1 }] := by decide
  refine ⟨by decide, by decide, by decide, ?_, by decide⟩
  rw [he]
  simp only [List.chain'_cons, List.chain'_singleton, and_true]
  omega

/-- For a sample count `n` of 1 to 4 the two entries of the chunk map both
carry FirstChunk 1. -/
theorem stscTable_below_chunk (n : Nat) (h1 : 1 ≤ n) (h4 : n ≤ 4) :
    (stscTable n).entries.map (fun e => e.firstChunk) = [1, 1] := by
  interval_cases n <;> decide

/-- The four bytes of `bigEndian32` are bytes, and they carry the 32-bit value
unchanged. -/
theorem bigEndian32_value (v : Nat) (h : v < 2 ^ 32) :
    (∀ b ∈ bigEndian32 v, b < 256) ∧ bigEndianValue (bigEndian32 v) = v := by
  have h32 : (2 : Nat) ^ 32 = 4294967296 := by norm_num
  rw [h32] at h
  constructor
  · intro b hb
    simp only [bigEndian32, List.mem_cons, List.mem_singleton, List.not_mem_nil, or_false] at hb
    rcases hb with hb | hb | hb | hb <;> subst hb <;> omega
  · simp only [bigEndian32, bigEndianValue, List.foldl_cons, List.foldl_nil]
    omega

/-- C21 (amended): once its data box is started, `marshalData` accepts exactly
the four types `string`, `uint8`, `uint32` and `[]byte`. It hands each to the
box encoder with its own data type and its bytes unchanged (a string as UTF-8
text, a `uint8` as one big-endian integer byte, a `uint32` as its four
big-endian bytes, a byte slice as binary) and returns what the writer returns,
`nil` on a writer without errors. For a value of any other type it panics, with
no box encoded: it neither returns an error nor coerces the value. -/
theorem marshalData_encoding (env : BoxWriterEnv) (val : MetaValue)
    (hstart : env.startErr = none) :
    (∀ v, val = .text v →
      (marshalData env val).box = some { dataType := .stringUTF8, data := v }) ∧
    (∀ v, val = .uint8 v →
      (marshalData env val).box = some { dataType := .signedIntBigEndian, data := [v] }) ∧
    (∀ v, val = .uint32 v → v < 2 ^ 32 →
      ∃ bs, (marshalData env val).box = some { dataType := .signedIntBigEndian, data := bs } ∧
        bs.length = 4 ∧ (∀ b ∈ bs, b < 256) ∧ bigEndianValue bs = v) ∧
    (∀ v, val = .bytes v →
      (marshalData env val).box = some { dataType := .binary, data := v }) ∧
    ((∀ t, val ≠ .other t) →
      (marshalData env val).ret
        = .returned (match env.marshalErr with
                     | some e => some e
                     | none => env.endErr)) ∧
    (∀ t, val = .other t →
      (marshalData env val).ret = .panicked ∧ (marshalData env val).box = none) ∧
    ((marshalData env val).ret = .panicked ↔ ∃ t, val = .other t) := by
  refine ⟨?_, ?_, ?_, ?_, ?_, ?_, ?_⟩
  · intro v hv
    subst hv
    cases hm : env.marshalErr <;> simp [marshalData, dataBoxOf, hstart, hm]
  · intro v hv
    subst hv
    cases hm : env.marshalErr <;> simp [marshalData, dataBoxOf, hstart, hm]
  · intro v hv hlt
    subst hv
    refine ⟨bigEndian32 v, ?_, by simp [bigEndian32], (bigEndian32_value v hlt).1,
      (bigEndian32_value v hlt).2⟩
    cases hm : env.marshalErr <;> simp [marshalData, dataBoxOf, hstart, hm]
  · intro v hv
    subst hv
    cases hm : env.marshalErr <;> simp [marshalData, dataBoxOf, hstart, hm]
  · intro hsup
    cases val with
    | other t => exact absurd rfl (hsup t)
    | text v => cases hm : env.marshalErr <;> simp [marshalData, dataBoxOf, hstart, hm]
    | uint8 v => cases hm : env.marshalErr <;> simp [marshalData, dataBoxOf, hstart, hm]
    | uint32 v => cases hm : env.marshalErr <;> simp [marshalData, dataBoxOf, hstart, hm]
    | bytes v => cases hm : env.marshalErr <;> simp [marshalData, dataBoxOf, hstart, hm]
  · intro t ht
    subst ht
    simp [marshalData, dataBoxOf, hstart]
  · constructor
    · intro hp
      cases val with
      | other t => exact ⟨t, rfl⟩
      | text v => cases hm : env.marshalErr <;> simp [marshalData, dataBoxOf, hstart, hm] at hp
      | uint8 v => cases hm : env.marshalErr <;> simp [marshalData, dataBoxOf, hstart, hm] at hp
      | uint32 v => cases hm : env.marshalErr <;> simp [marshalData, dataBoxOf, hstart, hm] at hp
      | bytes v => cases hm : env.marshalErr <;> simp [marshalData, dataBoxOf, hstart, hm] at hp
    · rintro ⟨t, ht⟩
      subst ht
      simp [marshalData, dataBoxOf, hstart]

/-- Witness for C21 (amended): on a writer without errors the track-number
bytes of `writeM4a` are encoded as binary, unchanged, and `nil` is returned. -/
theorem marshalData_encoding_witness :
    goodWriter.startErr = none ∧
    marshalData goodWriter (.bytes [0, 0, 0, 3, 0, 12, 0, 0])
      = { ret := .returned none
          box := some { dataType := .binary, data := [0, 0, 0, 3, 0, 12, 0, 0] } } ∧
    (∀ v, MetaValue.bytes [0, 0, 0, 3, 0, 12, 0, 0] = .bytes v →
      (marshalData goodWriter (.bytes [0, 0, 0, 3, 0, 12, 0, 0])).box
        = some { dataType := .binary, data := v }) :=
  ⟨rfl, by decide,
    (marshalData_encoding goodWriter (.bytes [0, 0, 0, 3, 0, 12, 0, 0]) rfl).2.2.2.1⟩

/-- When the data box cannot be started, `marshalData` returns the start error
whatever the value, before the type switch is reached. -/
theorem marshalData_start_error (env : BoxWriterEnv) (val : MetaValue) (e : String)
    (hstart : env.startErr = some e) :
    marshalData env val = { ret := .returned (some e), box := none } := by
  simp [marshalData, hstart]

/-- C21 fails as stated: for a value of a type outside the type switch (here a
Go `int`) on a writer without errors, `marshalData` does not return an error to
its caller: it panics, and no box is encoded. -/
theorem marshalData_unsupported_panics :
    marshalData goodWriter (.other "int") = { ret := .panicked, box := none } ∧
    (∀ err, (marshalData goodWriter (.other "int")).ret ≠ .returned err) := by
  have hp : marshalData goodWriter (.other "int") = { ret := .panicked, box := none } := by
    decide
  refine ⟨hp, ?_⟩
  intro err h
  rw [hp] at h
  cases h

/-- C7: in every run of `writeM4a` the placeholder chunk-offset table reserved
before the payload is written and the real table computed afterwards both have
exactly ceil(n/5) entries, `n` being the 32-bit sample count, so the seek-back
patch overwrites exactly the reserved region. The stco block is reached
exactly when the stsz box before it could be closed, which bounds `n` by
1073741818, so that the 32-bit sum `n + chunkSize - 1` of the placeholder does
not wrap; the real table is computed exactly when, in addition, no call up to
the payload returns an error and the payload box could be closed. For `n = 12`
both tables have 3 entries. -/
theorem stcoPlaceholder_matches_patch (samples : List SampleInfo) (data : Bytes)
    (env : TableEnv) :
    (∀ reserved, (writeTables samples data env).reserved = some reserved →
      reserved.entryCount = (numSamples samples + 4) / 5 ∧
      reserved.chunkOffset.length = (numSamples samples + 4) / 5) ∧
    (∀ realStco, (writeTables samples data env).patched = some realStco →
      realStco.entryCount = (numSamples samples + 4) / 5 ∧
      realStco.chunkOffset.length = (numSamples samples + 4) / 5 ∧
      ∃ reserved, (writeTables samples data env).reserved = some reserved ∧
        reserved.entryCount = realStco.entryCount ∧
        reserved.chunkOffset.length = realStco.chunkOffset.length) ∧
    ((∃ reserved, (writeTables samples data env).reserved = some reserved) ↔
      env.stszEndErr = none ∧ numSamples samples ≤ 1073741818) ∧
    ((∃ realStco, (writeTables samples data env).patched = some realStco) ↔
      env.stszEndErr = none ∧ numSamples samples ≤ 1073741818 ∧ env.betweenErr = none ∧
        env.mdatEndErr = none ∧ 8 + data.length ≤ 4294967295) ∧
    (numSamples samples = 12 →
      (∀ reserved, (writeTables samples data env).reserved = some reserved →
        reserved.entryCount = 3 ∧ reserved.chunkOffset.length = 3) ∧
      (∀ realStco, (writeTables samples data env).patched = some realStco →
        realStco.entryCount = 3 ∧ realStco.chunkOffset.length = 3)) := by
  have hres : ∀ reserved, (writeTables samples data env).reserved = some reserved →
      reserved.entryCount = (numSamples samples + 4) / 5 ∧
      reserved.chunkOffset.length = (numSamples samples + 4) / 5 := by
    intro reserved hr
    rcases writeTables_reserved samples data env with ⟨_, hn, h⟩ | ⟨_, h, _, _⟩
    · rw [h] at hr
      simp only [Option.some.injEq] at hr
      subst hr
      exact stcoPlaceholder_length _ (by norm_num; omega)
    · rw [h] at hr
      simp at hr
  have hpat : ∀ realStco, (writeTables samples data env).patched = some realStco →
      realStco.entryCount = (numSamples samples + 4) / 5 ∧
      realStco.chunkOffset.length = (numSamples samples + 4) / 5 ∧
      ∃ reserved, (writeTables samples data env).reserved = some reserved ∧
        reserved.entryCount = realStco.entryCount ∧
        reserved.chunkOffset.length = realStco.chunkOffset.length := by
    intro realStco hp
    rcases writeTables_reserved samples data env with ⟨hs, hn, hr⟩ | ⟨_, _, h, _⟩
    · rcases writeTables_patched samples data env hs hn with
        ⟨_, _, _, h⟩ | ⟨_, _, h⟩ | ⟨e, _, h⟩
      · rw [h] at hp
        simp only [Option.some.injEq] at hp
        subst hp
        have hl := stcoPlaceholder_length (numSamples samples) (by norm_num; omega)
        refine ⟨rfl, by simp, _, hr, hl.1, ?_⟩
        rw [hl.2]
        simp
      · rw [h] at hp
        simp at hp
      · rw [h] at hp
        simp at hp
    · rw [h] at hp
      simp at hp
  refine ⟨hres, hpat, ?_, ?_, ?_⟩
  · constructor
    · rintro ⟨reserved, hr⟩
      rcases writeTables_reserved samples data env with ⟨hs, hn, _⟩ | ⟨_, h, _, _⟩
      · exact ⟨hs, hn⟩
      · rw [h] at hr
        simp at hr
    · rintro ⟨hs, hn⟩
      rcases writeTables_reserved samples data env with ⟨_, _, h⟩ | ⟨h, _, _, _⟩
      · exact ⟨_, h⟩
      · rcases h with h | h
        · exact absurd hs h
        · omega
  · constructor
    · rintro ⟨realStco, hp⟩
      rcases writeTables_reserved samples data env with ⟨hs, hn, _⟩ | ⟨_, _, h, _⟩
      · rcases writeTables_patched samples data env hs hn with
          ⟨hb, hm, hd, _⟩ | ⟨_, _, h⟩ | ⟨e, _, h⟩
        · exact ⟨hs, hn, hb, hm, hd⟩
        · rw [h] at hp
          simp at hp
        · rw [h] at hp
          simp at hp
      · rw [h] at hp
        simp at hp
    · rintro ⟨hs, hn, hb, hm, hd⟩
      rcases writeTables_patched samples data env hs hn with
        ⟨_, _, _, h⟩ | ⟨_, h, _⟩ | ⟨e, h, _⟩
      · exact ⟨_, by rw [h]⟩
      · rcases h with h | h
        · exact absurd hm h
        · omega
      · rw [hb] at h
        simp at h
  · intro h12
    constructor
    · intro reserved hr
      have := hres reserved hr
      rw [h12] at this
      exact this
    · intro realStco hp
      have := hpat realStco hp
      rw [h12] at this
      exact ⟨this.1, this.2.1⟩

/-- Witness for C7: twelve samples of 1, 2, .., 12 bytes, 78 bytes of payload
in a box at offset 1000: the placeholder has 3 zero entries and the real table
has 3 entries. -/
theorem stcoPlaceholder_matches_patch_witness :
    numSamples twelveSamples = 12 ∧
    writeTables twelveSamples (List.replicate 78 0) (tableEnvAt 1000)
      = { reserved := some { entryCount := 3, chunkOffset := [0, 0, 0] }
          patched := some { entryCount := 3, chunkOffset := [1008, 1023, 1063] }
          ret := .returned none } ∧
    (∀ realStco,
      (writeTables twelveSamples (List.replicate 78 0) (tableEnvAt 1000)).patched
        = some realStco →
      realStco.entryCount = 3 ∧ realStco.chunkOffset.length = 3) :=
  ⟨by decide, by decide,
    ((stcoPlaceholder_matches_patch twelveSamples (List.replicate 78 0)
      (tableEnvAt 1000)).2.2.2.2 (by decide)).2⟩

/-- C8 (amended): whenever `writeM4a` computes the real chunk-offset table,
which it does once the payload box is closed (a payload box that cannot be
closed is a panic), the k-th entry (k from 0) is the low 32 bits (the value
modulo 2^32) of the payload box's start offset plus its header size of 8 plus
the total length of samples 0 .. 5k-1; it is that sum itself, the real file
offset of the first byte of chunk k, whenever the sum is below 2^32. The table
has one entry per started chunk of the 32-bit sample count. -/
theorem stcoPatch_chunk_offsets (samples : List SampleInfo) (data : Bytes) (env : TableEnv) :
    (∀ realStco, (writeTables samples data env).patched = some realStco →
      realStco.chunkOffset.length = (numSamples samples + 4) / 5 ∧
      ∀ (k : Nat) (hk : k < realStco.chunkOffset.length),
        realStco.chunkOffset[k]
          = (env.mdatOffset + 8 + bytesBefore samples (5 * k)) % 2 ^ 32 ∧
        (env.mdatOffset + 8 + bytesBefore samples (5 * k) < 2 ^ 32 →
          realStco.chunkOffset[k] = env.mdatOffset + 8 + bytesBefore samples (5 * k))) ∧
    (env.stszEndErr = none → numSamples samples ≤ 1073741818 → env.betweenErr = none →
      (env.mdatEndErr = none → 8 + data.length ≤ 4294967295 →
        ∃ realStco, (writeTables samples data env).patched = some realStco) ∧
      (env.mdatEndErr ≠ none ∨ 4294967295 < 8 + data.length →
        (writeTables samples data env).patched = none ∧
        (writeTables samples data env).ret = .panicked)) := by
  constructor
  · intro realStco hp
    rcases writeTables_reserved samples data env with ⟨hs, hn, _⟩ | ⟨_, _, h, _⟩
    · rcases writeTables_patched samples data env hs hn with
        ⟨_, _, _, h⟩ | ⟨_, _, h⟩ | ⟨e, _, h⟩
      · rw [h] at hp
        simp only [Option.some.injEq] at hp
        subst hp
        refine ⟨by simp, ?_⟩
        intro k hk
        have hv : ((List.range ((numSamples samples + 4) / 5)).map
            (fun k => (env.mdatOffset + 8 + bytesBefore samples (5 * k)) % 2 ^ 32))[k]
            = (env.mdatOffset + 8 + bytesBefore samples (5 * k)) % 2 ^ 32 := by
          simp
        refine ⟨hv, ?_⟩
        intro hlt
        rw [hv]
        exact Nat.mod_eq_of_lt hlt
      · rw [h] at hp
        simp at hp
      · rw [h] at hp
        simp at hp
    · rw [h] at hp
      simp at hp
  · intro hs hn hb
    rcases writeTables_patched samples data env hs hn with
      ⟨_, hm, hd, h⟩ | ⟨_, hbad, h⟩ | ⟨e, he, _⟩
    · refine ⟨fun _ _ => ⟨_, by rw [h]⟩, ?_⟩
      intro hbad
      rcases hbad with hbad | hbad
      · exact absurd hm hbad
      · omega
    · refine ⟨?_, fun _ => by rw [h]; exact ⟨rfl, rfl⟩⟩
      intro hm hd
      rcases hbad with hbad | hbad
      · exact absurd hm hbad
      · omega
    · rw [hb] at he
      simp at he

/-- Witness for C8 (amended) on twelve samples of 1, 2, .., 12 bytes behind a
payload box at offset 1000: the chunks start at 1008, 1023 and 1063. -/
theorem stcoPatch_chunk_offsets_witness :
    (writeTables twelveSamples (List.replicate 78 0) (tableEnvAt 1000)).patched
      = some { entryCount := 3, chunkOffset := [1008, 1023, 1063] } ∧
    ((1000 + 8 + bytesBefore twelveSamples (5 * 0), 1000 + 8 + bytesBefore twelveSamples (5 * 1),
      1000 + 8 + bytesBefore twelveSamples (5 * 2)) = (1008, 1023, 1063)) ∧
    ({ entryCount := 3, chunkOffset := [1008, 1023, 1063] } : Stco).chunkOffset.length
      = (numSamples twelveSamples + 4) / 5 :=
  ⟨by decide, by decide,
    ((stcoPatch_chunk_offsets twelveSamples (List.replicate 78 0) (tableEnvAt 1000)).1
      { entryCount := 3, chunkOffset := [1008, 1023, 1063] } (by decide)).1⟩

/-- C8 fails as stated: for twelve samples of 1, 2, .., 12 bytes whose payload
box of 86 bytes starts at file offset 4294967290, behind a movie box of almost
4 GiB, every box is closed without an error and the table is computed, but its
entries are 2, 17 and 57, while the first bytes of the three chunks are at the
file offsets 4294967298, 4294967313 and 4294967353. -/
theorem stcoPatch_offset_truncated :
    writeTables twelveSamples (List.replicate 78 0) (tableEnvAt 4294967290)
      = { reserved := some { entryCount := 3, chunkOffset := [0, 0, 0] }
          patched := some { entryCount := 3, chunkOffset := [2, 17, 57] }
          ret := .returned none } ∧
    (List.range 3).map (fun k => 4294967290 + 8 + bytesBefore twelveSamples (5 * k))
      = [4294967298, 4294967313, 4294967353] ∧
    bytesBefore twelveSamples 12 = (List.replicate 78 0).length := by
  refine ⟨by decide, by decide, by decide⟩

end AlacDownloader
